import Mathlib

/-!
# Gedis: keyspace engine and transaction pipeline

A shallow embedding of the Go sources of the repository:

* `datastruct/dict/concurrent.go`  (namespace `Gedis.dict`)
* `datastruct/lock/lock_map.go`    (namespace `Gedis.lock`)
* `redis/protocol/consts.go`       (type `Gedis.Reply`)
* `redis/connection/conn.go`       (type `Gedis.Connection`)
* `database/router.go`, `database/signleDB.go`, `database/transaction.go`
* `database/database.go`           (type `Gedis.MultiDB`)
* `redis/parser/parser.go`         (namespace `Gedis.parser`)
* `datastruct/list/linked.go`      (namespace `Gedis.list`)

Conventions of the embedding.

* Stateful Go code is written in state-passing style: a method that mutates its
  receiver returns the new receiver next to its Go result.
* The model is sequential.  The mutexes of the shards and the `stopWorld`
  wait-group only order concurrent callers; they have no effect on a single caller
  and are left out.  The lock table of `lock.Locks` is kept, together with the
  history of the operations performed on it.
* A Go `string` / `[]byte` is a Lean `String`; its bytes are its UTF-8 bytes.
* `uint32` values are natural numbers reduced modulo `2^32`; `int` is 64 bits wide
  and `int32` 32 bits wide, both with wrap-around.
* A run-time panic is the outcome `Outcome.panic`; the state component next to it is
  the state at the moment the panic leaves the function (deferred calls included).
-/

namespace Gedis

/-! ## Machine integers and strings -/

/-- Truncation to `uint32`. -/
def u32 (n : Nat) : Nat := n % 4294967296

/-- Wrap-around of a 64-bit signed `int`. -/
def wrapInt (x : Int) : Int := (x + 9223372036854775808) % 18446744073709551616 - 9223372036854775808

/-- Wrap-around of an `int32`. -/
def wrapInt32 (x : Int) : Int := (x + 2147483648) % 4294967296 - 2147483648

/-- The bytes of a Go string, `key[i]` for `i = 0 .. len(key) - 1`. -/
def strBytes (s : String) : List Nat := s.toUTF8.data.toList.map UInt8.toNat

/-! ## Go maps

A Go `map[string]V` is an association list in which a key occurs at most once;
`m[k] = v` overwrites in place or appends, `delete(m, k)` drops the key.  The order
of the list stands for one of the iteration orders Go may choose. -/

/-- Go `map[string]V`. -/
abbrev GoMap (V : Type) := List (String × V)

namespace GoMap

/-- The lookup `v, ok := m[key]`. -/
def get {V : Type} : GoMap V → String → Option V
  | [], _ => none
  | (k, v) :: rest, key => if k = key then some v else get rest key

/-- The assignment `m[key] = val`. -/
def set {V : Type} : GoMap V → String → V → GoMap V
  | [], key, val => [(key, val)]
  | (k, v) :: rest, key, val => if k = key then (key, val) :: rest else (k, v) :: set rest key val

/-- The statement `delete(m, key)`. -/
def delete {V : Type} : GoMap V → String → GoMap V
  | [], _ => []
  | (k, v) :: rest, key => if k = key then delete rest key else (k, v) :: delete rest key

end GoMap

/-! ## `datastruct/dict/concurrent.go` -/

namespace dict

/-- One slot of the table: `shard.m` (the mutex is left out). -/
structure shard (V : Type) where
  m : GoMap V
deriving DecidableEq, Repr

/-- The sharded dictionary `ConcurrentDict`. -/
structure ConcurrentDict (V : Type) where
  table : List (shard V)
  count : Int
  shardCount : Int
deriving DecidableEq, Repr

/-- `computeCapacity`: 16 for `param <= 16`, otherwise `param - 1` with its highest
set bit smeared over the 31 lower positions, plus one.  Here `n` is positive, so the
bit operations are those of the natural number. -/
def computeCapacity (param : Int) : Int :=
  if param ≤ 16 then 16
  else
    let n := (param - 1).toNat
    let n := n ||| (n >>> 1)
    let n := n ||| (n >>> 2)
    let n := n ||| (n >>> 4)
    let n := n ||| (n >>> 8)
    let n := n ||| (n >>> 16)
    let n : Int := n
    if n < 0 then 2147483647
    else wrapInt (n + 1)

/-- `MakeConcurrent`: a table of `computeCapacity shardCount` empty shards. -/
def MakeConcurrent {V : Type} (shardCount : Int) : ConcurrentDict V :=
  let shardCount := computeCapacity shardCount
  { table := List.replicate shardCount.toNat ⟨[]⟩, count := 0, shardCount := shardCount }

/-- The constant `prime32`. -/
def prime32 : Nat := 16777619

/-- `fnv32`: start from 2166136261; per byte multiply by `prime32` (in `uint32`), then
xor the byte. -/
def fnv32 (key : String) : Nat :=
  (strBytes key).foldl (fun hash b => u32 (hash * prime32) ^^^ b) 2166136261

/-- `spread`: `(tableSize - 1) & hashCode` in `uint32` arithmetic. -/
def ConcurrentDict.spread {V : Type} (d : ConcurrentDict V) (hashCode : Nat) : Nat :=
  u32 (u32 d.table.length + 4294967295) &&& hashCode

/-- `getShard`: `dict.table[index]`.  `spread` yields an index below the table length
whenever the table is not empty; on an empty table Go panics and the model reads an
empty shard. -/
def ConcurrentDict.getShard {V : Type} (d : ConcurrentDict V) (index : Nat) : shard V :=
  d.table.getD index ⟨[]⟩

/-- The in-place update of the map of `table[index]`. -/
def ConcurrentDict.setShard {V : Type} (d : ConcurrentDict V) (index : Nat) (sh : shard V) :
    ConcurrentDict V :=
  { d with table := d.table.set index sh }

/-- `addCount`: `atomic.AddInt32(&dict.count, 1)`. -/
def ConcurrentDict.addCount {V : Type} (d : ConcurrentDict V) : ConcurrentDict V :=
  { d with count := wrapInt32 (d.count + 1) }

/-- `decreaseCount`: `atomic.AddInt32(&dict.count, -1)`. -/
def ConcurrentDict.decreaseCount {V : Type} (d : ConcurrentDict V) : ConcurrentDict V :=
  { d with count := wrapInt32 (d.count - 1) }

/-- `Len`. -/
def ConcurrentDict.Len {V : Type} (d : ConcurrentDict V) : Int := d.count

/-- `Get`: `none` is `exists = false`. -/
def ConcurrentDict.Get {V : Type} (d : ConcurrentDict V) (key : String) : Option V :=
  let hashCode := fnv32 key
  let index := d.spread hashCode
  let sh := d.getShard index
  sh.m.get key

/-- `Put`: result 0 when the key was there, 1 (and the count raised) when it was not. -/
def ConcurrentDict.Put {V : Type} (d : ConcurrentDict V) (key : String) (val : V) :
    Int × ConcurrentDict V :=
  let hashCode := fnv32 key
  let index := d.spread hashCode
  let sh := d.getShard index
  match sh.m.get key with
  | some _ => (0, d.setShard index ⟨sh.m.set key val⟩)
  | none => (1, (d.setShard index ⟨sh.m.set key val⟩).addCount)

/-- `Remove`: result 1 (and the count lowered) when the key was there, 0 otherwise. -/
def ConcurrentDict.Remove {V : Type} (d : ConcurrentDict V) (key : String) :
    Int × ConcurrentDict V :=
  let hashCode := fnv32 key
  let index := d.spread hashCode
  let sh := d.getShard index
  match sh.m.get key with
  | some _ => (1, (d.setShard index ⟨sh.m.delete key⟩).decreaseCount)
  | none => (0, d)

/-- `Clear`: `*dict = *MakeConcurrent(dict.shardCount)`. -/
def ConcurrentDict.Clear {V : Type} (d : ConcurrentDict V) : ConcurrentDict V :=
  MakeConcurrent d.shardCount

/-- `PutIfAbsent`: result 0 and nothing written when the key is there, else the value
is stored, the count raised and the result is 1. -/
def ConcurrentDict.PutIfAbsent {V : Type} (d : ConcurrentDict V) (key : String) (val : V) :
    Int × ConcurrentDict V :=
  let hashCode := fnv32 key
  let index := d.spread hashCode
  let shard := d.getShard index
  match shard.m.get key with
  | some _ => (0, d)
  | none => (1, (d.setShard index ⟨shard.m.set key val⟩).addCount)

/-- `PutIfExists`: the value is replaced and the result is 1 when the key is there,
else nothing is written and the result is 0. -/
def ConcurrentDict.PutIfExists {V : Type} (d : ConcurrentDict V) (key : String) (val : V) :
    Int × ConcurrentDict V :=
  let hashCode := fnv32 key
  let index := d.spread hashCode
  let shard := d.getShard index
  match shard.m.get key with
  | some _ => (1, d.setShard index ⟨shard.m.set key val⟩)
  | none => (0, d)

/-- The type `Consumer`, `func(key string, val interface{}) bool`.  A Go closure may
update what it captures; `σ` is that captured state. -/
abbrev Consumer (σ V : Type) := σ → String → V → Bool × σ

/-- The closure that `ForEach` runs on one shard: the entries of the map in turn, left
with `return` as soon as the consumer answers false. -/
def forEachInShard {σ V : Type} (consumer : Consumer σ V) : σ → GoMap V → σ
  | s, [] => s
  | s, (key, value) :: rest =>
    let r := consumer s key value
    if !r.1 then r.2 else forEachInShard consumer r.2 rest

/-- `ForEach`: `for _, shard := range dict.table`, the closure above on each shard.
The `return` of the closure ends the closure only; the loop over the table has no
exit of its own. -/
def ConcurrentDict.ForEach {σ V : Type} (d : ConcurrentDict V) (consumer : Consumer σ V)
    (s : σ) : σ :=
  d.table.foldl (fun s shard => forEachInShard consumer s shard.m) s

end dict

/-! ## `datastruct/lock/lock_map.go` -/

namespace lock

/-- A `sync.RWMutex` seen by one caller: how often it is write-held and read-held. -/
structure RWMutex where
  writers : Nat
  readers : Nat
deriving DecidableEq, Repr

/-- One operation on the mutex at an index of the table. -/
inductive LockEvent where
  | Lock (index : Nat)
  | RLock (index : Nat)
  | Unlock (index : Nat)
  | RUnlock (index : Nat)
deriving DecidableEq, Repr

/-- The lock table `Locks`, with the history of the operations performed on it
(oldest first). -/
structure Locks where
  table : List RWMutex
  history : List LockEvent
deriving DecidableEq, Repr

/-- `Make`: `tableSize` free mutexes. -/
def Make (tableSize : Nat) : Locks :=
  { table := List.replicate tableSize ⟨0, 0⟩, history := [] }

/-- The constant `prime32`. -/
def prime32 : Nat := 16777619

/-- `fnv32` of the lock package. -/
def fnv32 (key : String) : Nat :=
  (strBytes key).foldl (fun hash b => u32 (hash * prime32) ^^^ b) 2166136261

/-- `spread`: `(tableSize - 1) & hashCode` in `uint32` arithmetic. -/
def Locks.spread (locks : Locks) (hashCode : Nat) : Nat :=
  u32 (u32 locks.table.length + 4294967295) &&& hashCode

/-- Replace the mutex at `index` by `f` of it. -/
def Locks.onMutex (locks : Locks) (index : Nat) (f : RWMutex → RWMutex) (ev : LockEvent) :
    Locks :=
  { table := match locks.table.get? index with
      | some mu => locks.table.set index (f mu)
      | none => locks.table,
    history := locks.history ++ [ev] }

/-- `locks.table[index].Lock()`. -/
def Locks.muLock (locks : Locks) (index : Nat) : Locks :=
  locks.onMutex index (fun mu => { mu with writers := mu.writers + 1 }) (.Lock index)

/-- `locks.table[index].RLock()`. -/
def Locks.muRLock (locks : Locks) (index : Nat) : Locks :=
  locks.onMutex index (fun mu => { mu with readers := mu.readers + 1 }) (.RLock index)

/-- `locks.table[index].Unlock()`. -/
def Locks.muUnlock (locks : Locks) (index : Nat) : Locks :=
  locks.onMutex index (fun mu => { mu with writers := mu.writers - 1 }) (.Unlock index)

/-- `locks.table[index].RUnlock()`. -/
def Locks.muRUnlock (locks : Locks) (index : Nat) : Locks :=
  locks.onMutex index (fun mu => { mu with readers := mu.readers - 1 }) (.RUnlock index)

/-- `toLockIndices`: the distinct indices of the keys, sorted ascending, or descending
when `reverse` is set. -/
def Locks.toLockIndices (locks : Locks) (key : List String) (reverse : Bool) : List Nat :=
  let indexMap := (key.map fun k => locks.spread (fnv32 k)).dedup
  if reverse then indexMap.insertionSort (fun a b => a > b)
  else indexMap.insertionSort (fun a b => a < b)

/-- `RWLocks`: write-lock the indices of the write keys, read-lock the other indices,
in ascending order. -/
def Locks.RWLocks (locks : Locks) (writeKeys readKeys : List String) : Locks :=
  let keys := writeKeys ++ readKeys
  let indices := locks.toLockIndices keys false
  let writeIndexSet := writeKeys.map fun k => locks.spread (fnv32 k)
  indices.foldl
    (fun l index => if index ∈ writeIndexSet then l.muLock index else l.muRLock index) locks

/-- `RWUnLocks`: release in descending order. -/
def Locks.RWUnLocks (locks : Locks) (writeKeys readKeys : List String) : Locks :=
  let keys := writeKeys ++ readKeys
  let indices := locks.toLockIndices keys true
  let writeIndexSet := writeKeys.map fun k => locks.spread (fnv32 k)
  indices.foldl
    (fun l index => if index ∈ writeIndexSet then l.muUnlock index else l.muRUnlock index) locks

end lock

/-! ## `redis/protocol` -/

/-- Modelled from the spec: the reply kinds.  `PongReply`, `OkReply`, `NullBulkReply`,
`EmptyMultiBulkReply`, `NoReply` and `QueuedReply` are the types of `consts.go`; the
factories `MakeErrReply`, `MakeArgNumErrReply`, `MakeIntReply`, `MakeStatusReply`,
`MakeBulkReply`, `MakeMultiBulkReply`, `MakeMultiRawReply` and the type
`UnknownErrReply` are used by the sources but declared in files that are not at
hand; each is a constructor carrying the arguments of the factory.  `ArgNumErrReply cmd`
is the reply with the text `ERR wrong number of arguments for '<cmd>' command`. -/
inductive Reply where
  | PongReply
  | OkReply
  | NullBulkReply
  | EmptyMultiBulkReply
  | NoReply
  | QueuedReply
  | ErrReply (status : String)
  | ArgNumErrReply (cmd : String)
  | UnknownErrReply
  | IntReply (code : Int)
  | StatusReply (status : String)
  | BulkReply (arg : String)
  | MultiBulkReply (args : List String)
  | MultiRawReply (replies : List Reply)

/-- What a Go call hands back: a value, or a panic that unwinds to the caller. -/
inductive Outcome (α : Type) where
  | ret (a : α)
  | panic

/-! ## `redis/connection/conn.go` -/

/-- A command line `[][]byte`: the command name followed by its arguments. -/
abbrev CmdLine := List String

/-- The transaction and selection fields of `Connection`.  `watching = none` is the
nil map; a nil `queue` is the empty list. -/
structure Connection where
  password : String
  multiState : Bool
  queue : List CmdLine
  watching : Option (GoMap Nat)
  selectedDB : Int
deriving DecidableEq, Repr

namespace Connection

/-- `InMultiState`. -/
def InMultiState (c : Connection) : Bool := c.multiState

/-- `SetMultiState`: leaving the multi state also drops `watching` and `queue`. -/
def SetMultiState (c : Connection) (state : Bool) : Connection :=
  let c := if !state then { c with watching := none, queue := [] } else c
  { c with multiState := state }

/-- `GetQueuedCmdLine`. -/
def GetQueuedCmdLine (c : Connection) : List CmdLine := c.queue

/-- `EnqueueCmd`: `c.queue = append(c.queue, cmdLine)`. -/
def EnqueueCmd (c : Connection) (cmdLine : CmdLine) : Connection :=
  { c with queue := c.queue ++ [cmdLine] }

/-- `ClearQueuedCmds`. -/
def ClearQueuedCmds (c : Connection) : Connection := { c with queue := [] }

/-- `GetWatching`. -/
def GetWatching (c : Connection) : Option (GoMap Nat) := c.watching

/-- `GetDBIndex`. -/
def GetDBIndex (c : Connection) : Int := c.selectedDB

/-- `SelectDB`. -/
def SelectDB (c : Connection) (dbNum : Int) : Connection := { c with selectedDB := dbNum }

end Connection

/-! ## `database/router.go` and `database/signleDB.go` -/

/-- `DataEntity`: the wrapper around a stored value; the engine never looks inside. -/
structure DataEntity where
  Data : String
deriving DecidableEq, Repr

/-- An instant of `time.Time`, as a count of clock ticks. -/
abbrev Time := Int

/-- The struct `DB` (`MakeDB` fills the three dictionaries with `ConcurrentDict`s). -/
structure DB where
  index : Int
  data : dict.ConcurrentDict DataEntity
  ttlMap : dict.ConcurrentDict Time
  versionMap : dict.ConcurrentDict Nat
  locker : lock.Locks
deriving DecidableEq, Repr

/-- `ExecFunc`: runs on the database it is handed and returns a reply. -/
abbrev ExecFunc := DB → List String → Reply × DB

/-- `PreFunc`: the write keys and the read keys of an argument list. -/
abbrev PreFunc := List String → List String × List String

/-- `UndoFunc`: the compensating command lines; it receives the database too. -/
abbrev UndoFunc := DB → List String → List CmdLine × DB

/-- The descriptor `command`; `none` is a nil function value. -/
structure command where
  executor : Option ExecFunc
  prepare : Option PreFunc
  undo : Option UndoFunc
  arity : Int

/-- What the engine takes from outside the sources at hand: the registry `cmdTable`
as filled by the `init` functions, the library function `strings.ToLower`, and the
functions `protocol.IsErrorReply` and `execFlushDB`, which are declared in files that
are not at hand. -/
structure Env where
  cmdTable : String → Option command
  ToLower : String → String
  IsErrorReply : Reply → Bool
  execFlushDB : ExecFunc

/-- The constants `dataDicSize`, `ttlDicSize`, `lockerSize`. -/
def dataDicSize : Int := 65536

/-- See `dataDicSize`. -/
def ttlDicSize : Int := 1024

/-- See `dataDicSize`. -/
def lockerSize : Nat := 1024

/-- `MakeDB`. -/
def MakeDB : DB :=
  { index := 0,
    data := dict.MakeConcurrent dataDicSize,
    ttlMap := dict.MakeConcurrent ttlDicSize,
    versionMap := dict.MakeConcurrent dataDicSize,
    locker := lock.Make lockerSize }

/-- `validateArity`: `argNum == arity` for `arity >= 0`, else `argNum >= -arity`
(negation of a 64-bit `int`). -/
def validateArity (arity : Int) (cmdArgs : CmdLine) : Bool :=
  let argNum : Int := cmdArgs.length
  if arity ≥ 0 then decide (argNum = arity)
  else decide (argNum ≥ wrapInt (-arity))

namespace DB

/-- `GetVersion`: 0 for a key without an entry. -/
def GetVersion (db : DB) (key : String) : Nat :=
  match db.versionMap.Get key with
  | none => 0
  | some entity => entity

/-- `AddVersion`: for each key in turn, store `GetVersion(key) + 1` (a `uint32`). -/
def AddVersion (db : DB) : List String → DB
  | [] => db
  | key :: keys =>
    let v := db.GetVersion key
    AddVersion { db with versionMap := (db.versionMap.Put key (u32 (v + 1))).2 } keys

/-- `RWLocks` on the locker of the database. -/
def RWLocks (db : DB) (writeKeys readKeys : List String) : DB :=
  { db with locker := db.locker.RWLocks writeKeys readKeys }

/-- `RWUnLocks` on the locker of the database. -/
def RWUnLocks (db : DB) (writeKeys readKeys : List String) : DB :=
  { db with locker := db.locker.RWUnLocks writeKeys readKeys }

/-- `PutEntity`. -/
def PutEntity (db : DB) (key : String) (entity : DataEntity) : Int × DB :=
  let r := db.data.Put key entity
  (r.1, { db with data := r.2 })

/-- `Remove`: drops the key from `data` and from `ttlMap`.  The call
`timewheel.Cancel` acts on the timer table only, which is not part of `DB`. -/
def Remove (db : DB) (key : String) : DB :=
  let db := { db with data := (db.data.Remove key).2 }
  { db with ttlMap := (db.ttlMap.Remove key).2 }

/-- `Expire`: `ttlMap.Put(key, expireTime)`.  The call `timewheel.At` registers a
callback in the timer table, which is not part of `DB`. -/
def Expire (db : DB) (key : String) (expireTime : Time) : DB :=
  { db with ttlMap := (db.ttlMap.Put key expireTime).2 }

/-- `Persist`: `ttlMap.Remove(key)`. -/
def Persist (db : DB) (key : String) : DB :=
  { db with ttlMap := (db.ttlMap.Remove key).2 }

/-- `Flush`: clears `data` and `ttlMap` and installs a fresh lock table. -/
def Flush (db : DB) : DB :=
  { db with data := db.data.Clear, ttlMap := db.ttlMap.Clear, locker := lock.Make lockerSize }

end DB

namespace DB

/-- `execNormalCommand`: look the descriptor up, check the arity, compute the key
sets, bump the versions of the write keys, lock, run the executor, unlock (deferred). -/
def execNormalCommand (env : Env) (db : DB) (cmdLine : CmdLine) : Outcome Reply × DB :=
  match cmdLine with
  | [] => (.panic, db)
  | name :: args =>
    let cmdName := env.ToLower name
    match env.cmdTable cmdName with
    | none => (.ret (.ErrReply ("ERR unknown command '" ++ cmdName ++ "'")), db)
    | some cmd =>
      if !validateArity cmd.arity cmdLine then (.ret (.ArgNumErrReply cmdName), db)
      else
        match cmd.prepare with
        | none => (.panic, db)
        | some prepare =>
          let (write, read) := prepare args
          let db := db.AddVersion write
          let db := db.RWLocks write read
          match cmd.executor with
          | none => (.panic, db.RWUnLocks write read)
          | some executor =>
            let (result, db) := executor db args
            (.ret result, db.RWUnLocks write read)

/-- `execWithLock`: as `execNormalCommand`, without key sets, version bump and locks. -/
def execWithLock (env : Env) (db : DB) (cmdLine : CmdLine) : Outcome Reply × DB :=
  match cmdLine with
  | [] => (.panic, db)
  | name :: args =>
    let cmdName := env.ToLower name
    match env.cmdTable cmdName with
    | none => (.ret (.ErrReply ("ERR unknown command '" ++ cmdName ++ "'")), db)
    | some cmd =>
      if !validateArity cmd.arity cmdLine then (.ret (.ArgNumErrReply cmdName), db)
      else
        match cmd.executor with
        | none => (.panic, db)
        | some fun_ =>
          let (result, db) := fun_ db args
          (.ret result, db)

/-- `GetUndoLogs`: nil for an unknown command, else the result of `cmd.undo`. -/
def GetUndoLogs (env : Env) (db : DB) (cmdLine : CmdLine) : Outcome (List CmdLine) × DB :=
  match cmdLine with
  | [] => (.panic, db)
  | name :: args =>
    let cmdName := env.ToLower name
    match env.cmdTable cmdName with
    | none => (.ret [], db)
    | some cmd =>
      match cmd.undo with
      | none => (.panic, db)
      | some undo =>
        let (logs, db) := undo db args
        (.ret logs, db)

end DB

/-! ## `database/transaction.go` -/

/-- The set `forbiddenInMulti`. -/
def forbiddenInMulti : List String := ["flushdb", "flushall"]

/-- The loop of `Watch`: `watching[key] = db.GetVersion(key)` per argument; writing
to a nil map panics. -/
def watchLoop (db : DB) : Option (GoMap Nat) → List String → Outcome (Option (GoMap Nat))
  | watching, [] => .ret watching
  | none, _ :: _ => .panic
  | some watching, bkey :: rest =>
    watchLoop db (some (watching.set bkey (db.GetVersion bkey))) rest

/-- `Watch`. -/
def Watch (db : DB) (conn : Connection) (args : List String) : Outcome Reply × Connection :=
  match watchLoop db conn.GetWatching args with
  | .panic => (.panic, conn)
  | .ret watching => (.ret .OkReply, { conn with watching := watching })

/-- `isWatchingChanged`: some watched key has a version other than the recorded one. -/
def isWatchingChanged (db : DB) (watching : Option (GoMap Nat)) : Bool :=
  (watching.getD []).any fun kv => decide (kv.2 ≠ db.GetVersion kv.1)

/-- `StartMulti`. -/
def StartMulti (conn : Connection) : Reply × Connection :=
  if conn.InMultiState then (.ErrReply "ERR MULTI calls can not be nested", conn)
  else (.OkReply, conn.SetMultiState true)

/-- `EnqueueCmd` of `transaction.go`. -/
def EnqueueCmd (env : Env) (conn : Connection) (cmdLine : CmdLine) :
    Outcome Reply × Connection :=
  match cmdLine with
  | [] => (.panic, conn)
  | name :: _ =>
    let cmdName := env.ToLower name
    match env.cmdTable cmdName with
    | none => (.ret (.ErrReply ("ERR unknown command '" ++ cmdName ++ "'")), conn)
    | some cmd =>
      if cmdName ∈ forbiddenInMulti then
        (.ret (.ErrReply ("ERR command '" ++ cmdName ++ "' cannot be used in MULTI")), conn)
      else if cmd.prepare.isNone then
        (.ret (.ErrReply ("ERR command '" ++ cmdName ++ "' cannot be used in MULTI")), conn)
      else if !validateArity cmd.arity cmdLine then
        (.ret (.ArgNumErrReply cmdName), conn)
      else (.ret .QueuedReply, conn.EnqueueCmd cmdLine)

/-- `DiscardMulti`. -/
def DiscardMulti (conn : Connection) : Reply × Connection :=
  if !conn.InMultiState then (.ErrReply "ERR DISCARD without MULTI", conn)
  else (.OkReply, (conn.ClearQueuedCmds).SetMultiState false)

/-- First loop of `ExecMulti`: the write and read keys of the queued commands,
appended in queue order; `none` when a command line is empty, is not in the table or
has no `prepare` (a panic). -/
def collectKeys (env : Env) (writeKeys readKeys : List String) :
    List CmdLine → Option (List String × List String)
  | [] => some (writeKeys, readKeys)
  | [] :: _ => none
  | (name :: args) :: rest =>
    match env.cmdTable (env.ToLower name) with
    | none => none
    | some cmd =>
      match cmd.prepare with
      | none => none
      | some prepare =>
        let (write, read) := prepare args
        collectKeys env (writeKeys ++ write) (readKeys ++ read) rest

/-- The state of the execution loop of `ExecMulti` when it is left. -/
structure ExecLoop where
  resultQueue : List Reply
  undoQueue : List (List CmdLine)
  aborted : Bool

/-- Second loop of `ExecMulti`: run each command with `execWithLock`; stop at the
first error reply; otherwise record the undo logs (computed after the command has
run) and the reply. -/
def execLoop (env : Env) (db : DB) (resultQueue : List Reply)
    (undoQueue : List (List CmdLine)) : List CmdLine → Outcome ExecLoop × DB
  | [] => (.ret ⟨resultQueue, undoQueue, false⟩, db)
  | cmdLine :: rest =>
    match db.execWithLock env cmdLine with
    | (.panic, db) => (.panic, db)
    | (.ret result, db) =>
      if env.IsErrorReply result then (.ret ⟨resultQueue, undoQueue, true⟩, db)
      else
        match db.GetUndoLogs env cmdLine with
        | (.panic, db) => (.panic, db)
        | (.ret logs, db) => execLoop env db (resultQueue ++ [result]) (undoQueue ++ [logs]) rest

/-- Inner undo loop: run the command lines of one undo entry in order. -/
def undoLines (env : Env) (db : DB) : List CmdLine → Outcome Unit × DB
  | [] => (.ret (), db)
  | cmdLine :: rest =>
    match db.execWithLock env cmdLine with
    | (.panic, db) => (.panic, db)
    | (.ret _, db) => undoLines env db rest

/-- Outer undo loop over the entries in the order given (the caller passes the undo
queue reversed, for `i := size - 1; i >= 0; i--`). -/
def undoEntries (env : Env) (db : DB) : List (List CmdLine) → Outcome Unit × DB
  | [] => (.ret (), db)
  | curCmdLines :: rest =>
    match undoLines env db curCmdLines with
    | (.panic, db) => (.panic, db)
    | (.ret _, db) => undoEntries env db rest

/-- `ExecMulti`. -/
def DB.ExecMulti (env : Env) (db : DB) (watching : Option (GoMap Nat))
    (cmdLines : List CmdLine) : Outcome Reply × DB :=
  match collectKeys env [] [] cmdLines with
  | none => (.panic, db)
  | some (writeKeys, readKeys) =>
    let watchingKeys := (watching.getD []).map Prod.fst
    let readKeys := readKeys ++ watchingKeys
    let db := db.RWLocks writeKeys readKeys
    if isWatchingChanged db watching then
      (.ret .EmptyMultiBulkReply, db.RWUnLocks writeKeys readKeys)
    else
      match execLoop env db [] [] cmdLines with
      | (.panic, db) => (.panic, db.RWUnLocks writeKeys readKeys)
      | (.ret loop, db) =>
        if !loop.aborted then
          let db := db.AddVersion writeKeys
          (.ret (.MultiRawReply loop.resultQueue), db.RWUnLocks writeKeys readKeys)
        else
          match undoEntries env db loop.undoQueue.reverse with
          | (.panic, db) => (.panic, db.RWUnLocks writeKeys readKeys)
          | (.ret _, db) =>
            (.ret (.ErrReply "EXECABORT Transaction discarded because of previous errors."),
              db.RWUnLocks writeKeys readKeys)

/-- `execMulti`: `ExecMulti` on the queue and the watching map of the connection; the
deferred `SetMultiState(false)` runs on every way out. -/
def execMulti (env : Env) (db : DB) (conn : Connection) : Outcome Reply × DB × Connection :=
  if !conn.InMultiState then (.ret (.ErrReply "ERR EXEC without MULTI"), db, conn)
  else
    let cmdLines := conn.GetQueuedCmdLine
    let r := db.ExecMulti env conn.GetWatching cmdLines
    (r.1, r.2, conn.SetMultiState false)

/-- `DB.Exec`: the transaction commands, `flushdb`, queueing while in the multi state,
and the normal dispatch. -/
def DB.Exec (env : Env) (db : DB) (c : Connection) (cmdLine : CmdLine) :
    Outcome Reply × DB × Connection :=
  match cmdLine with
  | [] => (.panic, db, c)
  | name :: args =>
    let cmdName := env.ToLower name
    if cmdName = "multi" then
      if cmdLine.length ≠ 1 then (.ret (.ArgNumErrReply cmdName), db, c)
      else let r := StartMulti c; (.ret r.1, db, r.2)
    else if cmdName = "discard" then
      if cmdLine.length ≠ 1 then (.ret (.ArgNumErrReply cmdName), db, c)
      else let r := DiscardMulti c; (.ret r.1, db, r.2)
    else if cmdName = "exec" then
      if cmdLine.length ≠ 1 then (.ret (.ArgNumErrReply cmdName), db, c)
      else execMulti env db c
    else if cmdName = "watch" then
      if validateArity (-2) cmdLine then (.ret (.ArgNumErrReply cmdName), db, c)
      else let r := Watch db c args; (r.1, db, r.2)
    else if cmdName = "flushdb" then
      if !validateArity 1 cmdLine then (.ret (.ArgNumErrReply cmdName), db, c)
      else if c.InMultiState then
        (.ret (.ErrReply "ERR command 'FlushDB' cannot be used in MULTI"), db, c)
      else let r := env.execFlushDB db args; (.ret r.1, r.2, c)
    else if c.InMultiState then
      let r := EnqueueCmd env c cmdLine
      match r.1 with
      | .panic => (.panic, db, r.2)
      | .ret _ => (.ret .QueuedReply, db, r.2)
    else
      let r := db.execNormalCommand env cmdLine
      (r.1, r.2, c)

/-! ## `datastruct/dict/concurrent.go`: `Keys`, `RandomKey`, `RandomKeys` -/

/-- The callback of `Keys`.  Its captured state is the slice `keys` and the index `i`:
the key goes to `keys[i]` while `i < len(keys)`, and is appended otherwise. -/
def dict.keysConsumer {V : Type} : dict.Consumer (List String × Int) V :=
  fun s key _ =>
    if s.2 < (s.1.length : Int) then (true, (s.1.set s.2.toNat key, s.2 + 1))
    else (true, (s.1 ++ [key], s.2))

/-- `Keys`: a slice of `Len()` empty strings, filled by `ForEach`.  `make` panics on a
negative length. -/
def dict.ConcurrentDict.Keys {V : Type} (d : dict.ConcurrentDict V) : Outcome (List String) :=
  if d.Len < 0 then .panic
  else .ret (d.ForEach dict.keysConsumer (List.replicate d.Len.toNat "", 0)).1

/-- `RandomKey` of a shard: the first key that `for key := range shard.m` yields, the
empty string for an empty map.  Go starts the iteration of a map at an entry of its own
choosing; `pick` is that choice. -/
def dict.shard.RandomKey {V : Type} (sh : dict.shard V) (pick : Nat) : String :=
  (sh.m.map Prod.fst).getD (pick % sh.m.length) ""

/-- The loop of `RandomKeys`, `for i := 0; i < limit; `.  Each round takes one pair from
`draws`: the number from which `rand.Intn(shardCount)` is reduced and the choice of
`RandomKey`.  `rand.Intn` panics when `shardCount` is not positive.  The value `none`
says that the loop is still running when the draws are used up. -/
def dict.randomKeysLoop {V : Type} (d : dict.ConcurrentDict V) (shardCount limit : Int) :
    List String → Int → List (Nat × Nat) → Option (Outcome (List String))
  | result, i, [] =>
    if i < limit then (if shardCount ≤ 0 then some .panic else none) else some (.ret result)
  | result, i, draw :: rest =>
    if i < limit then
      if shardCount ≤ 0 then some .panic
      else
        let sh := d.getShard (u32 (draw.1 % shardCount.toNat))
        let key := sh.RandomKey draw.2
        if key ≠ "" then dict.randomKeysLoop d shardCount limit (result.set i.toNat key) (i + 1) rest
        else dict.randomKeysLoop d shardCount limit result i rest
    else some (.ret result)

/-- `RandomKeys`: all keys when `limit >= Len()`, else `limit` slots filled by the loop.
`make` panics on a negative length. -/
def dict.ConcurrentDict.RandomKeys {V : Type} (d : dict.ConcurrentDict V) (limit : Int)
    (draws : List (Nat × Nat)) : Option (Outcome (List String)) :=
  let size := d.Len
  if limit ≥ size then some d.Keys
  else
    let shardCount : Int := d.table.length
    if limit < 0 then some .panic
    else dict.randomKeysLoop d shardCount limit (List.replicate limit.toNat "") 0 draws

/-! ## `database/signleDB.go`: entities and expiry

`time.Now()` is a parameter `now` of the functions that read the clock. -/

namespace DB

/-- `PutIfExists`. -/
def PutIfExists (db : DB) (key : String) (entity : DataEntity) : Int × DB :=
  let r := db.data.PutIfExists key entity
  (r.1, { db with data := r.2 })

/-- `PutIfAbsent`. -/
def PutIfAbsent (db : DB) (key : String) (entity : DataEntity) : Int × DB :=
  let r := db.data.PutIfAbsent key entity
  (r.1, { db with data := r.2 })

/-- The loop of `Removes`: a key found in `data` is removed and counted. -/
def removesLoop : DB → Int → List String → Int × DB
  | db, deleted, [] => (deleted, db)
  | db, deleted, key :: keys =>
    match db.data.Get key with
    | some _ => removesLoop (db.Remove key) (wrapInt (deleted + 1)) keys
    | none => removesLoop db deleted keys

/-- `Removes`. -/
def Removes (db : DB) (keys : List String) : Int × DB :=
  removesLoop db 0 keys

/-- `IsExpired`: false without an entry in `ttlMap`; otherwise whether `now` is after
the entry, and the key is removed when it is. -/
def IsExpired (db : DB) (now : Time) (key : String) : Bool × DB :=
  match db.ttlMap.Get key with
  | none => (false, db)
  | some expireTime =>
    let expired := decide (now > expireTime)
    if expired then (expired, db.Remove key) else (expired, db)

/-- `GetEntity`: `none` is `(nil, false)`. -/
def GetEntity (db : DB) (now : Time) (key : String) : Option DataEntity × DB :=
  match db.data.Get key with
  | none => (none, db)
  | some raw =>
    let r := db.IsExpired now key
    if r.1 then (none, r.2) else (some raw, r.2)

end DB

/-! ## `strconv` (Go standard library) -/

/-- What `strconv.ParseInt` and `strconv.Atoi` return: the value and whether the error
is not nil. -/
structure strconv.Result where
  val : Int
  err : Bool
deriving DecidableEq, Repr

/-- `strconv.ParseInt(s, 10, bitSize)` after the documentation of the library: an
optional sign followed by one or more decimal digits.  A syntax error yields the value 0;
a number that does not fit `bitSize` bits yields the nearest bound, both with an error. -/
def strconv.ParseInt (s : String) (bitSize : Nat) : strconv.Result :=
  match s.data with
  | [] => ⟨0, true⟩
  | c :: rest =>
    let neg := decide (c = '-')
    let digits := if c = '+' ∨ c = '-' then rest else c :: rest
    if digits.isEmpty || !digits.all Char.isDigit then ⟨0, true⟩
    else
      let un : Int := digits.foldl (fun n digit => 10 * n + (digit.toNat - 48)) 0
      let cutoff : Int := 2 ^ (bitSize - 1)
      if !neg && decide (un ≥ cutoff) then ⟨cutoff - 1, true⟩
      else if neg && decide (un > cutoff) then ⟨-cutoff, true⟩
      else ⟨if neg then -un else un, false⟩

/-- `strconv.Atoi(s)`: `ParseInt(s, 10, 0)` as an `int` of 64 bits. -/
def strconv.Atoi (s : String) : strconv.Result := strconv.ParseInt s 64

/-! ## `database/database.go` -/

/-- The struct `MultiDB`. -/
structure MultiDB where
  dbSet : List DB

/-- What the façade takes from files that are not at hand: the functions `Auth` and
`isAuthenticated`. -/
structure AuthEnv where
  Auth : Connection → List String → Outcome Reply × Connection
  isAuthenticated : Connection → Bool

/-- `execSelect`: the index is parsed and stored in the connection; `mdb` is not used. -/
def execSelect (c : Connection) (_mdb : MultiDB) (args : List String) :
    Outcome Reply × Connection :=
  match args with
  | [] => (.panic, c)
  | arg :: _ =>
    let r := strconv.Atoi arg
    if r.err then (.ret (.ErrReply "ERR invalid DB index"), c)
    else (.ret .OkReply, c.SelectDB r.val)

namespace MultiDB

/-- `flushAll`. -/
def flushAll (mdb : MultiDB) : Reply × MultiDB :=
  (.OkReply, ⟨mdb.dbSet.map DB.Flush⟩)

/-- The body of `MultiDB.Exec`, before the deferred `recover`. -/
def execBody (env : Env) (auth : AuthEnv) (mdb : MultiDB) (c : Connection) (cmdLine : CmdLine) :
    Outcome Reply × MultiDB × Connection :=
  match cmdLine with
  | [] => (.panic, mdb, c)
  | name :: args =>
    let cmdName := env.ToLower name
    let dbIndex := c.GetDBIndex
    if dbIndex ≥ (mdb.dbSet.length : Int) then
      (.ret (.ErrReply "ERR DB index is out of range"), mdb, c)
    else if cmdName = "auth" then
      let r := auth.Auth c args
      (r.1, mdb, r.2)
    else if cmdName = "command" then (.ret .OkReply, mdb, c)
    else if !auth.isAuthenticated c then
      (.ret (.ErrReply "NOAUTH Authentication required"), mdb, c)
    else if cmdName = "flushall" then
      let r := mdb.flushAll
      (.ret r.1, r.2, c)
    else if cmdName = "select" then
      if c.InMultiState then
        (.ret (.ErrReply "cannot select database within multi"), mdb, c)
      else if cmdLine.length ≠ 2 then (.ret (.ArgNumErrReply "select"), mdb, c)
      else
        let r := execSelect c mdb args
        (r.1, mdb, r.2)
    else if dbIndex < 0 then (.panic, mdb, c)
    else
      match mdb.dbSet.get? dbIndex.toNat with
      | none => (.panic, mdb, c)
      | some selectedDB =>
        let r := selectedDB.Exec env c cmdLine
        (r.1, ⟨mdb.dbSet.set dbIndex.toNat r.2.1⟩, r.2.2)

/-- `MultiDB.Exec`: a panic of the body is recovered and answered by `UnknownErrReply`. -/
def Exec (env : Env) (auth : AuthEnv) (mdb : MultiDB) (c : Connection) (cmdLine : CmdLine) :
    Reply × MultiDB × Connection :=
  match mdb.execBody env auth c cmdLine with
  | (.panic, mdb, c) => (.UnknownErrReply, mdb, c)
  | (.ret result, mdb, c) => (result, mdb, c)

end MultiDB

/-- `execGetVersion`.  The dispatcher calls it with one argument (arity 2); on an empty
argument list, where Go panics, the model reads the empty key. -/
def execGetVersion : ExecFunc := fun db args =>
  let key := args.headD ""
  let version := db.GetVersion key
  (.IntReply version, db)

/-! ## `runtime` (Go runtime)

`make([]byte, n)` goes through `makeslice`, which panics with `len out of range` when
`n` is negative or above `maxAlloc`.  Memory itself is not bounded in the model: a
length that passes this check is allocated. -/

/-- `maxAlloc` on a 64-bit platform with 48 address bits (`1 << heapAddrBits`). -/
def runtime.maxAlloc : Int := 281474976710656

/-! ## `redis/parser/parser.go`

In the parser a byte is the character with the code of the byte, so that `string(msg)`
and `[]byte(s)` only change the wrapping.  The reader is the list of the bytes that
arrive before the end of the stream. -/

namespace parser

/-- `Payload`: `Data = none` is a nil reply, `Err = none` a nil error, else its text. -/
structure Payload where
  Data : Option Reply
  Err : Option String

/-- The struct `readState`. -/
structure readState where
  readingMultiLine : Bool
  expectedArgsCount : Int
  msgType : Char
  args : List String
  bulkLen : Int
deriving DecidableEq, Repr

/-- The zero value `readState{}`. -/
def readState.zero : readState := ⟨false, 0, Char.ofNat 0, [], 0⟩

/-- `finished`. -/
def readState.finished (s : readState) : Bool :=
  decide (s.expectedArgsCount > 0) && decide ((s.args.length : Int) = s.expectedArgsCount)

/-- The index expression `msg[i]`; `none` when the index is out of range (a panic). -/
def index (msg : List Char) (i : Int) : Option Char :=
  if 0 ≤ i ∧ i < (msg.length : Int) then msg.get? i.toNat else none

/-- The slice expression `msg[lo:hi]`; `none` when the bounds are out of range (a
panic). -/
def slice (msg : List Char) (lo hi : Int) : Option (List Char) :=
  if 0 ≤ lo ∧ lo ≤ hi ∧ hi ≤ (msg.length : Int) then some ((msg.take hi.toNat).drop lo.toNat)
  else none

/-- `bufReader.ReadBytes('\n')`: the bytes up to and including the first line feed, no
error, and the bytes left; at the end of the stream, what was read and an error. -/
def ReadBytes : List Char → List Char × Bool × List Char
  | [] => ([], true, [])
  | c :: input =>
    if c = '\n' then ([c], false, input)
    else
      let r := ReadBytes input
      (c :: r.1, r.2.1, r.2.2)

/-- `io.ReadFull(bufReader, msg)` on a fresh `msg` of `n` bytes: the next `n` bytes of
the stream, followed by zero bytes when the stream ends early, and the bytes left. -/
def ReadFull (input : List Char) (n : Nat) : List Char × List Char :=
  (input.take n ++ List.replicate (n - (input.take n).length) (Char.ofNat 0), input.drop n)

/-- What `readLine` returns, with the bytes left in the reader and the state. -/
structure Line where
  msg : List Char
  ioErr : Bool
  err : Option String
  rest : List Char
  state : readState

/-- `readLine`: a line up to the line feed when `bulkLen` is 0, else `bulkLen + 2` bytes.
The error of `ReadFull` is dropped, as in the source.  `make` panics on a negative
length and on a length above `runtime.maxAlloc`. -/
def readLine (input : List Char) (state : readState) : Outcome Line :=
  if state.bulkLen = 0 then
    let r := ReadBytes input
    if r.2.1 then .ret ⟨[], true, some "EOF", r.2.2, state⟩
    else
      let msg := r.1
      if msg.length = 0 then .ret ⟨[], false, some ("protocol error: " ++ ⟨msg⟩), r.2.2, state⟩
      else
        match index msg ((msg.length : Int) - 2) with
        | none => .panic
        | some b =>
          if b ≠ '\r' then .ret ⟨[], false, some ("protocol error: " ++ ⟨msg⟩), r.2.2, state⟩
          else .ret ⟨msg, false, none, r.2.2, state⟩
  else
    let n := wrapInt (state.bulkLen + 2)
    if n < 0 ∨ n > runtime.maxAlloc then .panic
    else
      let r := ReadFull input n.toNat
      let msg := r.1
      if msg.length = 0 then .ret ⟨[], false, some ("protocol error: " ++ ⟨msg⟩), r.2, state⟩
      else
        match index msg ((msg.length : Int) - 2), index msg ((msg.length : Int) - 1) with
        | some b, some b' =>
          if b ≠ '\r' ∨ b' ≠ '\n' then
            .ret ⟨[], false, some ("protocol error: " ++ ⟨msg⟩), r.2, state⟩
          else .ret ⟨msg, false, none, r.2, { state with bulkLen := 0 }⟩
        | _, _ => .panic

/-- `parseMultiBulkHeader`: the error (`none` for nil) and the state. -/
def parseMultiBulkHeader (msg : List Char) (state : readState) :
    Outcome (Option String × readState) :=
  match slice msg 1 ((msg.length : Int) - 2), index msg 0 with
  | some digits, some b =>
    let r := strconv.ParseInt ⟨digits⟩ 32
    if r.err then .ret (some ("protocol error: " ++ ⟨msg⟩), state)
    else
      let expectedLine := r.val
      if expectedLine = 0 then .ret (none, { state with expectedArgsCount := 0 })
      else if expectedLine > 0 then
        .ret (none, { state with
          msgType := b, readingMultiLine := true, expectedArgsCount := expectedLine, args := [] })
      else .ret (some ("protocol error: " ++ ⟨msg⟩), state)
  | _, _ => .panic

/-- `parseBulkHeader`: `bulkLen` is assigned before the error is looked at. -/
def parseBulkHeader (msg : List Char) (state : readState) :
    Outcome (Option String × readState) :=
  match slice msg 1 ((msg.length : Int) - 2), index msg 0 with
  | some digits, some b =>
    let r := strconv.ParseInt ⟨digits⟩ 32
    let state := { state with bulkLen := r.val }
    if r.err then .ret (some ("protocol error: " ++ ⟨msg⟩), state)
    else if state.bulkLen = -1 then .ret (none, state)
    else if state.bulkLen > 0 then
      .ret (none, { state with
        msgType := b, readingMultiLine := true, expectedArgsCount := 1, args := [] })
    else .ret (some ("protocol error: " ++ ⟨msg⟩), state)
  | _, _ => .panic

/-- `readBody`: a line that starts with `$` is read as a length header, any other line
is appended to `args`. -/
def readBody (msg : List Char) (state : readState) : Outcome (Option String × readState) :=
  match slice msg 0 ((msg.length : Int) - 2) with
  | none => .panic
  | some line =>
    match index line 0 with
    | none => .panic
    | some b =>
      if b = '$' then
        match slice line 1 line.length with
        | none => .panic
        | some digits =>
          let r := strconv.ParseInt ⟨digits⟩ 64
          let state := { state with bulkLen := r.val }
          if r.err then .ret (some ("protocol error: " ++ ⟨msg⟩), state)
          else if state.bulkLen ≤ 0 then
            .ret (none, { state with args := state.args ++ [""], bulkLen := 0 })
          else .ret (none, state)
      else .ret (none, { state with args := state.args ++ [⟨line⟩] })

/-- `strings.TrimSuffix`. -/
def TrimSuffix (s suffix : List Char) : List Char :=
  if suffix.isSuffixOf s then s.take (s.length - suffix.length) else s

/-- `strings.Split(s, sep)` for a separator of one byte. -/
def Split : List Char → Char → List (List Char)
  | [], _ => [[]]
  | c :: rest, sep =>
    if c = sep then [] :: Split rest sep
    else
      match Split rest sep with
      | [] => [[c]]
      | word :: words => (c :: word) :: words

/-- `parseSingleReply`: the reply (`none` for nil) and the error. -/
def parseSingleReply (msg : List Char) : Outcome (Option Reply × Option String) :=
  let str := TrimSuffix msg ['\r', '\n']
  match index msg 0 with
  | none => .panic
  | some b =>
    if b = '+' then
      match slice str 1 str.length with
      | none => .panic
      | some text => .ret (some (.StatusReply ⟨text⟩), none)
    else if b = '-' then
      match slice str 1 str.length with
      | none => .panic
      | some text => .ret (some (.ErrReply ⟨text⟩), none)
    else if b = ':' then
      match slice str 1 str.length with
      | none => .panic
      | some text =>
        let r := strconv.ParseInt ⟨text⟩ 64
        if r.err then .ret (none, some ("protocol error: " ++ ⟨msg⟩))
        else .ret (some (.IntReply r.val), none)
    else .ret (some (.MultiBulkReply ((Split str ' ').map String.mk)), none)

/-- One pass through the body of the `for` loop of `parse0`.  `next`: the pass ends or
reaches `continue`, with the payloads sent, the state and the bytes left.  `close`: the
branch of the input error, with the payload sent; the channel is closed and `parse0`
returns.  `panic`: the pass panics; the deferred `recover` ends `parse0` and the channel
stays open. -/
inductive Round where
  | next (sent : List Payload) (state : readState) (rest : List Char)
  | close (sent : List Payload)
  | panic

/-- The body of the `for` loop of `parse0`. -/
def round (input : List Char) (state : readState) : Round :=
  match readLine input state with
  | .panic => .panic
  | .ret l =>
    match l.err with
    | some err =>
      if l.ioErr then .close [⟨none, some err⟩]
      else .next [⟨none, some err⟩] readState.zero l.rest
    | none =>
      let msg := l.msg
      let state := l.state
      if !state.readingMultiLine then
        match index msg 0 with
        | none => .panic
        | some b =>
          if b = '*' then
            match parseMultiBulkHeader msg state with
            | .panic => .panic
            | .ret (some _, _) =>
              .next [⟨none, some ("protocol error: " ++ ⟨msg⟩)⟩] readState.zero l.rest
            | .ret (none, state) =>
              if state.expectedArgsCount = 0 then
                .next [⟨some .EmptyMultiBulkReply, none⟩] readState.zero l.rest
              else .next [] state l.rest
          else if b = '$' then
            match parseBulkHeader msg state with
            | .panic => .panic
            | .ret (some err, _) => .next [⟨none, some err⟩] readState.zero l.rest
            | .ret (none, state) =>
              if state.bulkLen = -1 then
                .next [⟨some .NullBulkReply, none⟩] readState.zero l.rest
              else .next [] state l.rest
          else
            match parseSingleReply msg with
            | .panic => .panic
            | .ret (result, err) => .next [⟨result, err⟩] readState.zero l.rest
      else
        match readBody msg state with
        | .panic => .panic
        | .ret (some _, _) =>
          .next [⟨none, some ("protocol error: " ++ ⟨msg⟩)⟩] readState.zero l.rest
        | .ret (none, state) =>
          if state.finished then
            if state.msgType = '*' then
              .next [⟨some (.MultiBulkReply state.args), none⟩] readState.zero l.rest
            else if state.msgType = '$' then
              match state.args with
              | [] => .panic
              | arg :: _ => .next [⟨some (.BulkReply arg), none⟩] readState.zero l.rest
            else .next [⟨none, none⟩] readState.zero l.rest
          else .next [] state l.rest

/-- How a run of `parse0` ends.  `closed`: after an input error, with the channel
closed.  `panicked`: after a panic; nothing more is sent and the channel stays open.
`running`: the loop is still going when the fuel is used up. -/
inductive Ending where
  | closed
  | panicked
  | running
deriving DecidableEq, Repr

/-- The payloads sent on the channel, in order, and how the run ends. -/
structure Trace where
  payloads : List Payload
  ending : Ending

/-- The `for` loop of `parse0`, for at most `fuel` passes. -/
def parseLoop : Nat → List Char → readState → List Payload → Trace
  | 0, _, _, sent => ⟨sent, .running⟩
  | fuel + 1, input, state, sent =>
    match round input state with
    | .panic => ⟨sent, .panicked⟩
    | .close ps => ⟨sent ++ ps, .closed⟩
    | .next ps state rest => parseLoop fuel rest state (sent ++ ps)

/-- `parse0` on a reader that delivers `reader`.  A pass either takes a byte from the
reader or leaves the state at zero with nothing to read, so `length + 2` passes are
enough: the run always ends closed or by a panic (lemma `parser.parse0_ends`). -/
def parse0 (reader : List Char) : Trace :=
  parseLoop (reader.length + 2) reader readState.zero []

end parser

/-! ## `datastruct/list/linked.go`

The nodes of a list live in an arena owned by the list: `heap` holds every node
allocated so far, in allocation order, and a `*node` is the position of the node in the
arena (`none` is the nil pointer).  A node that is unlinked stays in the arena, as it
stays on the Go heap until collected.  A panic is reported with its message; the list
next to it is the list at the moment of the panic. -/

namespace list

/-- A Go value of type `interface{}` as the list handles it: a value of the element
type, a `*node` (the pointer may be nil), or the nil interface. -/
inductive Any (V : Type) where
  | val (v : V)
  | node (ptr : Option Nat)
  | nil
deriving DecidableEq, Repr

/-- The struct `node`. -/
structure node (V : Type) where
  val : Any V
  prev : Option Nat
  next : Option Nat
deriving DecidableEq, Repr

/-- The struct `LinkedList`, with the arena of its nodes. -/
structure LinkedList (V : Type) where
  heap : List (node V)
  first : Option Nat
  last : Option Nat
  size : Int
deriving DecidableEq, Repr

/-- The message of the run-time panic on `n.field` for a nil `n`. -/
def nilDereference : String := "invalid memory address or nil pointer dereference"

/-- The assignment to the fields of the node at `ptr`. -/
def update {V : Type} (heap : List (node V)) (ptr : Nat) (f : node V → node V) :
    List (node V) :=
  match heap[ptr]? with
  | some n => heap.set ptr (f n)
  | none => heap

/-- `Add`: a new node at the end. -/
def LinkedList.Add {V : Type} (l : LinkedList V) (val : Any V) : LinkedList V :=
  let n := l.heap.length
  match l.last with
  | none =>
    { heap := l.heap ++ [⟨val, none, none⟩], first := some n, last := some n,
      size := wrapInt (l.size + 1) }
  | some last =>
    { heap := update (l.heap ++ [⟨val, some last, none⟩]) last (fun m => { m with next := some n }),
      first := l.first, last := some n, size := wrapInt (l.size + 1) }

/-- The loop `n = n.next`, `steps` times. -/
def walkNext {V : Type} (heap : List (node V)) : Nat → Option Nat → Except String (Option Nat)
  | 0, n => .ok n
  | steps + 1, n =>
    match n with
    | none => .error nilDereference
    | some ptr =>
      match heap[ptr]? with
      | none => .error nilDereference
      | some nd => walkNext heap steps nd.next

/-- The loop `n = n.prev`, `steps` times. -/
def walkPrev {V : Type} (heap : List (node V)) : Nat → Option Nat → Except String (Option Nat)
  | 0, n => .ok n
  | steps + 1, n =>
    match n with
    | none => .error nilDereference
    | some ptr =>
      match heap[ptr]? with
      | none => .error nilDereference
      | some nd => walkPrev heap steps nd.prev

/-- `find`: from `first` forwards for an index in the first half (`i` from 0 while
`i < index`), else from `last` backwards (`i` from `size - 1` while `i > index`). -/
def LinkedList.find {V : Type} (l : LinkedList V) (index : Int) : Except String (Option Nat) :=
  if index < Int.tdiv l.size 2 then walkNext l.heap index.toNat l.first
  else walkPrev l.heap (l.size - 1 - index).toNat l.last

/-- `Get`: the result of `find`, the `*node` itself, is what is returned. -/
def LinkedList.Get {V : Type} (l : LinkedList V) (index : Int) : Except String (Any V) :=
  if index < 0 ∨ index ≥ l.size then .error "index out of bound"
  else
    match l.find index with
    | .error e => .error e
    | .ok n => .ok (.node n)

/-- `removeNode`. -/
def LinkedList.removeNode {V : Type} (l : LinkedList V) (n : Option Nat) :
    Except String (LinkedList V) :=
  match n with
  | none => .error nilDereference
  | some ptr =>
    match l.heap[ptr]? with
    | none => .error nilDereference
    | some nd =>
      let l : LinkedList V :=
        match nd.prev with
        | none => { l with first := nd.next }
        | some prev => { l with heap := update l.heap prev (fun m => { m with next := nd.next }) }
      let l : LinkedList V :=
        match nd.next with
        | none => { l with last := nd.prev }
        | some next => { l with heap := update l.heap next (fun m => { m with prev := nd.prev }) }
      let l : LinkedList V :=
        { l with heap := update l.heap ptr (fun m => { m with prev := none, next := none }) }
      .ok { l with size := wrapInt (l.size - 1) }

/-- The value `n.val` read after a call that took `n`. -/
def valOf {V : Type} (heap : List (node V)) (n : Option Nat) : Except String (Any V) :=
  match n with
  | none => .error nilDereference
  | some ptr =>
    match heap[ptr]? with
    | none => .error nilDereference
    | some nd => .ok nd.val

/-- `Remove`: the guard lets `index == size` through. -/
def LinkedList.Remove {V : Type} (l : LinkedList V) (index : Int) :
    Except String (Any V) × LinkedList V :=
  if index < 0 ∨ index > l.size then (.error "index out of bound", l)
  else
    match l.find index with
    | .error e => (.error e, l)
    | .ok n =>
      match l.removeNode n with
      | .error e => (.error e, l)
      | .ok l' => (valOf l'.heap n, l')

/-- `RemoveLast`: nil for an empty list. -/
def LinkedList.RemoveLast {V : Type} (l : LinkedList V) : Except String (Any V) × LinkedList V :=
  match l.last with
  | none => (.ok .nil, l)
  | some last =>
    match l.removeNode (some last) with
    | .error e => (.error e, l)
    | .ok l' => (valOf l'.heap (some last), l')

/-- `Len`. -/
def LinkedList.Len {V : Type} (l : LinkedList V) : Int := l.size

/-- The loop of `ForEach`, `for i := 0; n != nil; i++`, for at most `fuel` rounds: the
consumer receives the index and the node `n` itself.  `none` says that the loop is
still running when the fuel is used up. -/
def forEachLoop {σ V : Type} (heap : List (node V)) (consumer : σ → Int → Any V → Bool × σ) :
    Nat → σ → Int → Option Nat → Option (Except String σ)
  | _, s, _, none => some (.ok s)
  | 0, _, _, some _ => none
  | fuel + 1, s, i, some ptr =>
    let r := consumer s i (.node (some ptr))
    if !r.1 then some (.ok r.2)
    else
      match heap[ptr]? with
      | none => some (.error nilDereference)
      | some nd => forEachLoop heap consumer fuel r.2 (wrapInt (i + 1)) nd.next

/-- `ForEach`.  While the nodes reached from `first` are distinct the loop ends within
as many rounds as the arena has nodes. -/
def LinkedList.ForEach {σ V : Type} (l : LinkedList V)
    (consumer : σ → Int → Any V → Bool × σ) (s : σ) : Option (Except String σ) :=
  forEachLoop l.heap consumer (l.heap.length + 1) s 0 l.first

/-- `Contains`: the captured variable `contains` is the state of the consumer.  The
function `utils.Equals` is declared in a file that is not at hand and is a parameter. -/
def LinkedList.Contains {V : Type} (Equals : Any V → Any V → Bool) (l : LinkedList V)
    (val : Any V) : Option (Except String Bool) :=
  l.ForEach (fun _ _ val2 => let contains := Equals val val2; (!contains, contains)) false

/-- The loop of `RemoveByVal` for at most `fuel` rounds: the list and `removed`. -/
def removeByValLoop {V : Type} (Equals : Any V → Any V → Bool) (val : Any V) (count : Int) :
    Nat → LinkedList V → Int → Option Nat → Option (Except String Int × LinkedList V)
  | _, l, removed, none => some (.ok removed, l)
  | 0, _, _, some _ => none
  | fuel + 1, l, removed, some ptr =>
    match l.heap[ptr]? with
    | none => some (.error nilDereference, l)
    | some nd =>
      let nextNode := nd.next
      let r : Except String (LinkedList V) × Int :=
        if Equals nd.val val then (l.removeNode (some ptr), wrapInt (removed + 1))
        else (.ok l, removed)
      match r.1 with
      | .error e => some (.error e, l)
      | .ok l' =>
        if r.2 = count then some (.ok r.2, l')
        else removeByValLoop Equals val count fuel l' r.2 nextNode

/-- `RemoveByVal`. -/
def LinkedList.RemoveByVal {V : Type} (Equals : Any V → Any V → Bool) (l : LinkedList V)
    (val : Any V) (count : Int) : Option (Except String Int × LinkedList V) :=
  removeByValLoop Equals val count (l.heap.length + 1) l 0 l.first

/-- The loop of `Range` for at most `fuel` rounds: the slice and `sliceIndex`. -/
def rangeLoop {V : Type} (heap : List (node V)) (start stop : Int) :
    Nat → List (Any V) → Int → Int → Option Nat → Option (Except String (List (Any V)))
  | _, sliceResult, _, _, none => some (.ok sliceResult)
  | 0, _, _, _, some _ => none
  | fuel + 1, sliceResult, sliceIndex, i, some ptr =>
    match heap[ptr]? with
    | none => some (.error nilDereference)
    | some nd =>
      if i ≥ start ∧ i < stop then
        if sliceIndex < 0 ∨ sliceIndex ≥ (sliceResult.length : Int) then
          some (.error "index out of range")
        else
          rangeLoop heap start stop fuel (sliceResult.set sliceIndex.toNat nd.val)
            (wrapInt (sliceIndex + 1)) (wrapInt (i + 1)) nd.next
      else if i ≥ stop then some (.ok sliceResult)
      else rangeLoop heap start stop fuel sliceResult sliceIndex (wrapInt (i + 1)) nd.next

/-- `Range`: the values at the positions `start` to `stop - 1`. -/
def LinkedList.Range {V : Type} (l : LinkedList V) (start stop : Int) :
    Option (Except String (List (Any V))) :=
  if start < 0 ∨ start ≥ l.size then some (.error "`start` out of range")
  else if stop < start ∨ stop ≥ l.size then some (.error "`stop` out of range")
  else rangeLoop l.heap start stop (l.heap.length + 1)
    (List.replicate (stop - start).toNat .nil) 0 0 l.first

/-- `Make`. -/
def Make {V : Type} (vals : List (Any V)) : LinkedList V :=
  vals.foldl LinkedList.Add ⟨[], none, none, 0⟩

end list

/-! ## Sample registry

The leaf commands are outside the sources at hand.  The registry below stands in for
them in the concrete instances: `set` and `del` with an undo generator that reads the
current value of the key, `new` whose undo deletes the key, `fail` which only returns
an error reply, and `boom` which writes before it returns an error reply. -/

/-- ASCII lower-casing, the behaviour of `strings.ToLower` on ASCII text. -/
def sampleLower (s : String) : String := ⟨s.data.map Char.toLower⟩

/-- A classifier for error replies: the three error kinds. -/
def sampleIsError : Reply → Bool
  | .ErrReply _ => true
  | .ArgNumErrReply _ => true
  | .UnknownErrReply => true
  | _ => false

/-- Executor of `set key val` and of `new key val`. -/
def sampleSet : ExecFunc := fun db args =>
  match args with
  | key :: val :: _ => (.OkReply, (db.PutEntity key ⟨val⟩).2)
  | _ => (.ErrReply "ERR syntax error", db)

/-- Executor of `del key`. -/
def sampleDel : ExecFunc := fun db args =>
  match args with
  | key :: _ => (.IntReply 1, db.Remove key)
  | _ => (.ErrReply "ERR syntax error", db)

/-- Executor of `fail`. -/
def sampleFail : ExecFunc := fun db _ => (.ErrReply "ERR failed", db)

/-- Executor of `boom key`: stores `x` under the key, then reports an error. -/
def sampleBoom : ExecFunc := fun db args =>
  match args with
  | key :: _ => (.ErrReply "ERR failed", (db.PutEntity key ⟨"x"⟩).2)
  | _ => (.ErrReply "ERR syntax error", db)

/-- Undo generator reading the current value of the first key: `set key old` when the
key is present, `del key` when it is not. -/
def sampleUndoKey : UndoFunc := fun db args =>
  match args with
  | key :: _ =>
    match db.data.Get key with
    | some entity => ([["set", key, entity.Data]], db)
    | none => ([["del", key]], db)
  | _ => ([], db)

/-- Undo generator of `new key val`: `del key`. -/
def sampleUndoNew : UndoFunc := fun db args =>
  match args with
  | key :: _ => ([["del", key]], db)
  | _ => ([], db)

/-- Undo generator without command lines. -/
def sampleUndoNone : UndoFunc := fun db _ => ([], db)

/-- Prepare function: the first argument is the only write key. -/
def sampleFirstKey : PreFunc := fun args => (args.take 1, [])

/-- Prepare function without keys. -/
def sampleNoKeys : PreFunc := fun _ => ([], [])

/-- The sample registry. -/
def sampleTable (name : String) : Option command :=
  if name = "set" then some ⟨some sampleSet, some sampleFirstKey, some sampleUndoKey, 3⟩
  else if name = "del" then some ⟨some sampleDel, some sampleFirstKey, some sampleUndoKey, 2⟩
  else if name = "new" then some ⟨some sampleSet, some sampleFirstKey, some sampleUndoNew, 3⟩
  else if name = "fail" then some ⟨some sampleFail, some sampleNoKeys, some sampleUndoNone, 1⟩
  else if name = "boom" then some ⟨some sampleBoom, some sampleFirstKey, some sampleUndoKey, 2⟩
  else none

/-- The sample environment. -/
def sampleEnv : Env where
  cmdTable := sampleTable
  ToLower := sampleLower
  IsErrorReply := sampleIsError
  execFlushDB := fun db _ => (.OkReply, db.Flush)

/-- An empty database with 16 shards per dictionary and 4 mutexes. -/
def sampleDB : DB :=
  { index := 0,
    data := dict.MakeConcurrent 16,
    ttlMap := dict.MakeConcurrent 16,
    versionMap := dict.MakeConcurrent 16,
    locker := lock.Make 4 }

/-- A connection in the multi state with nothing queued and nothing watched. -/
def sampleConn : Connection :=
  { password := "", multiState := true, queue := [], watching := none, selectedDB := 0 }

/-! ## Notions used to state the properties -/

/-- The check of `EnqueueCmd`, on its own: true exactly for the command lines that
`EnqueueCmd` appends to the queue (the connection plays no part in the check). -/
def enqueueAccepts (env : Env) (cmdLine : CmdLine) : Bool :=
  match (EnqueueCmd env ⟨"", true, [], none, 0⟩ cmdLine).1 with
  | .ret .QueuedReply => true
  | _ => false

/-- The command of the line is registered with an executor, a prepare function and an
undo generator. -/
def fullyRegistered (env : Env) (cmdLine : CmdLine) : Bool :=
  match cmdLine with
  | [] => false
  | name :: _ =>
    match env.cmdTable (env.ToLower name) with
    | none => false
    | some cmd => cmd.executor.isSome && cmd.prepare.isSome && cmd.undo.isSome

/-- The write keys of one command line, by its own `prepare`. -/
def writeKeysOf (env : Env) (cmdLine : CmdLine) : List String :=
  match cmdLine with
  | [] => []
  | name :: args =>
    match env.cmdTable (env.ToLower name) with
    | none => []
    | some cmd =>
      match cmd.prepare with
      | none => []
      | some prepare => (prepare args).1

/-- The read keys of one command line, by its own `prepare`. -/
def readKeysOf (env : Env) (cmdLine : CmdLine) : List String :=
  match cmdLine with
  | [] => []
  | name :: args =>
    match env.cmdTable (env.ToLower name) with
    | none => []
    | some cmd =>
      match cmd.prepare with
      | none => []
      | some prepare => (prepare args).2

/-- The concatenated write sets of a queue. -/
def allWriteKeys (env : Env) (cmdLines : List CmdLine) : List String :=
  (cmdLines.map (writeKeysOf env)).flatten

/-- The concatenated read sets of a queue, followed by the watched keys. -/
def allReadKeys (env : Env) (watching : Option (GoMap Nat)) (cmdLines : List CmdLine) :
    List String :=
  (cmdLines.map (readKeysOf env)).flatten ++ (watching.getD []).map Prod.fst

/-- The commands run one after another: each executor is applied to the database left
by the one before it; the replies are collected in order.  A line without an executor
contributes nothing. -/
def runExecutors (env : Env) : DB → List CmdLine → List Reply × DB
  | db, [] => ([], db)
  | db, [] :: rest => runExecutors env db rest
  | db, (name :: args) :: rest =>
    match env.cmdTable (env.ToLower name) with
    | none => runExecutors env db rest
    | some cmd =>
      match cmd.executor with
      | none => runExecutors env db rest
      | some executor =>
        let r := executor db args
        let rs := runExecutors env r.2 rest
        (r.1 :: rs.1, rs.2)

/-- The proviso of the rollback as the claim words it, checked along a queue: the undo
generator of each command is evaluated on the state in which the command is about to
run, then the command runs, then the command lines so obtained are executed, and
`data` is back to what it was before the command. -/
def undoRestoresBefore (env : Env) : DB → List CmdLine → Bool
  | _, [] => true
  | db, cmdLine :: rest =>
    match db.GetUndoLogs env cmdLine, db.execWithLock env cmdLine with
    | (.ret logs, _), (.ret _, db1) =>
      match undoLines env db1 logs with
      | (.ret _, db2) => decide (db2.data = db.data) && undoRestoresBefore env db1 rest
      | (.panic, _) => false
    | _, _ => false

/-- The proviso of the rollback as the code needs it, along a queue run from `db`.
Some command returns an error reply, and no call panics before it; the command that
returns the error reply leaves the value of every key as it found it; and for each
command before it, the undo log computed right after the command has run, executed
on any state holding the values of that moment, runs without panic and brings the
value of every key back to what it was before the command. -/
def RollbackRestores (env : Env) : DB → List CmdLine → Prop
  | _, [] => False
  | db, cmdLine :: rest =>
    match db.execWithLock env cmdLine with
    | (.panic, _) => False
    | (.ret result, db1) =>
      if env.IsErrorReply result then ∀ k, db1.data.Get k = db.data.Get k
      else
        match db1.GetUndoLogs env cmdLine with
        | (.panic, _) => False
        | (.ret logs, db2) =>
          (∀ t : DB, (∀ k, t.data.Get k = db2.data.Get k) →
            (undoLines env t logs).1 = .ret () ∧
            ∀ k, (undoLines env t logs).2.data.Get k = db.data.Get k) ∧
          RollbackRestores env db2 rest

/-- Frame condition on the registry: executors leave `versionMap` alone (only the
dispatcher bumps versions). -/
def ExecutorsKeepVersions (env : Env) : Prop :=
  ∀ name cmd executor, env.cmdTable name = some cmd → cmd.executor = some executor →
    ∀ db args, (executor db args).2.versionMap = db.versionMap

/-- Frame condition on the registry: undo generators leave `versionMap` alone. -/
def UndoKeepVersions (env : Env) : Prop :=
  ∀ name cmd undo, env.cmdTable name = some cmd → cmd.undo = some undo →
    ∀ db args, (undo db args).2.versionMap = db.versionMap

/-- Condition on the registry: undo generators only read the database. -/
def UndoOnlyReads (env : Env) : Prop :=
  ∀ name cmd undo, env.cmdTable name = some cmd → cmd.undo = some undo →
    ∀ db args, (undo db args).2 = db

/-- A queue whose second command writes and then returns an error reply. -/
def sampleAbortQueue : List CmdLine := [["set", "a", "1"], ["boom", "b"]]

/-- The sample database with the version of `a` at the largest `uint32`. -/
def sampleMaxVersionDB : DB :=
  { sampleDB with versionMap := (sampleDB.versionMap.Put "a" 4294967295).2 }

/-! ## Notions for the lock table and the dictionary -/

/-- The hash in the words of the specification, on the bytes of a key: from the
current value, multiply by 16777619 modulo 2^32, xor the byte, go on with the rest. -/
def fnvFold : Nat → List Nat → Nat
  | hash, [] => hash
  | hash, b :: rest => fnvFold (((hash * 16777619) % 4294967296) ^^^ b) rest

/-- The (index, write mode) pairs of the acquisitions in a list of lock events. -/
def lock.acquired : List lock.LockEvent → List (Nat × Bool)
  | [] => []
  | .Lock index :: rest => (index, true) :: lock.acquired rest
  | .RLock index :: rest => (index, false) :: lock.acquired rest
  | .Unlock _ :: rest => lock.acquired rest
  | .RUnlock _ :: rest => lock.acquired rest

/-- The (index, write mode) pairs of the releases in a list of lock events. -/
def lock.released : List lock.LockEvent → List (Nat × Bool)
  | [] => []
  | .Unlock index :: rest => (index, true) :: lock.released rest
  | .RUnlock index :: rest => (index, false) :: lock.released rest
  | .Lock _ :: rest => lock.released rest
  | .RLock _ :: rest => lock.released rest

/-- The lock index of a key, `locks.spread(fnv32(key))`. -/
def lock.Locks.indexOf (locks : lock.Locks) (key : String) : Nat :=
  locks.spread (lock.fnv32 key)

/-- A lock table of 16 free mutexes. -/
def sampleLocks : lock.Locks := lock.Make 16

/-- One call of the writing methods of the dictionary. -/
inductive dict.Call (V : Type) where
  | Put (key : String) (val : V)
  | PutIfAbsent (key : String) (val : V)
  | PutIfExists (key : String) (val : V)
  | Remove (key : String)

/-- The dictionary after one call. -/
def dict.ConcurrentDict.call {V : Type} (d : dict.ConcurrentDict V) :
    dict.Call V → dict.ConcurrentDict V
  | .Put key val => (d.Put key val).2
  | .PutIfAbsent key val => (d.PutIfAbsent key val).2
  | .PutIfExists key val => (d.PutIfExists key val).2
  | .Remove key => (d.Remove key).2

/-- The dictionary after a sequence of calls, applied one after another. -/
def dict.ConcurrentDict.calls {V : Type} (d : dict.ConcurrentDict V) :
    List (dict.Call V) → dict.ConcurrentDict V
  | [] => d
  | c :: rest => dict.ConcurrentDict.calls (d.call c) rest

/-- Every key held by some shard, shard by shard. -/
def dict.ConcurrentDict.storedKeys {V : Type} (d : dict.ConcurrentDict V) : List String :=
  (d.table.map fun sh => sh.m.map Prod.fst).flatten

/-- The distinct keys for which `Get` reports present. -/
def dict.ConcurrentDict.presentKeys {V : Type} (d : dict.ConcurrentDict V) : List String :=
  (d.storedKeys.filter fun k => (d.Get k).isSome).dedup

/-- The key number `i` of a family of distinct keys: the binary digits of `i`. -/
def dict.binaryKey (i : Nat) : String :=
  ⟨(Nat.digits 2 i).map fun digit => if digit = 0 then '0' else '1'⟩

/-- The calls `Put (binaryKey i) val` for `i = 0 .. n - 1`. -/
def dict.manyPuts {V : Type} (n : Nat) (val : V) : List (dict.Call V) :=
  (List.range n).map fun i => .Put (dict.binaryKey i) val

/-- A consumer that also writes down each of its invocations: key, value, answer. -/
def dict.logged {σ V : Type} (consumer : dict.Consumer σ V) :
    dict.Consumer (σ × List (String × V × Bool)) V :=
  fun s key value =>
    let r := consumer s.1 key value
    (r.1, (r.2, s.2 ++ [(key, value, r.1)]))

/-- The invocations of the consumer during `ForEach`, in order. -/
def dict.ConcurrentDict.ForEachCalls {σ V : Type} (d : dict.ConcurrentDict V)
    (consumer : dict.Consumer σ V) (s : σ) : List (String × V × Bool) :=
  (d.ForEach (dict.logged consumer) (s, [])).2

/-- A dictionary of 16 shards holding `a` (shard 14) and `b` (shard 13). -/
def sampleDict : dict.ConcurrentDict String :=
  (((dict.MakeConcurrent 16).Put "a" "1").2.Put "b" "2").2

/-- A consumer without state that answers false to every entry. -/
def sampleStop : dict.Consumer Unit String := fun s _ _ => (false, s)

/-- The invariant behind `Len`: the table is not empty and the counter is the number
of present keys, in `int32` arithmetic. -/
def dict.CountOk {V : Type} (d : dict.ConcurrentDict V) : Prop :=
  0 < d.table.length ∧ d.count = wrapInt32 d.presentKeys.length

/-! ## Notions for the keys, the engine, the façade and the parser -/

/-- Every shard holds each of its keys once, and only keys whose index is the position
of the shard in the table. -/
def dict.Placed {V : Type} (d : dict.ConcurrentDict V) : Prop :=
  ∀ i sh, d.table[i]? = some sh →
    (sh.m.map Prod.fst).Nodup ∧ ∀ k ∈ sh.m.map Prod.fst, d.spread (dict.fnv32 k) = i

/-- The update of the slice and of the index by the callback of `Keys`, for one key. -/
def dict.keysStep (s : List String × Int) (key : String) : List String × Int :=
  if s.2 < (s.1.length : Int) then (s.1.set s.2.toNat key, s.2 + 1) else (s.1 ++ [key], s.2)

/-- The invariant of the data model: every key with an entry in `ttlMap` has an entry
in `data`. -/
def DB.TtlInData (db : DB) : Prop :=
  ∀ k, (db.ttlMap.Get k).isSome = true → (db.data.Get k).isSome = true

/-- The sample database after `Expire("a", 5)`: an expiry time for a key that `data`
does not hold. -/
def sampleOrphanTtl : DB := sampleDB.Expire "a" 5

/-- The sample database holding `a` with the expiry time 5. -/
def sampleExpiring : DB := ((sampleDB.PutEntity "a" ⟨"1"⟩).2).Expire "a" 5

/-- A stand-in for the two functions of the authentication file, for a server whose
`requirepass` is `secret`: `AUTH secret` stores the password in the connection, and a
connection is authenticated when it holds that password. -/
def sampleAuth : AuthEnv where
  Auth := fun c args =>
    match args with
    | [password] =>
      if password = "secret" then (.ret .OkReply, { c with password := password })
      else (.ret (.ErrReply "ERR invalid password"), c)
    | _ => (.ret (.ArgNumErrReply "auth"), c)
  isAuthenticated := fun c => c.password == "secret"

/-- A server of two databases. -/
def sampleMulti : MultiDB := ⟨[sampleDB, sampleDB]⟩

/-- A connection that has authenticated and is not in the multi state. -/
def sampleAuthed : Connection :=
  { password := "secret", multiState := false, queue := [], watching := none, selectedDB := 0 }

/-- A connection that has not authenticated. -/
def sampleGuest : Connection :=
  { password := "", multiState := false, queue := [], watching := none, selectedDB := 0 }

/-- A prepare function that declares every argument a read key. -/
def sampleReadKeys : PreFunc := fun args => ([], args)

/-- The registration of `init` in `transaction.go`,
`RegisterCommand("GetVer", execGetVersion, readAllKeys, nil, 2)`, for a prepare function
`prepare` in the place of `readAllKeys` (declared in a file that is not at hand): the
descriptor stored under the lower-cased name; its undo generator is nil. -/
def getVerCommand (prepare : PreFunc) : command :=
  ⟨some execGetVersion, some prepare, none, 2⟩

/-- The sample registry with `GetVer` added. -/
def getVerEnv : Env :=
  { sampleEnv with
    cmdTable := fun name =>
      if name = "getver" then some (getVerCommand sampleReadKeys) else sampleTable name }

/-- The decimal digits of a number, most significant first, given the digits found so
far; `fuel` bounds the number of digits. -/
def parser.decimalAux : Nat → Nat → List Char → List Char
  | 0, _, acc => acc
  | fuel + 1, n, acc =>
    let acc := Char.ofNat (48 + n % 10) :: acc
    if n / 10 = 0 then acc else parser.decimalAux fuel (n / 10) acc

/-- The decimal form of a natural number. -/
def parser.decimal (n : Nat) : List Char := parser.decimalAux (n + 1) n []

/-- The wire form of one bulk string: `$<len>\r\n<bytes>\r\n`. -/
def parser.bulkWire (arg : String) : List Char :=
  '$' :: parser.decimal arg.data.length ++ ['\r', '\n'] ++ arg.data ++ ['\r', '\n']

/-- The multi-bulk wire form of a list of byte strings: `*<n>\r\n`, then each element
as a bulk string. -/
def parser.multiBulkWire (args : List String) : List Char :=
  '*' :: parser.decimal args.length ++ ['\r', '\n'] ++ (args.map parser.bulkWire).flatten

/-! ## Notions for the linked list -/

/-- A stand-in for `utils.Equals`: the comparison `a == b` of two interface values. -/
def list.sampleEquals {V : Type} [DecidableEq V] (a b : list.Any V) : Bool := decide (a = b)

/-- The values of the nodes reached from `n` by `next`, for at most `fuel` nodes. -/
def list.valuesFrom {V : Type} (heap : List (list.node V)) :
    Nat → Option Nat → List (list.Any V)
  | 0, _ => []
  | _ + 1, none => []
  | fuel + 1, some ptr =>
    match heap[ptr]? with
    | none => []
    | some nd => nd.val :: list.valuesFrom heap fuel nd.next

/-- The values stored in the list, in the order of the list. -/
def list.LinkedList.values {V : Type} (l : list.LinkedList V) : List (list.Any V) :=
  list.valuesFrom l.heap l.heap.length l.first

/-- The list after a sequence of `Add` calls. -/
def list.LinkedList.Adds {V : Type} (l : list.LinkedList V) (vals : List (list.Any V)) :
    list.LinkedList V :=
  vals.foldl list.LinkedList.Add l

/-- The arena in which node `i` holds the `i`-th value and is linked to its neighbours
`i - 1` and `i + 1`. -/
def list.chainHeap {V : Type} (vals : List (list.Any V)) : List (list.node V) :=
  (List.range vals.length).map fun i =>
    ⟨vals.getD i .nil, if i = 0 then none else some (i - 1),
      if i + 1 = vals.length then none else some (i + 1)⟩

/-- The list whose arena is `chainHeap vals`. -/
def list.chain {V : Type} (vals : List (list.Any V)) : list.LinkedList V :=
  { heap := list.chainHeap vals,
    first := if vals.length = 0 then none else some 0,
    last := if vals.length = 0 then none else some (vals.length - 1),
    size := wrapInt vals.length }

/-- The list `Make("a", "b")`. -/
def sampleList : list.LinkedList String := list.Make [.val "a", .val "b"]

/-! ## Lemmas -/


theorem GoMap.get_set_self {V : Type} (m : GoMap V) (k : String) (v : V) :
    (m.set k v).get k = some v := by
  induction m with
  | nil => simp [GoMap.set, GoMap.get]
  | cons kv rest ih =>
    obtain ⟨k0, v0⟩ := kv
    by_cases h : k0 = k
    · simp [GoMap.set, GoMap.get, h]
    · simp [GoMap.set, GoMap.get, h, ih]

theorem GoMap.get_set_other {V : Type} (m : GoMap V) (k k' : String) (v : V) (hne : k' ≠ k) :
    (m.set k v).get k' = m.get k' := by
  induction m with
  | nil => simp [GoMap.set, GoMap.get, Ne.symm hne]
  | cons kv rest ih =>
    obtain ⟨k0, v0⟩ := kv
    by_cases h : k0 = k
    · subst h
      simp [GoMap.set, GoMap.get, Ne.symm hne]
    · by_cases h2 : k0 = k'
      · subst h2
        simp [GoMap.set, GoMap.get, h]
      · simp [GoMap.set, GoMap.get, h, h2, ih]

theorem GoMap.get_delete {V : Type} (m : GoMap V) (k k' : String) :
    (m.delete k).get k' = if k' = k then none else m.get k' := by
  induction m with
  | nil => simp [GoMap.delete, GoMap.get]
  | cons kv rest ih =>
    obtain ⟨k0, v0⟩ := kv
    by_cases h : k0 = k
    · subst h
      by_cases h2 : k' = k0
      · subst h2
        simpa [GoMap.delete, GoMap.get] using ih
      · simp [GoMap.delete, GoMap.get, h2, ih, Ne.symm h2]
    · by_cases h2 : k0 = k'
      · subst h2
        simp [GoMap.delete, GoMap.get, h, ih]
      · simp [GoMap.delete, GoMap.get, h, h2, ih]

theorem dict.spread_lt {V : Type} (d : dict.ConcurrentDict V) (h : Nat)
    (hne : 0 < d.table.length) : d.spread h < d.table.length := by
  unfold dict.ConcurrentDict.spread u32
  have h1 : (d.table.length % 4294967296 + 4294967295) % 4294967296 &&& h
      ≤ (d.table.length % 4294967296 + 4294967295) % 4294967296 := Nat.and_le_left
  omega

theorem dict.getShard_setShard {V : Type} (d : dict.ConcurrentDict V) (i j : Nat)
    (sh : dict.shard V) :
    (d.setShard i sh).getShard j
      = if i = j ∧ i < d.table.length then sh else d.getShard j := by
  simp only [dict.ConcurrentDict.getShard, dict.ConcurrentDict.setShard, List.getD_eq_getElem?_getD,
    List.getElem?_set]
  by_cases hij : i = j
  · subst hij
    by_cases hlt : i < d.table.length
    · simp [hlt]
    · simp only [hlt, and_false, if_false]
      rw [List.getElem?_eq_none (by omega)]
      simp
  · simp [hij]

theorem dict.Get_Put {V : Type} (d : dict.ConcurrentDict V) (key k : String) (val : V)
    (hne : 0 < d.table.length) :
    (d.Put key val).2.Get k = if k = key then some val else d.Get k := by
  have hlt := dict.spread_lt d (dict.fnv32 key) hne
  have hsp : ∀ (sh : dict.shard V) (i h : Nat), (d.setShard i sh).spread h = d.spread h := by
    intro sh i h
    simp [dict.ConcurrentDict.spread, dict.ConcurrentDict.setShard]
  have key1 : ∀ sh' : dict.shard V,
      ((d.setShard (d.spread (dict.fnv32 key)) sh').getShard (d.spread (dict.fnv32 k))).m.get k
      = if d.spread (dict.fnv32 key) = d.spread (dict.fnv32 k) then sh'.m.get k
        else (d.getShard (d.spread (dict.fnv32 k))).m.get k := by
    intro sh'
    rw [dict.getShard_setShard]
    by_cases hij : d.spread (dict.fnv32 key) = d.spread (dict.fnv32 k)
    · rw [if_pos ⟨hij, hlt⟩, if_pos hij]
    · rw [if_neg (fun h => hij h.1), if_neg hij]
  have main : ((d.setShard (d.spread (dict.fnv32 key))
        ⟨(d.getShard (d.spread (dict.fnv32 key))).m.set key val⟩).getShard
          (d.spread (dict.fnv32 k))).m.get k = if k = key then some val else d.Get k := by
    rw [key1]
    by_cases hk : k = key
    · subst hk
      simp [GoMap.get_set_self]
    · simp only [hk, if_false]
      by_cases hij : d.spread (dict.fnv32 key) = d.spread (dict.fnv32 k)
      · rw [if_pos hij, GoMap.get_set_other _ _ _ _ hk, hij]
        rfl
      · rw [if_neg hij]
        rfl
  have hget : ∀ d' : dict.ConcurrentDict V, d'.table = (d.setShard (d.spread (dict.fnv32 key))
        ⟨(d.getShard (d.spread (dict.fnv32 key))).m.set key val⟩).table →
      d'.Get k = if k = key then some val else d.Get k := by
    intro d' hd'
    rw [← main]
    simp only [dict.ConcurrentDict.Get, dict.ConcurrentDict.getShard, dict.ConcurrentDict.spread,
      hd', dict.ConcurrentDict.setShard, List.length_set]
  unfold dict.ConcurrentDict.Put
  simp only []
  split
  · exact hget _ rfl
  · exact hget _ rfl

theorem dict.Get_Remove {V : Type} (d : dict.ConcurrentDict V) (key k : String) :
    (d.Remove key).2.Get k = if k = key then none else d.Get k := by
  unfold dict.ConcurrentDict.Remove
  simp only []
  split
  · rename_i v hv
    have hlt : d.spread (dict.fnv32 key) < d.table.length := by
      by_contra hge
      have : d.getShard (d.spread (dict.fnv32 key)) = ⟨[]⟩ := by
        simp only [dict.ConcurrentDict.getShard, List.getD_eq_getElem?_getD]
        rw [List.getElem?_eq_none (by omega)]
        simp
      rw [this] at hv
      simp [GoMap.get] at hv
    show ((d.setShard _ _).decreaseCount).Get k = _
    have h1 : ((d.setShard (d.spread (dict.fnv32 key))
          ⟨(d.getShard (d.spread (dict.fnv32 key))).m.delete key⟩).decreaseCount).Get k
        = ((d.setShard (d.spread (dict.fnv32 key))
          ⟨(d.getShard (d.spread (dict.fnv32 key))).m.delete key⟩).getShard
            (d.spread (dict.fnv32 k))).m.get k := by
      simp only [dict.ConcurrentDict.Get, dict.ConcurrentDict.getShard,
        dict.ConcurrentDict.spread, dict.ConcurrentDict.setShard, List.length_set,
        dict.ConcurrentDict.decreaseCount]
    rw [h1, dict.getShard_setShard]
    by_cases hij : d.spread (dict.fnv32 key) = d.spread (dict.fnv32 k)
    · rw [if_pos ⟨hij, hlt⟩]
      show GoMap.get (GoMap.delete _ key) k = _
      rw [GoMap.get_delete, hij]
      rfl
    · rw [if_neg (fun h => hij h.1)]
      have hk : k ≠ key := fun h => hij (by rw [h])
      rw [if_neg hk]
      rfl
  · rename_i hv
    show d.Get k = _
    by_cases hk : k = key
    · subst hk
      rw [if_pos rfl]
      exact hv
    · rw [if_neg hk]

theorem dict.Put_table_length {V : Type} (d : dict.ConcurrentDict V) (key : String) (val : V) :
    (d.Put key val).2.table.length = d.table.length := by
  unfold dict.ConcurrentDict.Put
  simp only []
  split <;> simp [dict.ConcurrentDict.setShard, dict.ConcurrentDict.addCount]

theorem dict.getD_replicate_empty {V : Type} (n i : Nat) :
    (List.replicate n (⟨[]⟩ : dict.shard V)).getD i ⟨[]⟩ = ⟨[]⟩ := by
  rw [List.getD_eq_getElem?_getD]
  by_cases h : i < n
  · rw [List.getElem?_replicate, if_pos h]
    rfl
  · rw [List.getElem?_replicate, if_neg h]
    rfl

theorem dict.Get_MakeConcurrent {V : Type} (n : Int) (k : String) :
    (dict.MakeConcurrent n : dict.ConcurrentDict V).Get k = none := by
  simp only [dict.ConcurrentDict.Get, dict.ConcurrentDict.getShard, dict.MakeConcurrent]
  rw [dict.getD_replicate_empty]
  rfl

theorem DB.GetVersion_AddVersion (db : DB) (keys : List String) (k : String)
    (hne : 0 < db.versionMap.table.length) (hv : db.GetVersion k < 4294967296) :
    (db.AddVersion keys).GetVersion k = (db.GetVersion k + keys.count k) % 4294967296 := by
  induction keys generalizing db with
  | nil =>
    simp only [DB.AddVersion, List.count_nil, Nat.add_zero]
    omega
  | cons key keys ih =>
    simp only [DB.AddVersion]
    have hstep : ∀ k', ({ db with versionMap :=
          (db.versionMap.Put key (u32 (db.GetVersion key + 1))).2 } : DB).GetVersion k'
        = if k' = key then u32 (db.GetVersion key + 1) else db.GetVersion k' := by
      intro k'
      simp only [DB.GetVersion]
      rw [dict.Get_Put _ _ _ _ hne]
      by_cases h : k' = key
      · simp [h]
      · simp [h]
    rw [ih]
    · rw [hstep]
      by_cases h : k = key
      · subst h
        simp only [if_true, List.count_cons_self, u32]
        omega
      · have h2 : key ≠ k := fun e => h e.symm
        simp [h, List.count_cons, h2]
    · simpa [dict.Put_table_length] using hne
    · rw [hstep]
      by_cases h : k = key
      · simp only [h, if_true, u32]
        omega
      · simpa [h] using hv

theorem DB.AddVersion_data (db : DB) (keys : List String) :
    (db.AddVersion keys).data = db.data ∧ (db.AddVersion keys).ttlMap = db.ttlMap
      ∧ (db.AddVersion keys).locker = db.locker ∧ (db.AddVersion keys).index = db.index := by
  induction keys generalizing db with
  | nil => simp [DB.AddVersion]
  | cons key keys ih =>
    simp only [DB.AddVersion]
    have := ih { db with versionMap := (db.versionMap.Put key (u32 (db.GetVersion key + 1))).2 }
    simpa using this


theorem enqueueAccepts_spec (env : Env) (c : CmdLine) (h : enqueueAccepts env c = true) :
    ∃ name args cmd prepare, c = name :: args ∧ env.cmdTable (env.ToLower name) = some cmd ∧
      cmd.prepare = some prepare ∧ validateArity cmd.arity c = true := by
  cases c with
  | nil => simp [enqueueAccepts, EnqueueCmd] at h
  | cons name args =>
    cases hc : env.cmdTable (env.ToLower name) with
    | none => simp [enqueueAccepts, EnqueueCmd, hc] at h
    | some cmd =>
      cases hp : cmd.prepare with
      | none =>
        by_cases hf : env.ToLower name ∈ forbiddenInMulti <;>
          simp [enqueueAccepts, EnqueueCmd, hc, hp, hf] at h
      | some prepare =>
        cases hv : validateArity cmd.arity (name :: args) with
        | false =>
          by_cases hf : env.ToLower name ∈ forbiddenInMulti <;>
            simp [enqueueAccepts, EnqueueCmd, hc, hp, hv, hf] at h
        | true => exact ⟨name, args, cmd, prepare, rfl, hc, hp, hv⟩

theorem fullyRegistered_spec (env : Env) (c : CmdLine) (h : fullyRegistered env c = true) :
    ∃ name args cmd executor undo, c = name :: args ∧
      env.cmdTable (env.ToLower name) = some cmd ∧ cmd.executor = some executor ∧
      cmd.undo = some undo := by
  cases c with
  | nil => simp [fullyRegistered] at h
  | cons name args =>
    cases hc : env.cmdTable (env.ToLower name) with
    | none => simp [fullyRegistered, hc] at h
    | some cmd =>
      simp only [fullyRegistered, hc, Bool.and_eq_true, Option.isSome_iff_exists] at h
      obtain ⟨⟨⟨ex, hex⟩, -⟩, ⟨u, hu⟩⟩ := h
      exact ⟨name, args, cmd, ex, u, rfl, hc, hex, hu⟩

theorem collectKeys_eq (env : Env) (cmds : List CmdLine) (w r : List String)
    (hq : ∀ c ∈ cmds, enqueueAccepts env c = true) :
    collectKeys env w r cmds =
      some (w ++ (cmds.map (writeKeysOf env)).flatten, r ++ (cmds.map (readKeysOf env)).flatten) := by
  induction cmds generalizing w r with
  | nil => simp [collectKeys]
  | cons c rest ih =>
    obtain ⟨name, args, cmd, prepare, rfl, hc, hp, -⟩ :=
      enqueueAccepts_spec env c (hq c (List.mem_cons_self _ _))
    have ih' := ih (w ++ (prepare args).1) (r ++ (prepare args).2)
      (fun c' hc' => hq c' (List.mem_cons_of_mem _ hc'))
    simp only [collectKeys, hc, hp, ih', List.map_cons, List.flatten_cons, writeKeysOf,
      readKeysOf, List.append_assoc]

theorem collectKeys_some (env : Env) (cmds : List CmdLine) (w r : List String)
    (p : List String × List String) (h : collectKeys env w r cmds = some p) :
    p = (w ++ (cmds.map (writeKeysOf env)).flatten, r ++ (cmds.map (readKeysOf env)).flatten) := by
  induction cmds generalizing w r with
  | nil =>
    simp only [collectKeys, Option.some.injEq] at h
    simp [← h]
  | cons c rest ih =>
    cases c with
    | nil => simp [collectKeys] at h
    | cons name args =>
      cases hc : env.cmdTable (env.ToLower name) with
      | none => simp [collectKeys, hc] at h
      | some cmd =>
        cases hp : cmd.prepare with
        | none => simp [collectKeys, hc, hp] at h
        | some prepare =>
          simp only [collectKeys, hc, hp] at h
          rw [ih _ _ h]
          simp [writeKeysOf, readKeysOf, hc, hp, List.append_assoc]

theorem isWatchingChanged_RWLocks (db : DB) (watching : Option (GoMap Nat)) (w r : List String) :
    isWatchingChanged (db.RWLocks w r) watching = isWatchingChanged db watching := rfl

theorem isWatchingChanged_true_iff (db : DB) (watching : Option (GoMap Nat)) :
    isWatchingChanged db watching = true ↔
      ∃ kv ∈ watching.getD [], kv.2 ≠ db.GetVersion kv.1 := by
  simp [isWatchingChanged, List.any_eq_true]

theorem isWatchingChanged_false_iff (db : DB) (watching : Option (GoMap Nat)) :
    isWatchingChanged db watching = false ↔
      ∀ kv ∈ watching.getD [], kv.2 = db.GetVersion kv.1 := by
  rw [← Bool.not_eq_true, isWatchingChanged_true_iff]
  push_neg
  rfl

theorem execLoop_length (env : Env) (cmds : List CmdLine) (db : DB) (rq : List Reply)
    (uq : List (List CmdLine)) (loop : ExecLoop) (db' : DB)
    (h : execLoop env db rq uq cmds = (.ret loop, db')) (hna : loop.aborted = false) :
    loop.resultQueue.length = rq.length + cmds.length := by
  induction cmds generalizing db rq uq with
  | nil =>
    simp only [execLoop, Prod.mk.injEq, Outcome.ret.injEq] at h
    rw [← h.1]
    simp
  | cons c rest ih =>
    simp only [execLoop] at h
    split at h
    · simp at h
    · split at h
      · simp only [Prod.mk.injEq, Outcome.ret.injEq] at h
        rw [← h.1] at hna
        simp at hna
      · split at h
        · simp at h
        · have := ih _ _ _ h
          simp only [List.length_append, List.length_cons, List.length_nil] at this ⊢
          omega

theorem ExecMulti_outcomes (env : Env) (db : DB) (watching : Option (GoMap Nat))
    (cmdLines : List CmdLine) :
    (db.ExecMulti env watching cmdLines).1 = .panic ∨
    (db.ExecMulti env watching cmdLines).1 = .ret .EmptyMultiBulkReply ∨
    (∃ rs, (db.ExecMulti env watching cmdLines).1 = .ret (.MultiRawReply rs)) ∨
    (db.ExecMulti env watching cmdLines).1 =
      .ret (.ErrReply "EXECABORT Transaction discarded because of previous errors.") := by
  unfold DB.ExecMulti
  split
  · exact Or.inl rfl
  · simp only []
    split
    · exact Or.inr (Or.inl rfl)
    · split
      · exact Or.inl rfl
      · split
        · exact Or.inr (Or.inr (Or.inl ⟨_, rfl⟩))
        · split
          · exact Or.inl rfl
          · exact Or.inr (Or.inr (Or.inr rfl))

theorem execLoop_eq_runExecutors (env : Env) (cmds : List CmdLine) (db : DB) (rq : List Reply)
    (uq : List (List CmdLine))
    (hq : ∀ c ∈ cmds, enqueueAccepts env c = true)
    (hreg : ∀ c ∈ cmds, fullyRegistered env c = true)
    (hundo : UndoOnlyReads env)
    (hnoerr : ∀ r ∈ (runExecutors env db cmds).1, env.IsErrorReply r = false) :
    ∃ us, execLoop env db rq uq cmds =
      (.ret ⟨rq ++ (runExecutors env db cmds).1, us, false⟩, (runExecutors env db cmds).2) := by
  induction cmds generalizing db rq uq with
  | nil => exact ⟨uq, by simp [execLoop, runExecutors]⟩
  | cons c rest ih =>
    obtain ⟨name, args, cmd, executor, undo, rfl, hc, hex, hu⟩ :=
      fullyRegistered_spec env c (hreg c (List.mem_cons_self _ _))
    obtain ⟨name', args', cmd', prepare, hcn, hc', hp, hv⟩ :=
      enqueueAccepts_spec env _ (hq _ (List.mem_cons_self _ _))
    obtain ⟨rfl, rfl⟩ := List.cons.inj hcn
    rw [hc] at hc'
    obtain rfl := Option.some.inj hc'
    have hrun : runExecutors env db ((name :: args) :: rest) =
        ((executor db args).1 :: (runExecutors env (executor db args).2 rest).1,
          (runExecutors env (executor db args).2 rest).2) := by
      simp [runExecutors, hc, hex]
    rw [hrun] at hnoerr ⊢
    have hne1 : env.IsErrorReply (executor db args).1 = false :=
      hnoerr _ (List.mem_cons_self _ _)
    have hpure := hundo _ _ _ hc hu (executor db args).2 args
    obtain ⟨us, hus⟩ := ih (executor db args).2 (rq ++ [(executor db args).1])
      (uq ++ [(undo (executor db args).2 args).1])
      (fun c' hc' => hq c' (List.mem_cons_of_mem _ hc'))
      (fun c' hc' => hreg c' (List.mem_cons_of_mem _ hc'))
      (fun r hr => hnoerr r (List.mem_cons_of_mem _ hr))
    refine ⟨us, ?_⟩
    simp only [execLoop, DB.execWithLock, hc, hv, hex, DB.GetUndoLogs, hu, hne1, hpure,
      Bool.not_true, Bool.false_eq_true, if_false, hus, List.append_assoc, List.singleton_append]

theorem runExecutors_versionMap (env : Env) (cmds : List CmdLine) (db : DB)
    (hframe : ExecutorsKeepVersions env) :
    (runExecutors env db cmds).2.versionMap = db.versionMap := by
  induction cmds generalizing db with
  | nil => rfl
  | cons c rest ih =>
    cases c with
    | nil => simpa [runExecutors] using ih db
    | cons name args =>
      cases hc : env.cmdTable (env.ToLower name) with
      | none => simpa [runExecutors, hc] using ih db
      | some cmd =>
        cases hex : cmd.executor with
        | none => simpa [runExecutors, hc, hex] using ih db
        | some executor =>
          simp only [runExecutors, hc, hex]
          rw [ih, hframe _ _ _ hc hex]

theorem runExecutors_length (env : Env) (cmds : List CmdLine) (db : DB)
    (hreg : ∀ c ∈ cmds, fullyRegistered env c = true) :
    (runExecutors env db cmds).1.length = cmds.length := by
  induction cmds generalizing db with
  | nil => rfl
  | cons c rest ih =>
    obtain ⟨name, args, cmd, executor, undo, rfl, hc, hex, hu⟩ :=
      fullyRegistered_spec env c (hreg c (List.mem_cons_self _ _))
    simp only [runExecutors, hc, hex, List.length_cons]
    rw [ih _ (fun c' hc' => hreg c' (List.mem_cons_of_mem _ hc'))]

theorem undoEntries_append (env : Env) (xs ys : List (List CmdLine)) (db : DB) :
    undoEntries env db (xs ++ ys) =
      match undoEntries env db xs with
      | (.panic, db') => (.panic, db')
      | (.ret _, db') => undoEntries env db' ys := by
  induction xs generalizing db with
  | nil => simp [undoEntries]
  | cons x rest ih =>
    simp only [List.cons_append, undoEntries]
    split
    · rfl
    · exact ih _

theorem execLoop_abort (env : Env) (cmds : List CmdLine) (db : DB) (rq : List Reply)
    (uq : List (List CmdLine)) (h : RollbackRestores env db cmds) :
    ∃ rq' us dbe, execLoop env db rq uq cmds = (.ret ⟨rq', uq ++ us, true⟩, dbe) ∧
      ∀ t : DB, (∀ k, t.data.Get k = dbe.data.Get k) →
        (undoEntries env t us.reverse).1 = .ret () ∧
        ∀ k, (undoEntries env t us.reverse).2.data.Get k = db.data.Get k := by
  induction cmds generalizing db rq uq with
  | nil => simp [RollbackRestores] at h
  | cons c rest ih =>
    simp only [RollbackRestores] at h
    generalize hexec : db.execWithLock env c = res at h
    obtain ⟨out, db1⟩ := res
    cases out with
    | panic => exact absurd h (by simp)
    | ret result =>
      simp only [] at h
      by_cases herr : env.IsErrorReply result = true
      · rw [if_pos herr] at h
        refine ⟨rq, [], db1, ?_, ?_⟩
        · simp [execLoop, hexec, herr]
        · intro t ht
          refine ⟨rfl, ?_⟩
          intro k
          show t.data.Get k = _
          rw [ht, h]
      · rw [if_neg herr] at h
        generalize hlogs : db1.GetUndoLogs env c = res2 at h
        obtain ⟨out2, db2⟩ := res2
        cases out2 with
        | panic => exact absurd h (by simp)
        | ret logs =>
          simp only [] at h
          obtain ⟨hun, hrest⟩ := h
          obtain ⟨rq', us, dbe, hloop, hback⟩ := ih db2 (rq ++ [result]) (uq ++ [logs]) hrest
          refine ⟨rq', logs :: us, dbe, ?_, ?_⟩
          · simp only [execLoop, hexec, herr, hlogs, if_false, hloop, List.append_assoc,
              List.singleton_append, Bool.false_eq_true]
          · intro t ht
            obtain ⟨h1, h2⟩ := hback t ht
            rw [List.reverse_cons, undoEntries_append]
            generalize hres : undoEntries env t us.reverse = res3 at h1 h2
            obtain ⟨out3, t1⟩ := res3
            cases out3 with
            | panic => simp at h1
            | ret u =>
              simp only [] at h2 ⊢
              obtain ⟨h3, h4⟩ := hun t1 h2
              generalize hres4 : undoLines env t1 logs = res4 at h3 h4
              obtain ⟨out4, t2⟩ := res4
              cases out4 with
              | panic => simp at h3
              | ret u2 =>
                simp only [undoEntries, hres4]
                exact ⟨trivial, h4⟩

theorem execWithLock_versionMap (env : Env) (db : DB) (c : CmdLine)
    (hex : ExecutorsKeepVersions env) :
    (db.execWithLock env c).2.versionMap = db.versionMap := by
  unfold DB.execWithLock
  split
  · rfl
  · simp only []
    split
    · rfl
    · rename_i cmd hc
      split
      · rfl
      · split
        · rfl
        · rename_i ex hx
          exact hex _ _ _ hc hx _ _

theorem GetUndoLogs_versionMap (env : Env) (db : DB) (c : CmdLine)
    (hun : UndoKeepVersions env) :
    (db.GetUndoLogs env c).2.versionMap = db.versionMap := by
  unfold DB.GetUndoLogs
  split
  · rfl
  · simp only []
    split
    · rfl
    · rename_i cmd hc
      split
      · rfl
      · rename_i u hu
        exact hun _ _ _ hc hu _ _

theorem execLoop_versionMap (env : Env) (cmds : List CmdLine) (db : DB) (rq : List Reply)
    (uq : List (List CmdLine)) (hex : ExecutorsKeepVersions env) (hun : UndoKeepVersions env) :
    (execLoop env db rq uq cmds).2.versionMap = db.versionMap := by
  induction cmds generalizing db rq uq with
  | nil => rfl
  | cons c rest ih =>
    have h1 := execWithLock_versionMap env db c hex
    simp only [execLoop]
    split
    · rename_i heq
      rw [heq] at h1
      exact h1
    · rename_i result db1 heq
      rw [heq] at h1
      have h2 := GetUndoLogs_versionMap env db1 c hun
      split
      · exact h1
      · split
        · rename_i heq2
          rw [heq2] at h2
          exact h2.trans h1
        · rename_i heq2
          rw [heq2] at h2
          rw [ih]
          exact h2.trans h1

theorem undoLines_versionMap (env : Env) (ls : List CmdLine) (db : DB)
    (hex : ExecutorsKeepVersions env) :
    (undoLines env db ls).2.versionMap = db.versionMap := by
  induction ls generalizing db with
  | nil => rfl
  | cons c rest ih =>
    have h1 := execWithLock_versionMap env db c hex
    simp only [undoLines]
    split
    · rename_i heq
      rw [heq] at h1
      exact h1
    · rename_i heq
      rw [heq] at h1
      rw [ih]
      exact h1

theorem undoEntries_versionMap (env : Env) (es : List (List CmdLine)) (db : DB)
    (hex : ExecutorsKeepVersions env) :
    (undoEntries env db es).2.versionMap = db.versionMap := by
  induction es generalizing db with
  | nil => rfl
  | cons e rest ih =>
    have h1 := undoLines_versionMap env e db hex
    simp only [undoEntries]
    split
    · rename_i heq
      rw [heq] at h1
      exact h1
    · rename_i heq
      rw [heq] at h1
      rw [ih]
      exact h1

theorem GetVersion_congr (db db' : DB) (h : db'.versionMap = db.versionMap) (k : String) :
    db'.GetVersion k = db.GetVersion k := by
  simp only [DB.GetVersion, h]

theorem AddVersion_le (db : DB) (keys : List String) (k : String)
    (htable : 0 < db.versionMap.table.length)
    (hno : db.GetVersion k + keys.count k < 4294967296) :
    db.GetVersion k ≤ (db.AddVersion keys).GetVersion k := by
  rw [DB.GetVersion_AddVersion db keys k htable (by omega), Nat.mod_eq_of_lt hno]
  exact Nat.le_add_right _ _

theorem execNormalCommand_version (env : Env) (db : DB) (cmdLine : CmdLine) (k : String)
    (htable : 0 < db.versionMap.table.length) (hex : ExecutorsKeepVersions env)
    (hno : db.GetVersion k + (writeKeysOf env cmdLine).count k < 4294967296) :
    db.GetVersion k ≤ (db.execNormalCommand env cmdLine).2.GetVersion k := by
  unfold DB.execNormalCommand
  split
  · exact le_refl _
  · rename_i name args
    simp only []
    split
    · exact le_refl _
    · rename_i cmd hc
      split
      · exact le_refl _
      · split
        · exact le_refl _
        · rename_i prepare hp
          have hw : writeKeysOf env (name :: args) = (prepare args).1 := by
            simp [writeKeysOf, hc, hp]
          rw [hw] at hno
          have hadd := AddVersion_le db (prepare args).1 k htable hno
          split
          · exact hadd
          · rename_i ex hx
            refine le_trans hadd (le_of_eq ?_)
            symm
            apply GetVersion_congr
            exact hex _ _ _ hc hx _ _

theorem ExecMulti_version (env : Env) (db : DB) (watching : Option (GoMap Nat))
    (cmdLines : List CmdLine) (k : String)
    (htable : 0 < db.versionMap.table.length) (hex : ExecutorsKeepVersions env)
    (hun : UndoKeepVersions env)
    (hno : db.GetVersion k + (allWriteKeys env cmdLines).count k < 4294967296) :
    db.GetVersion k ≤ (db.ExecMulti env watching cmdLines).2.GetVersion k := by
  unfold DB.ExecMulti
  split
  · exact le_refl _
  · rename_i W R hkeys
    have hW := collectKeys_some env cmdLines [] [] _ hkeys
    simp only [List.nil_append, Prod.mk.injEq] at hW
    simp only []
    split
    · exact le_refl _
    · have hl := execLoop_versionMap env cmdLines
        (db.RWLocks W (R ++ List.map Prod.fst (watching.getD []))) [] [] hex hun
      split
      · rename_i heq
        rw [heq] at hl
        exact le_of_eq (GetVersion_congr _ _ hl k).symm
      · rename_i loop dbL heq
        rw [heq] at hl
        have hl' : dbL.versionMap = db.versionMap := hl
        split
        · have : db.GetVersion k ≤ (dbL.AddVersion W).GetVersion k := by
            rw [← GetVersion_congr _ _ hl' k]
            apply AddVersion_le
            · rw [hl']; exact htable
            · rw [GetVersion_congr _ _ hl' k, hW.1]
              exact hno
          exact this
        · have hu := undoEntries_versionMap env loop.undoQueue.reverse dbL hex
          split
          · rename_i heq2
            rw [heq2] at hu
            exact le_of_eq (GetVersion_congr _ _ (hu.trans hl') k).symm
          · rename_i heq2
            rw [heq2] at hu
            exact le_of_eq (GetVersion_congr _ _ (hu.trans hl') k).symm

theorem GetVersion_of_Get_none (db : DB) (k : String) (h : db.versionMap.Get k = none) :
    db.GetVersion k = 0 := by
  simp only [DB.GetVersion, h]

theorem MakeDB_GetVersion (k : String) : MakeDB.GetVersion k = 0 :=
  GetVersion_of_Get_none MakeDB k (dict.Get_MakeConcurrent dataDicSize k)

theorem sampleEnv_undoOnlyReads : UndoOnlyReads sampleEnv := by
  intro name cmd undo hc hu db args
  simp only [sampleEnv, sampleTable] at hc
  split_ifs at hc <;> (obtain rfl := Option.some.inj hc) <;> (obtain rfl := Option.some.inj hu)
  · rcases args with _ | ⟨key, rest⟩
    · rfl
    · simp only [sampleUndoKey]
      split <;> rfl
  · rcases args with _ | ⟨key, rest⟩
    · rfl
    · simp only [sampleUndoKey]
      split <;> rfl
  · rcases args with _ | ⟨key, rest⟩ <;> rfl
  · rfl
  · rcases args with _ | ⟨key, rest⟩
    · rfl
    · simp only [sampleUndoKey]
      split <;> rfl

theorem sampleEnv_keepVersions : ExecutorsKeepVersions sampleEnv := by
  intro name cmd ex hc hex db args
  simp only [sampleEnv, sampleTable] at hc
  split_ifs at hc <;> (obtain rfl := Option.some.inj hc) <;> (obtain rfl := Option.some.inj hex)
  · rcases args with _ | ⟨key, _ | ⟨val, rest⟩⟩ <;> rfl
  · rcases args with _ | ⟨key, rest⟩ <;> rfl
  · rcases args with _ | ⟨key, _ | ⟨val, rest⟩⟩ <;> rfl
  · rfl
  · rcases args with _ | ⟨key, rest⟩ <;> rfl

theorem sampleDB_GetVersion (k : String) : sampleDB.GetVersion k = 0 := by
  simp only [DB.GetVersion, sampleDB, dict.Get_MakeConcurrent]

theorem rollbackRestores_sample :
    RollbackRestores sampleEnv
      (sampleDB.RWLocks (allWriteKeys sampleEnv [["new", "a", "1"], ["fail"]])
        (allReadKeys sampleEnv none [["new", "a", "1"], ["fail"]]))
      [["new", "a", "1"], ["fail"]] := by
  show (∀ t : DB, (∀ k, t.data.Get k = (sampleDB.data.Put "a" ⟨"1"⟩).2.Get k) →
      (undoLines sampleEnv t [["del", "a"]]).1 = .ret () ∧
      ∀ k, (undoLines sampleEnv t [["del", "a"]]).2.data.Get k = sampleDB.data.Get k) ∧
    (∀ k : String, (sampleDB.data.Put "a" ⟨"1"⟩).2.Get k = (sampleDB.data.Put "a" ⟨"1"⟩).2.Get k)
  refine ⟨?_, fun _ => rfl⟩
  intro t ht
  refine ⟨rfl, ?_⟩
  intro k
  show (t.data.Remove "a").2.Get k = _
  rw [dict.Get_Remove]
  by_cases hk : k = "a"
  · subst hk
    rfl
  · rw [if_neg hk, ht, dict.Get_Put _ _ _ _ (by decide), if_neg hk]

theorem sampleEnv_undoKeepVersions : UndoKeepVersions sampleEnv := by
  intro name cmd undo hc hu db args
  rw [sampleEnv_undoOnlyReads name cmd undo hc hu db args]

/-! ## The transaction pipeline: EXEC (C1 to C4) -/

/-- C1 (counterexample): the queue `set a 1`, `boom b` on the empty sample database.
Each undo generator, evaluated on the state in which its command is about to run,
returns command lines that restore that state once executed, and `boom b` returns an
error reply; `ExecMulti` returns EXECABORT, yet `a` holds `1` (the undo log of `set`
was computed after `set` had run, so it sets `a` to `1` again) and `b` holds `x` (what
the failing command wrote is not undone), although both keys were absent before. -/
theorem ExecMulti_rollback_counterexample :
    undoRestoresBefore sampleEnv
      (sampleDB.RWLocks (allWriteKeys sampleEnv sampleAbortQueue)
        (allReadKeys sampleEnv none sampleAbortQueue)) sampleAbortQueue = true ∧
    sampleEnv.IsErrorReply (sampleBoom (sampleSet sampleDB ["a", "1"]).2 ["b"]).1 = true ∧
    (sampleDB.ExecMulti sampleEnv none sampleAbortQueue).1 =
      .ret (.ErrReply "EXECABORT Transaction discarded because of previous errors.") ∧
    sampleDB.data.Get "a" = none ∧
    (sampleDB.ExecMulti sampleEnv none sampleAbortQueue).2.data.Get "a" = some ⟨"1"⟩ ∧
    sampleDB.data.Get "b" = none ∧
    (sampleDB.ExecMulti sampleEnv none sampleAbortQueue).2.data.Get "b" = some ⟨"x"⟩ := by
  refine ⟨by rfl, by rfl, by rfl, by rfl, by rfl, by rfl, by rfl⟩

/-- C1 (amended): when some command of the queue returns an error reply while EXEC is
running, `ExecMulti` returns the EXECABORT error reply and leaves the value of every
key as it was before EXEC started, provided the command that returns the error reply
leaves the values as it found them and, for each command before it, the undo log that
its undo generator returns when evaluated right after the command has run brings the
values back to those held before the command (`RollbackRestores`). -/
theorem ExecMulti_abort_restores (env : Env) (db : DB) (watching : Option (GoMap Nat))
    (cmdLines : List CmdLine)
    (hq : ∀ c ∈ cmdLines, enqueueAccepts env c = true)
    (hwatch : ∀ kv ∈ watching.getD [], kv.2 = db.GetVersion kv.1)
    (hundo : RollbackRestores env
      (db.RWLocks (allWriteKeys env cmdLines) (allReadKeys env watching cmdLines)) cmdLines) :
    (db.ExecMulti env watching cmdLines).1 =
      .ret (.ErrReply "EXECABORT Transaction discarded because of previous errors.") ∧
    ∀ k, (db.ExecMulti env watching cmdLines).2.data.Get k = db.data.Get k := by
  have hkeys := collectKeys_eq env cmdLines [] [] hq
  simp only [List.nil_append] at hkeys
  have hch := (isWatchingChanged_false_iff db watching).2 hwatch
  obtain ⟨rq', us, dbe, hloop, hback⟩ := execLoop_abort env cmdLines _ [] [] hundo
  obtain ⟨h1, h2⟩ := hback dbe (fun _ => rfl)
  generalize hres : undoEntries env dbe us.reverse = res at h1 h2
  obtain ⟨out, dbf⟩ := res
  cases out with
  | panic => simp at h1
  | ret u =>
    simp only [allWriteKeys, allReadKeys] at hloop ⊢
    simp only [List.nil_append] at hloop
    simp only [DB.ExecMulti, hkeys, isWatchingChanged_RWLocks, hch, Bool.false_eq_true,
      if_false, hloop, Bool.not_true, hres, true_and]
    intro k
    exact h2 k

/-- C1 (witness): the queue `new a 1`, `fail` on the empty sample database. -/
theorem ExecMulti_abort_restores_witness :
    (sampleDB.ExecMulti sampleEnv none [["new", "a", "1"], ["fail"]]).1 =
      .ret (.ErrReply "EXECABORT Transaction discarded because of previous errors.") ∧
    (sampleDB.ExecMulti sampleEnv none [["new", "a", "1"], ["fail"]]).2.data.Get "a" =
      sampleDB.data.Get "a" :=
  have h := ExecMulti_abort_restores sampleEnv sampleDB none [["new", "a", "1"], ["fail"]]
    (by decide) (by simp) rollbackRestores_sample
  ⟨h.1, h.2 "a"⟩

/-- C2: for a queue of command lines accepted by `EnqueueCmd`: when the current version
of some watched key differs from the recorded one, `ExecMulti` returns the empty
multi-bulk reply and `data`, `ttlMap` and `versionMap` are what they were; when no
watched key differs, the queue is handed to the execution loop, whose outcome decides
the reply: the MultiRaw of one result per queued command when no command returned an
error reply, EXECABORT (or a panic of an undo line) after an error reply. -/
theorem ExecMulti_watch_check (env : Env) (db : DB) (watching : Option (GoMap Nat))
    (cmdLines : List CmdLine) (hq : ∀ c ∈ cmdLines, enqueueAccepts env c = true) :
    ((∃ kv ∈ watching.getD [], kv.2 ≠ db.GetVersion kv.1) →
      (db.ExecMulti env watching cmdLines).1 = .ret .EmptyMultiBulkReply ∧
      (db.ExecMulti env watching cmdLines).2.data = db.data ∧
      (db.ExecMulti env watching cmdLines).2.ttlMap = db.ttlMap ∧
      (db.ExecMulti env watching cmdLines).2.versionMap = db.versionMap) ∧
    ((∀ kv ∈ watching.getD [], kv.2 = db.GetVersion kv.1) →
      ∃ out dbL,
        execLoop env (db.RWLocks (allWriteKeys env cmdLines) (allReadKeys env watching cmdLines))
          [] [] cmdLines = (out, dbL) ∧
        match out with
        | .panic => (db.ExecMulti env watching cmdLines).1 = .panic
        | .ret loop =>
          if loop.aborted then
            (db.ExecMulti env watching cmdLines).1 = .panic ∨
            (db.ExecMulti env watching cmdLines).1 =
              .ret (.ErrReply "EXECABORT Transaction discarded because of previous errors.")
          else
            loop.resultQueue.length = cmdLines.length ∧
            db.ExecMulti env watching cmdLines =
              (.ret (.MultiRawReply loop.resultQueue),
                (dbL.AddVersion (allWriteKeys env cmdLines)).RWUnLocks
                  (allWriteKeys env cmdLines) (allReadKeys env watching cmdLines))) := by
  have hkeys := collectKeys_eq env cmdLines [] [] hq
  simp only [List.nil_append] at hkeys
  constructor
  · intro hch
    have hch' := (isWatchingChanged_true_iff db watching).2 hch
    simp only [DB.ExecMulti, hkeys, isWatchingChanged_RWLocks, hch', if_true]
    exact ⟨trivial, rfl, rfl, rfl⟩
  · intro hsame
    have hch' := (isWatchingChanged_false_iff db watching).2 hsame
    refine ⟨_, _, rfl, ?_⟩
    simp only [DB.ExecMulti, hkeys, isWatchingChanged_RWLocks, hch', Bool.false_eq_true,
      if_false]
    generalize hloop : execLoop env (db.RWLocks (allWriteKeys env cmdLines)
      (allReadKeys env watching cmdLines)) [] [] cmdLines = res
    obtain ⟨out, dbL⟩ := res
    simp only [allWriteKeys, allReadKeys] at hloop ⊢
    rw [hloop]
    cases out with
    | panic => rfl
    | ret loop =>
      cases ha : loop.aborted with
      | true =>
        simp only [ha, Bool.not_true, Bool.false_eq_true, if_false, if_true]
        split
        · exact Or.inl rfl
        · exact Or.inr rfl
      | false =>
        simp only [ha, Bool.not_false, if_true, Bool.false_eq_true, if_false]
        have := execLoop_length env cmdLines _ _ _ _ _ hloop ha
        exact ⟨by simpa using this, trivial⟩

/-- C2 (witness): `a` is watched at version 5 while its version is 0; the queue
`set a 1` is not run. -/
theorem ExecMulti_watch_check_witness :
    (sampleDB.ExecMulti sampleEnv (some [("a", 5)]) [["set", "a", "1"]]).1 =
      .ret .EmptyMultiBulkReply ∧
    (sampleDB.ExecMulti sampleEnv (some [("a", 5)]) [["set", "a", "1"]]).2.data =
      sampleDB.data :=
  have h := (ExecMulti_watch_check sampleEnv sampleDB (some [("a", 5)]) [["set", "a", "1"]]
    (by decide)).1 ⟨("a", 5), by simp, by decide⟩
  ⟨h.1, h.2.1⟩

/-- C3: for a queue of accepted command lines whose commands are registered with an
executor, a prepare function and an undo generator, when no watched key has changed
and no command returns an error reply, `ExecMulti` returns the MultiRaw reply holding
one reply per queued command, in queue order, each being what the executor of that
command returned when the commands are run one after another; afterwards the version
of every key is larger by the number of its occurrences in the concatenated write
sets, modulo 2^32. -/
theorem ExecMulti_success (env : Env) (db : DB) (watching : Option (GoMap Nat))
    (cmdLines : List CmdLine)
    (hq : ∀ c ∈ cmdLines, enqueueAccepts env c = true)
    (hreg : ∀ c ∈ cmdLines, fullyRegistered env c = true)
    (hundo : UndoOnlyReads env)
    (hframe : ExecutorsKeepVersions env)
    (hwatch : ∀ kv ∈ watching.getD [], kv.2 = db.GetVersion kv.1)
    (hnoerr : ∀ r ∈ (runExecutors env
        (db.RWLocks (allWriteKeys env cmdLines) (allReadKeys env watching cmdLines)) cmdLines).1,
      env.IsErrorReply r = false)
    (htable : 0 < db.versionMap.table.length)
    (hu32 : ∀ k, db.GetVersion k < 4294967296) :
    (db.ExecMulti env watching cmdLines).1 =
      .ret (.MultiRawReply (runExecutors env
        (db.RWLocks (allWriteKeys env cmdLines) (allReadKeys env watching cmdLines)) cmdLines).1) ∧
    (runExecutors env
        (db.RWLocks (allWriteKeys env cmdLines) (allReadKeys env watching cmdLines)) cmdLines).1.length
      = cmdLines.length ∧
    ∀ k, (db.ExecMulti env watching cmdLines).2.GetVersion k =
      (db.GetVersion k + (allWriteKeys env cmdLines).count k) % 4294967296 := by
  have hkeys := collectKeys_eq env cmdLines [] [] hq
  simp only [List.nil_append] at hkeys
  have hch := (isWatchingChanged_false_iff db watching).2 hwatch
  obtain ⟨us, hloop⟩ := execLoop_eq_runExecutors env cmdLines
    (db.RWLocks (allWriteKeys env cmdLines) (allReadKeys env watching cmdLines)) [] [] hq hreg
    hundo hnoerr
  have hEM : db.ExecMulti env watching cmdLines =
      (.ret (.MultiRawReply (runExecutors env
        (db.RWLocks (allWriteKeys env cmdLines) (allReadKeys env watching cmdLines)) cmdLines).1),
       ((runExecutors env
        (db.RWLocks (allWriteKeys env cmdLines) (allReadKeys env watching cmdLines))
          cmdLines).2.AddVersion (allWriteKeys env cmdLines)).RWUnLocks
          (allWriteKeys env cmdLines) (allReadKeys env watching cmdLines)) := by
    simp only [allWriteKeys, allReadKeys] at hloop ⊢
    simp only [DB.ExecMulti, hkeys, isWatchingChanged_RWLocks, hch, Bool.false_eq_true,
      if_false, hloop, Bool.not_false, if_true, List.nil_append]
  rw [hEM]
  refine ⟨rfl, runExecutors_length env cmdLines _ hreg, ?_⟩
  intro k
  have hvm := runExecutors_versionMap env cmdLines
    (db.RWLocks (allWriteKeys env cmdLines) (allReadKeys env watching cmdLines)) hframe
  have hvm' : (runExecutors env
        (db.RWLocks (allWriteKeys env cmdLines) (allReadKeys env watching cmdLines))
          cmdLines).2.versionMap = db.versionMap := hvm
  have hgv : ∀ k', (runExecutors env
        (db.RWLocks (allWriteKeys env cmdLines) (allReadKeys env watching cmdLines))
          cmdLines).2.GetVersion k' = db.GetVersion k' := by
    intro k'
    simp only [DB.GetVersion, hvm']
  show (((runExecutors env _ cmdLines).2.AddVersion (allWriteKeys env cmdLines))).GetVersion k = _
  rw [DB.GetVersion_AddVersion _ _ _ (by rw [hvm']; exact htable) (by rw [hgv]; exact hu32 k), hgv]

/-- C3 (witness): the queue `set a 1`, `set b 2` on the empty sample database: two OK
replies, and the version of `a` goes from 0 to 1. -/
theorem ExecMulti_success_witness :
    (sampleDB.ExecMulti sampleEnv none [["set", "a", "1"], ["set", "b", "2"]]).1 =
      .ret (.MultiRawReply [.OkReply, .OkReply]) ∧
    (sampleDB.ExecMulti sampleEnv none [["set", "a", "1"], ["set", "b", "2"]]).2.GetVersion "a"
      = 1 :=
  have h := ExecMulti_success sampleEnv sampleDB none [["set", "a", "1"], ["set", "b", "2"]]
    (by decide) (by decide) sampleEnv_undoOnlyReads sampleEnv_keepVersions (by simp)
    (by decide) (by decide) (fun k => by rw [sampleDB_GetVersion]; decide)
  ⟨h.1, h.2.2 "a"⟩

/-- C4: for a connection in the multi state, after `execMulti` the connection has
`multiState = false`, an empty queue and a nil (empty) watching map, whichever way
`execMulti` is left (results, empty multi-bulk, EXECABORT, or a panic); for a
connection outside the multi state `execMulti` replies `ERR EXEC without MULTI` and
leaves database and connection as they were. -/
theorem execMulti_clears_state (env : Env) (db : DB) (conn : Connection) :
    (conn.InMultiState = true →
      (execMulti env db conn).2.2.multiState = false ∧
      (execMulti env db conn).2.2.queue = [] ∧
      (execMulti env db conn).2.2.watching = none ∧
      ((execMulti env db conn).1 = .panic ∨
       (execMulti env db conn).1 = .ret .EmptyMultiBulkReply ∨
       (∃ rs, (execMulti env db conn).1 = .ret (.MultiRawReply rs)) ∨
       (execMulti env db conn).1 =
         .ret (.ErrReply "EXECABORT Transaction discarded because of previous errors."))) ∧
    (conn.InMultiState = false →
      execMulti env db conn = (.ret (.ErrReply "ERR EXEC without MULTI"), db, conn)) := by
  constructor
  · intro h
    simp only [execMulti, h, Bool.not_true, Bool.false_eq_true, if_false,
      Connection.SetMultiState, Bool.not_false, if_true, true_and]
    exact ExecMulti_outcomes env db _ _
  · intro h
    simp [execMulti, h]

/-- C4 (witness): the sample connection with the queue `set a 1`. -/
theorem execMulti_clears_state_witness :
    (execMulti sampleEnv sampleDB { sampleConn with queue := [["set", "a", "1"]] }).2.2.multiState
      = false ∧
    (execMulti sampleEnv sampleDB { sampleConn with queue := [["set", "a", "1"]] }).2.2.queue
      = [] :=
  have h := (execMulti_clears_state sampleEnv sampleDB
    { sampleConn with queue := [["set", "a", "1"]] }).1 rfl
  ⟨h.1, h.2.1⟩

/-! ## WATCH, queueing and DISCARD (C5 to C7) -/

/-- C5 (code): `DB.Exec` answers every `WATCH` line that names at least one key with the
wrong-number-of-arguments reply and leaves database and connection as they were,
because the arity test of the `watch` branch lacks the negation. -/
theorem Exec_watch_with_keys (env : Env) (db : DB) (c : Connection) (name key : String)
    (keys : List String) (hname : env.ToLower name = "watch") :
    db.Exec env c (name :: key :: keys) = (.ret (.ArgNumErrReply "watch"), db, c) := by
  have hv : validateArity (-2) (name :: key :: keys) = true := by
    simp only [validateArity, wrapInt, List.length_cons]
    rw [if_neg (by decide), decide_eq_true_eq]
    have : (0 : Int) ≤ (keys.length : Int) := Int.ofNat_nonneg _
    push_cast
    omega
  simp [DB.Exec, hname, hv]

/-- C5 (witness): `WATCH a` on the sample database. -/
theorem Exec_watch_with_keys_witness :
    sampleDB.Exec sampleEnv { sampleConn with multiState := false } ["WATCH", "a"] =
      (.ret (.ArgNumErrReply "watch"), sampleDB, { sampleConn with multiState := false }) :=
  Exec_watch_with_keys sampleEnv sampleDB _ "WATCH" "a" [] (by decide)

/-- C6 (code): in the multi state `DB.Exec` replies QUEUED to a command line that
`EnqueueCmd` has refused with an error reply; the reply of `EnqueueCmd` is dropped. -/
theorem Exec_multi_replies_queued (env : Env) (db : DB) (c : Connection) (name : String)
    (args : List String) (r : Reply) (c' : Connection)
    (hmulti : c.InMultiState = true)
    (hname : env.ToLower name ∉ ["multi", "discard", "exec", "watch", "flushdb"])
    (henq : EnqueueCmd env c (name :: args) = (.ret r, c')) :
    db.Exec env c (name :: args) = (.ret .QueuedReply, db, c') := by
  simp only [List.mem_cons, List.mem_singleton, not_or, List.not_mem_nil, or_false] at hname
  obtain ⟨h1, h2, h3, h4, h5⟩ := hname
  simp [DB.Exec, h1, h2, h3, h4, h5, hmulti, henq]

/-- C6 (witness): `NOSUCH x` in the multi state: `EnqueueCmd` answers with the
unknown-command error and leaves the queue alone, `DB.Exec` answers QUEUED. -/
theorem Exec_multi_replies_queued_witness :
    EnqueueCmd sampleEnv sampleConn ["NOSUCH", "x"] =
      (.ret (.ErrReply "ERR unknown command 'nosuch'"), sampleConn) ∧
    sampleDB.Exec sampleEnv sampleConn ["NOSUCH", "x"] =
      (.ret .QueuedReply, sampleDB, sampleConn) :=
  ⟨by rfl, Exec_multi_replies_queued sampleEnv sampleDB sampleConn "NOSUCH" ["x"]
    (.ErrReply "ERR unknown command 'nosuch'") sampleConn rfl (by decide) (by rfl)⟩

/-- C7: in the multi state `DiscardMulti` replies OK and leaves an empty queue, a nil
(empty) watching map and `multiState = false`; outside the multi state it replies
`ERR DISCARD without MULTI` and leaves the connection as it was. -/
theorem DiscardMulti_spec (conn : Connection) :
    (conn.InMultiState = true →
      (DiscardMulti conn).1 = .OkReply ∧ (DiscardMulti conn).2.queue = [] ∧
      (DiscardMulti conn).2.watching = none ∧ (DiscardMulti conn).2.multiState = false) ∧
    (conn.InMultiState = false →
      (DiscardMulti conn).1 = .ErrReply "ERR DISCARD without MULTI" ∧
      (DiscardMulti conn).2 = conn) := by
  constructor
  · intro h
    simp [DiscardMulti, h, Connection.SetMultiState, Connection.ClearQueuedCmds]
  · intro h
    simp [DiscardMulti, h]

/-- C7 (witness): a connection in the multi state with one queued line and one watched
key. -/
theorem DiscardMulti_spec_witness :
    (DiscardMulti ⟨"", true, [["set", "a", "1"]], some [("a", 0)], 0⟩).1 = .OkReply ∧
    (DiscardMulti ⟨"", true, [["set", "a", "1"]], some [("a", 0)], 0⟩).2.queue = [] ∧
    (DiscardMulti ⟨"", true, [["set", "a", "1"]], some [("a", 0)], 0⟩).2.watching = none ∧
    (DiscardMulti ⟨"", true, [["set", "a", "1"]], some [("a", 0)], 0⟩).2.multiState = false :=
  (DiscardMulti_spec ⟨"", true, [["set", "a", "1"]], some [("a", 0)], 0⟩).1 rfl

/-! ## The dispatcher and the version counter (C8 to C10) -/

/-- C8: a command line whose lower-cased name is not in the command table gets the
reply `ERR unknown command '<name>'`; a registered name with an argument count that
fails `validateArity` gets the wrong-number-of-arguments reply; in both cases the
database is returned exactly as it was: no version is bumped, the lock table and its
history are untouched (no lock is taken), `data` and `ttlMap` are unchanged. -/
theorem execNormalCommand_rejects (env : Env) (db : DB) (name : String) (args : List String) :
    (env.cmdTable (env.ToLower name) = none →
      db.execNormalCommand env (name :: args) =
        (.ret (.ErrReply ("ERR unknown command '" ++ env.ToLower name ++ "'")), db)) ∧
    (∀ cmd, env.cmdTable (env.ToLower name) = some cmd →
      validateArity cmd.arity (name :: args) = false →
      db.execNormalCommand env (name :: args) =
        (.ret (.ArgNumErrReply (env.ToLower name)), db)) := by
  constructor
  · intro h
    simp [DB.execNormalCommand, h]
  · intro cmd h harity
    simp [DB.execNormalCommand, h, harity]

/-- C8 (witness): `NOSUCH x` is unknown and `SET a` has too few arguments. -/
theorem execNormalCommand_rejects_witness :
    sampleDB.execNormalCommand sampleEnv ["NOSUCH", "x"] =
        (.ret (.ErrReply "ERR unknown command 'nosuch'"), sampleDB) ∧
    sampleDB.execNormalCommand sampleEnv ["SET", "a"] =
        (.ret (.ArgNumErrReply "set"), sampleDB) :=
  ⟨(execNormalCommand_rejects sampleEnv sampleDB "NOSUCH" ["x"]).1 (by rfl),
   (execNormalCommand_rejects sampleEnv sampleDB "SET" ["a"]).2
     ⟨some sampleSet, some sampleFirstKey, some sampleUndoKey, 3⟩ (by rfl) (by decide)⟩

/-- C9 (counterexample): for the smallest `int`, `-arity` overflows back to the
smallest `int`, so `validateArity` accepts the empty argument list although the list
does not have at least 2^63 elements. -/
theorem validateArity_minInt_counterexample :
    validateArity (-9223372036854775808) [] = true ∧
    ¬ (((-9223372036854775808 : Int) ≥ 0 ∧
          (([] : CmdLine).length : Int) = -9223372036854775808) ∨
       ((-9223372036854775808 : Int) < 0 ∧
          (([] : CmdLine).length : Int) ≥ -(-9223372036854775808 : Int))) := by
  decide

/-- C9 (amended): for every `int` arity other than the smallest one and every argument
list, `validateArity` returns true exactly when `arity ≥ 0` and the list has exactly
`arity` elements, or `arity < 0` and the list has at least `-arity` elements. -/
theorem validateArity_iff (arity : Int) (cmdArgs : CmdLine)
    (hmin : -9223372036854775808 < arity) (hmax : arity ≤ 9223372036854775807) :
    validateArity arity cmdArgs = true ↔
      (arity ≥ 0 ∧ (cmdArgs.length : Int) = arity) ∨
      (arity < 0 ∧ (cmdArgs.length : Int) ≥ -arity) := by
  unfold validateArity wrapInt
  by_cases h : arity ≥ 0
  · rw [if_pos h, decide_eq_true_eq]
    omega
  · rw [if_neg h, decide_eq_true_eq]
    omega

/-- C9 (witness): arity `-2` and the two-element line `watch a`. -/
theorem validateArity_iff_witness :
    validateArity (-2) ["watch", "a"] = true ↔
      ((-2 : Int) ≥ 0 ∧ ((["watch", "a"] : CmdLine).length : Int) = -2) ∨
      ((-2 : Int) < 0 ∧ ((["watch", "a"] : CmdLine).length : Int) ≥ -(-2 : Int)) :=
  validateArity_iff (-2) ["watch", "a"] (by decide) (by decide)

/-- C10 (counterexample): `AddVersion` on a key whose version is the largest `uint32`
wraps the version around to 0. -/
theorem AddVersion_wraps_counterexample :
    sampleMaxVersionDB.GetVersion "a" = 4294967295 ∧
    (sampleMaxVersionDB.AddVersion ["a"]).GetVersion "a" = 0 ∧
    ¬ (sampleMaxVersionDB.GetVersion "a" ≤ (sampleMaxVersionDB.AddVersion ["a"]).GetVersion "a") := by
  decide

/-- C10 (amended): as long as the `uint32` counter of a key does not wrap around (its
version plus the number of bumps the operation makes stays below 2^32) and the
executors and undo generators of the registry leave `versionMap` alone, the version of
the key after `AddVersion`, `execNormalCommand` or `ExecMulti` is greater than or equal
to the version before; `PutEntity`, `Remove`, `Expire`, `Persist` and `Flush` leave it
as it is; in a database fresh from `MakeDB` every key has version 0. -/
theorem GetVersion_nondecreasing (env : Env) (db : DB) (k : String)
    (htable : 0 < db.versionMap.table.length) (hex : ExecutorsKeepVersions env)
    (hun : UndoKeepVersions env) :
    (∀ keys, db.GetVersion k + keys.count k < 4294967296 →
      db.GetVersion k ≤ (db.AddVersion keys).GetVersion k) ∧
    (∀ cmdLine, db.GetVersion k + (writeKeysOf env cmdLine).count k < 4294967296 →
      db.GetVersion k ≤ (db.execNormalCommand env cmdLine).2.GetVersion k) ∧
    (∀ watching cmdLines, db.GetVersion k + (allWriteKeys env cmdLines).count k < 4294967296 →
      db.GetVersion k ≤ (db.ExecMulti env watching cmdLines).2.GetVersion k) ∧
    (∀ key entity, (db.PutEntity key entity).2.GetVersion k = db.GetVersion k) ∧
    (∀ key, (db.Remove key).GetVersion k = db.GetVersion k) ∧
    (∀ key expireTime, (db.Expire key expireTime).GetVersion k = db.GetVersion k) ∧
    (∀ key, (db.Persist key).GetVersion k = db.GetVersion k) ∧
    db.Flush.GetVersion k = db.GetVersion k ∧
    MakeDB.GetVersion k = 0 :=
  ⟨fun keys hno => AddVersion_le db keys k htable hno,
   fun cmdLine hno => execNormalCommand_version env db cmdLine k htable hex hno,
   fun watching cmdLines hno => ExecMulti_version env db watching cmdLines k htable hex hun hno,
   fun _ _ => rfl, fun _ => rfl, fun _ _ => rfl, fun _ => rfl, rfl, MakeDB_GetVersion k⟩

/-- C10 (witness): two bumps of `a` on the empty sample database. -/
theorem GetVersion_nondecreasing_witness :
    sampleDB.GetVersion "a" ≤ (sampleDB.AddVersion ["a", "a"]).GetVersion "a" :=
  (GetVersion_nondecreasing sampleEnv sampleDB "a" (by decide) sampleEnv_keepVersions
    sampleEnv_undoKeepVersions).1 ["a", "a"] (by decide)

/-! ## Lemmas on the lock table -/

theorem sorted_orderedInsert_strict (r : Nat → Nat → Prop) [DecidableRel r]
    (htrans : ∀ a b c, r a b → r b c → r a c)
    (htri : ∀ a b, a ≠ b → ¬ r a b → r b a)
    (a : Nat) (l : List Nat) (hs : l.Sorted r) (ha : a ∉ l) :
    (l.orderedInsert r a).Sorted r := by
  induction l with
  | nil => simp
  | cons b l ih =>
    have hb : a ≠ b := fun h => ha (by simp [h])
    have hal : a ∉ l := fun h => ha (List.mem_cons_of_mem _ h)
    rw [List.sorted_cons] at hs
    simp only [List.orderedInsert]
    split
    · rename_i hab
      refine List.sorted_cons.2 ⟨?_, List.sorted_cons.2 hs⟩
      intro x hx
      rcases List.mem_cons.1 hx with rfl | hx
      · exact hab
      · exact htrans _ _ _ hab (hs.1 x hx)
    · rename_i hab
      refine List.sorted_cons.2 ⟨?_, ih hs.2 hal⟩
      intro x hx
      rw [List.mem_orderedInsert] at hx
      rcases hx with rfl | hx
      · exact htri _ _ hb hab
      · exact hs.1 x hx

theorem sorted_insertionSort_strict (r : Nat → Nat → Prop) [DecidableRel r]
    (htrans : ∀ a b c, r a b → r b c → r a c)
    (htri : ∀ a b, a ≠ b → ¬ r a b → r b a)
    (l : List Nat) (hn : l.Nodup) : (l.insertionSort r).Sorted r := by
  induction l with
  | nil => simp
  | cons a l ih =>
    rw [List.nodup_cons] at hn
    simp only [List.insertionSort]
    apply sorted_orderedInsert_strict r htrans htri _ _ (ih hn.2)
    rw [List.mem_insertionSort]
    exact hn.1

theorem lock.toLockIndices_sorted (locks : lock.Locks) (keys : List String) :
    (locks.toLockIndices keys false).Sorted (fun a b => a < b) := by
  simp only [lock.Locks.toLockIndices, Bool.false_eq_true, if_false]
  have htri : ∀ a b : Nat, a ≠ b → ¬ a < b → b < a := fun a b hab h => by omega
  have htrans : ∀ a b c : Nat, a < b → b < c → a < c := fun a b c h1 h2 => Nat.lt_trans h1 h2
  exact sorted_insertionSort_strict (fun a b => a < b) htrans htri _ (List.nodup_dedup _)

theorem lock.toLockIndices_sorted_rev (locks : lock.Locks) (keys : List String) :
    (locks.toLockIndices keys true).Sorted (fun a b => a > b) := by
  simp only [lock.Locks.toLockIndices, if_true]
  have htri : ∀ a b : Nat, a ≠ b → ¬ a > b → b > a := fun a b hab h => by omega
  have htrans : ∀ a b c : Nat, a > b → b > c → a > c := fun a b c h1 h2 => Nat.lt_trans h2 h1
  exact sorted_insertionSort_strict (fun a b => a > b) htrans htri _ (List.nodup_dedup _)

theorem lock.mem_toLockIndices (locks : lock.Locks) (keys : List String) (rev : Bool) (i : Nat) :
    i ∈ locks.toLockIndices keys rev ↔ ∃ key ∈ keys, locks.indexOf key = i := by
  cases rev <;>
    simp [lock.Locks.toLockIndices, List.mem_insertionSort, List.mem_dedup, lock.Locks.indexOf]

theorem lock.toLockIndices_reverse (locks : lock.Locks) (keys : List String) :
    locks.toLockIndices keys true = (locks.toLockIndices keys false).reverse := by
  have h1 := lock.toLockIndices_sorted_rev locks keys
  have h2 : ((locks.toLockIndices keys false).reverse).Sorted (fun a b => a > b) := by
    have := lock.toLockIndices_sorted locks keys
    unfold List.Sorted at this ⊢
    rw [List.pairwise_reverse]
    exact this
  have hp : (locks.toLockIndices keys true).Perm (locks.toLockIndices keys false).reverse := by
    simp only [lock.Locks.toLockIndices, if_true, Bool.false_eq_true, if_false]
    exact (List.perm_insertionSort _ _).trans
      ((List.perm_insertionSort _ _).symm.trans (List.reverse_perm _).symm)
  have hanti : ∀ a b : Nat, a > b → b > a → a = b := fun a b h1 h2 => by omega
  haveI : IsAntisymm Nat (fun a b => a > b) := ⟨hanti⟩
  exact List.eq_of_perm_of_sorted hp h1 h2

theorem lock.onMutex_getElem? (locks : lock.Locks) (i j : Nat) (f : lock.RWMutex → lock.RWMutex)
    (ev : lock.LockEvent) :
    (locks.onMutex i f ev).table[j]? = if j = i then (locks.table[j]?).map f else locks.table[j]? := by
  simp only [lock.Locks.onMutex, List.get?_eq_getElem?]
  cases hi : locks.table[i]? with
  | none =>
    by_cases hji : j = i
    · subst hji
      simp [hi]
    · simp [hji]
  | some mu =>
    have hlt : i < locks.table.length := by
      by_contra hge
      rw [List.getElem?_eq_none (by omega)] at hi
      exact Option.noConfusion hi
    simp only [List.getElem?_set]
    by_cases hji : j = i
    · subst hji
      simp [hi, hlt]
    · have : ¬ i = j := fun h => hji h.symm
      simp [hji, this]

theorem lock.onMutex_length (locks : lock.Locks) (i : Nat) (f : lock.RWMutex → lock.RWMutex)
    (ev : lock.LockEvent) : (locks.onMutex i f ev).table.length = locks.table.length := by
  simp only [lock.Locks.onMutex]
  split <;> simp

/-- The loop body of `RWLocks` and `RWUnLocks`: at each index `f` or `g` on the mutex,
with the event `ef` or `eg`, as `p` decides. -/
theorem lock.fold_spec (p : Nat → Prop) [DecidablePred p] (f g : lock.RWMutex → lock.RWMutex)
    (ef eg : Nat → lock.LockEvent) (indices : List Nat) (hn : indices.Nodup) (locks : lock.Locks) :
    (indices.foldl (fun l index =>
        if p index then l.onMutex index f (ef index) else l.onMutex index g (eg index))
      locks).history = locks.history ++ indices.map (fun i => if p i then ef i else eg i) ∧
    ∀ j, (indices.foldl (fun l index =>
        if p index then l.onMutex index f (ef index) else l.onMutex index g (eg index))
      locks).table[j]? =
      if j ∈ indices then (locks.table[j]?).map (if p j then f else g) else locks.table[j]? := by
  induction indices generalizing locks with
  | nil => simp
  | cons i rest ih =>
    rw [List.nodup_cons] at hn
    simp only [List.foldl_cons]
    obtain ⟨h1, h2⟩ := ih hn.2
      (if p i then locks.onMutex i f (ef i) else locks.onMutex i g (eg i))
    refine ⟨?_, ?_⟩
    · rw [h1]
      by_cases hp : p i <;> simp [hp, lock.Locks.onMutex]
    · intro j
      rw [h2]
      by_cases hji : j = i
      · subst hji
        by_cases hp : p j <;> simp [hp, hn.1, lock.onMutex_getElem?]
      · by_cases hp : p i <;> simp [hp, hji, lock.onMutex_getElem?]

theorem lock.RWLocks_eq (locks : lock.Locks) (W R : List String) :
    (locks.RWLocks W R).history = locks.history ++
      (locks.toLockIndices (W ++ R) false).map
        (fun i => if i ∈ W.map locks.indexOf then .Lock i else .RLock i) ∧
    ∀ j, (locks.RWLocks W R).table[j]? =
      if j ∈ locks.toLockIndices (W ++ R) false then
        (locks.table[j]?).map (if j ∈ W.map locks.indexOf
          then (fun mu => { mu with writers := mu.writers + 1 })
          else (fun mu => { mu with readers := mu.readers + 1 }))
      else locks.table[j]? :=
  lock.fold_spec (fun i => i ∈ W.map locks.indexOf) _ _ _ _ _
    (lock.toLockIndices_sorted locks (W ++ R)).nodup locks

theorem lock.RWUnLocks_eq (locks : lock.Locks) (W R : List String) :
    (locks.RWUnLocks W R).history = locks.history ++
      (locks.toLockIndices (W ++ R) true).map
        (fun i => if i ∈ W.map locks.indexOf then .Unlock i else .RUnlock i) ∧
    ∀ j, (locks.RWUnLocks W R).table[j]? =
      if j ∈ locks.toLockIndices (W ++ R) true then
        (locks.table[j]?).map (if j ∈ W.map locks.indexOf
          then (fun mu => { mu with writers := mu.writers - 1 })
          else (fun mu => { mu with readers := mu.readers - 1 }))
      else locks.table[j]? :=
  lock.fold_spec (fun i => i ∈ W.map locks.indexOf) _ _ _ _ _
    (lock.toLockIndices_sorted_rev locks (W ++ R)).nodup locks

theorem lock.lockSpread_lt (locks : lock.Locks) (h : Nat) (hne : 0 < locks.table.length) :
    locks.spread h < locks.table.length := by
  unfold lock.Locks.spread u32
  have h1 : (locks.table.length % 4294967296 + 4294967295) % 4294967296 &&& h
      ≤ (locks.table.length % 4294967296 + 4294967295) % 4294967296 := Nat.and_le_left
  omega

theorem lock.lockSpread_eq (locks : lock.Locks) (h : Nat) (hne : 0 < locks.table.length)
    (hle : locks.table.length ≤ 4294967296) :
    locks.spread h = h &&& (locks.table.length - 1) := by
  unfold lock.Locks.spread u32
  have : (locks.table.length % 4294967296 + 4294967295) % 4294967296
      = locks.table.length - 1 := by omega
  rw [this, Nat.land_comm]

theorem lock.acquired_map (p : Nat → Prop) [DecidablePred p] (l : List Nat) :
    lock.acquired (l.map fun i => if p i then lock.LockEvent.Lock i else lock.LockEvent.RLock i)
      = l.map (fun i => (i, decide (p i))) ∧
    lock.released (l.map fun i => if p i then lock.LockEvent.Lock i else lock.LockEvent.RLock i)
      = [] := by
  induction l with
  | nil => exact ⟨rfl, rfl⟩
  | cons i rest ih =>
    by_cases hp : p i <;> simp [hp, lock.acquired, lock.released, ih.1, ih.2]

theorem lock.released_map (p : Nat → Prop) [DecidablePred p] (l : List Nat) :
    lock.released
        (l.map fun i => if p i then lock.LockEvent.Unlock i else lock.LockEvent.RUnlock i)
      = l.map (fun i => (i, decide (p i))) ∧
    lock.acquired
        (l.map fun i => if p i then lock.LockEvent.Unlock i else lock.LockEvent.RUnlock i)
      = [] := by
  induction l with
  | nil => exact ⟨rfl, rfl⟩
  | cons i rest ih =>
    by_cases hp : p i <;> simp [hp, lock.acquired, lock.released, ih.1, ih.2]

theorem lock.toLockIndices_congr (locks locks' : lock.Locks)
    (hlen : locks'.table.length = locks.table.length) :
    locks'.toLockIndices = locks.toLockIndices ∧ locks'.indexOf = locks.indexOf := by
  have hs : locks'.spread = locks.spread := by
    funext h
    simp only [lock.Locks.spread, hlen]
  refine ⟨?_, ?_⟩
  · funext keys rev
    simp only [lock.Locks.toLockIndices, hs]
  · funext key
    simp only [lock.Locks.indexOf, hs]

/-! ## Lemmas on the dictionary -/

theorem fnvFold_eq_foldl (bytes : List Nat) (hash : Nat) :
    fnvFold hash bytes = bytes.foldl (fun hash b => u32 (hash * 16777619) ^^^ b) hash := by
  induction bytes generalizing hash with
  | nil => rfl
  | cons b rest ih => simp only [fnvFold, List.foldl_cons, ih, u32]

theorem dict.Put_fst {V : Type} (d : dict.ConcurrentDict V) (key : String) (val : V) :
    (d.Put key val).1 = if (d.Get key).isSome then 0 else 1 := by
  unfold dict.ConcurrentDict.Put dict.ConcurrentDict.Get
  cases hg : (d.getShard (d.spread (dict.fnv32 key))).m.get key <;> simp [hg]

theorem dict.Remove_fst {V : Type} (d : dict.ConcurrentDict V) (key : String) :
    (d.Remove key).1 = if (d.Get key).isSome then 1 else 0 := by
  unfold dict.ConcurrentDict.Remove dict.ConcurrentDict.Get
  cases hg : (d.getShard (d.spread (dict.fnv32 key))).m.get key <;> simp [hg]

theorem dict.PutIfAbsent_present {V : Type} (d : dict.ConcurrentDict V) (key : String) (val : V)
    (h : (d.Get key).isSome = true) : d.PutIfAbsent key val = (0, d) := by
  unfold dict.ConcurrentDict.Get at h
  unfold dict.ConcurrentDict.PutIfAbsent
  cases hg : (d.getShard (d.spread (dict.fnv32 key))).m.get key with
  | none => simp [hg] at h
  | some v => simp only [hg]

theorem dict.PutIfAbsent_absent {V : Type} (d : dict.ConcurrentDict V) (key : String) (val : V)
    (h : d.Get key = none) :
    d.PutIfAbsent key val = (1, (d.Put key val).2) := by
  unfold dict.ConcurrentDict.Get at h
  unfold dict.ConcurrentDict.PutIfAbsent dict.ConcurrentDict.Put
  simp only [h]

theorem dict.PutIfExists_absent {V : Type} (d : dict.ConcurrentDict V) (key : String) (val : V)
    (h : d.Get key = none) : d.PutIfExists key val = (0, d) := by
  unfold dict.ConcurrentDict.Get at h
  simp only [dict.ConcurrentDict.PutIfExists, h]

theorem dict.PutIfExists_present {V : Type} (d : dict.ConcurrentDict V) (key : String) (val : V)
    (h : (d.Get key).isSome = true) :
    d.PutIfExists key val = (1, (d.Put key val).2) := by
  unfold dict.ConcurrentDict.Get at h
  unfold dict.ConcurrentDict.PutIfExists dict.ConcurrentDict.Put
  cases hg : (d.getShard (d.spread (dict.fnv32 key))).m.get key with
  | none => simp [hg] at h
  | some v => simp only [hg]

theorem dict.Put_count_present {V : Type} (d : dict.ConcurrentDict V) (key : String) (val : V)
    (h : (d.Get key).isSome = true) : (d.Put key val).2.count = d.count := by
  unfold dict.ConcurrentDict.Get at h
  unfold dict.ConcurrentDict.Put
  cases hg : (d.getShard (d.spread (dict.fnv32 key))).m.get key with
  | none => simp [hg] at h
  | some v =>
    simp only [hg]
    rfl

theorem dict.Put_count_absent {V : Type} (d : dict.ConcurrentDict V) (key : String) (val : V)
    (h : d.Get key = none) : (d.Put key val).2.count = wrapInt32 (d.count + 1) := by
  unfold dict.ConcurrentDict.Get at h
  unfold dict.ConcurrentDict.Put
  simp only [h]
  rfl

theorem dict.Remove_count_present {V : Type} (d : dict.ConcurrentDict V) (key : String)
    (h : (d.Get key).isSome = true) : (d.Remove key).2.count = wrapInt32 (d.count - 1) := by
  unfold dict.ConcurrentDict.Get at h
  unfold dict.ConcurrentDict.Remove
  cases hg : (d.getShard (d.spread (dict.fnv32 key))).m.get key with
  | none => simp [hg] at h
  | some v =>
    simp only [hg]
    rfl

theorem dict.Remove_absent {V : Type} (d : dict.ConcurrentDict V) (key : String)
    (h : d.Get key = none) : d.Remove key = (0, d) := by
  unfold dict.ConcurrentDict.Get at h
  simp only [dict.ConcurrentDict.Remove, h]

theorem dict.Remove_table_length {V : Type} (d : dict.ConcurrentDict V) (key : String) :
    (d.Remove key).2.table.length = d.table.length := by
  unfold dict.ConcurrentDict.Remove
  simp only []
  split <;> simp [dict.ConcurrentDict.setShard, dict.ConcurrentDict.decreaseCount]

theorem GoMap.mem_keys_of_get {V : Type} (m : GoMap V) (k : String) (v : V)
    (h : m.get k = some v) : k ∈ m.map Prod.fst := by
  induction m with
  | nil => simp [GoMap.get] at h
  | cons kv rest ih =>
    obtain ⟨k0, v0⟩ := kv
    by_cases hk : k0 = k
    · simp [hk]
    · simp only [GoMap.get, hk, if_false] at h
      simp [ih h]

theorem dict.mem_storedKeys_of_Get {V : Type} (d : dict.ConcurrentDict V) (k : String)
    (h : (d.Get k).isSome = true) : k ∈ d.storedKeys := by
  obtain ⟨v, hv⟩ := Option.isSome_iff_exists.1 h
  unfold dict.ConcurrentDict.Get at hv
  simp only [dict.ConcurrentDict.getShard, List.getD_eq_getElem?_getD] at hv
  cases hsh : d.table[d.spread (dict.fnv32 k)]? with
  | none =>
    rw [hsh] at hv
    simp [GoMap.get] at hv
  | some sh =>
    rw [hsh] at hv
    simp only [Option.getD_some] at hv
    have hmem : sh ∈ d.table := List.getElem?_mem hsh
    simp only [dict.ConcurrentDict.storedKeys, List.mem_flatten, List.mem_map]
    exact ⟨_, ⟨sh, hmem, rfl⟩, GoMap.mem_keys_of_get _ _ _ hv⟩

theorem dict.mem_presentKeys {V : Type} (d : dict.ConcurrentDict V) (k : String) :
    k ∈ d.presentKeys ↔ (d.Get k).isSome = true := by
  simp only [dict.ConcurrentDict.presentKeys, List.mem_dedup, List.mem_filter]
  constructor
  · exact fun h => h.2
  · exact fun h => ⟨dict.mem_storedKeys_of_Get d k h, h⟩

theorem dict.presentKeys_length {V : Type} (d : dict.ConcurrentDict V) :
    d.presentKeys.length = d.presentKeys.toFinset.card :=
  (List.toFinset_card_of_nodup (List.nodup_dedup _)).symm

theorem wrapInt32_wrap (x y : Int) : wrapInt32 (wrapInt32 x + y) = wrapInt32 (x + y) := by
  unfold wrapInt32
  omega

theorem wrapInt32_wrap_sub (x y : Int) : wrapInt32 (wrapInt32 x - y) = wrapInt32 (x - y) := by
  unfold wrapInt32
  omega

theorem wrapInt32_of_lt (n : Nat) (h : n < 2147483648) : wrapInt32 n = n := by
  unfold wrapInt32
  omega

theorem wrapInt32_two_pow_31 : wrapInt32 ((2147483648 : Nat) : Int) = -2147483648 := by
  decide

theorem dict.presentKeys_Put {V : Type} (d : dict.ConcurrentDict V) (key : String) (val : V)
    (hne : 0 < d.table.length) :
    (d.Put key val).2.presentKeys.toFinset = insert key d.presentKeys.toFinset := by
  ext k
  simp only [List.mem_toFinset, dict.mem_presentKeys, Finset.mem_insert,
    dict.Get_Put _ _ _ _ hne]
  by_cases hk : k = key
  · simp [hk]
  · simp [hk]

theorem dict.presentKeys_Remove {V : Type} (d : dict.ConcurrentDict V) (key : String) :
    (d.Remove key).2.presentKeys.toFinset = d.presentKeys.toFinset.erase key := by
  ext k
  simp only [List.mem_toFinset, dict.mem_presentKeys, Finset.mem_erase, dict.Get_Remove]
  by_cases hk : k = key
  · simp [hk]
  · simp [hk]

theorem dict.CountOk_Put {V : Type} (d : dict.ConcurrentDict V) (key : String) (val : V)
    (h : dict.CountOk d) : dict.CountOk (d.Put key val).2 := by
  obtain ⟨hne, hc⟩ := h
  refine ⟨by rw [dict.Put_table_length]; exact hne, ?_⟩
  rw [dict.presentKeys_length, dict.presentKeys_Put d key val hne]
  cases hg : d.Get key with
  | none =>
    have hnot : key ∉ d.presentKeys.toFinset := by
      simp [dict.mem_presentKeys, hg]
    rw [dict.Put_count_absent d key val hg, Finset.card_insert_of_not_mem hnot, hc,
      wrapInt32_wrap, ← dict.presentKeys_length]
    push_cast
    rfl
  | some v =>
    have hin : key ∈ d.presentKeys.toFinset := by
      simp [dict.mem_presentKeys, hg]
    rw [dict.Put_count_present d key val (by simp [hg]), Finset.insert_eq_of_mem hin, hc,
      ← dict.presentKeys_length]

theorem dict.CountOk_Remove {V : Type} (d : dict.ConcurrentDict V) (key : String)
    (h : dict.CountOk d) : dict.CountOk (d.Remove key).2 := by
  obtain ⟨hne, hc⟩ := h
  cases hg : d.Get key with
  | none =>
    rw [dict.Remove_absent d key hg]
    exact ⟨hne, hc⟩
  | some v =>
    refine ⟨by rw [dict.Remove_table_length]; exact hne, ?_⟩
    have hin : key ∈ d.presentKeys.toFinset := by
      simp [dict.mem_presentKeys, hg]
    have hpos : 0 < d.presentKeys.toFinset.card := Finset.card_pos.2 ⟨key, hin⟩
    rw [dict.presentKeys_length, dict.presentKeys_Remove, Finset.card_erase_of_mem hin,
      dict.Remove_count_present d key (by simp [hg]), hc, wrapInt32_wrap_sub,
      dict.presentKeys_length]
    congr 1
    omega

theorem dict.CountOk_call {V : Type} (d : dict.ConcurrentDict V) (c : dict.Call V)
    (h : dict.CountOk d) : dict.CountOk (d.call c) := by
  cases c with
  | Put key val => exact dict.CountOk_Put d key val h
  | PutIfAbsent key val =>
    simp only [dict.ConcurrentDict.call]
    cases hg : d.Get key with
    | none =>
      rw [dict.PutIfAbsent_absent d key val hg]
      exact dict.CountOk_Put d key val h
    | some v =>
      rw [dict.PutIfAbsent_present d key val (by simp [hg])]
      exact h
  | PutIfExists key val =>
    simp only [dict.ConcurrentDict.call]
    cases hg : d.Get key with
    | none =>
      rw [dict.PutIfExists_absent d key val hg]
      exact h
    | some v =>
      rw [dict.PutIfExists_present d key val (by simp [hg])]
      exact dict.CountOk_Put d key val h
  | Remove key => exact dict.CountOk_Remove d key h

theorem dict.CountOk_calls {V : Type} (cs : List (dict.Call V)) (d : dict.ConcurrentDict V)
    (h : dict.CountOk d) : dict.CountOk (d.calls cs) := by
  induction cs generalizing d with
  | nil => exact h
  | cons c rest ih => exact ih _ (dict.CountOk_call d c h)

theorem dict.CountOk_MakeConcurrent {V : Type} (param : Int)
    (hmk : 0 < (dict.MakeConcurrent param : dict.ConcurrentDict V).table.length) :
    dict.CountOk (dict.MakeConcurrent param : dict.ConcurrentDict V) := by
  refine ⟨hmk, ?_⟩
  have hnil : (dict.MakeConcurrent param : dict.ConcurrentDict V).presentKeys = [] := by
    apply List.eq_nil_iff_forall_not_mem.2
    intro k hk
    rw [dict.mem_presentKeys, dict.Get_MakeConcurrent] at hk
    simp at hk
  rw [hnil]
  rfl

theorem dict.binaryKey_injective : Function.Injective dict.binaryKey := by
  intro i j h
  have h := congrArg String.data h
  simp only [dict.binaryKey] at h
  have hback : ∀ n : Nat, ((Nat.digits 2 n).map fun digit => if digit = 0 then '0' else '1').map
      (fun c => if c = '0' then 0 else 1) = Nat.digits 2 n := by
    intro n
    rw [List.map_map]
    conv_rhs => rw [← List.map_id (Nat.digits 2 n)]
    apply List.map_congr_left
    intro d hd
    have hlt : d < 2 := Nat.digits_lt_base (by norm_num) hd
    have : d = 0 ∨ d = 1 := by omega
    rcases this with rfl | rfl <;> simp
  have := congrArg (List.map fun c => if c = '0' then 0 else 1) h
  rw [hback, hback] at this
  exact Nat.digits.injective 2 this

theorem dict.calls_table_length {V : Type} (keys : List String) (val : V)
    (d : dict.ConcurrentDict V) :
    (d.calls (keys.map fun key => dict.Call.Put key val)).table.length = d.table.length := by
  induction keys generalizing d with
  | nil => rfl
  | cons key rest ih =>
    simp only [List.map_cons, dict.ConcurrentDict.calls, dict.ConcurrentDict.call]
    rw [ih, dict.Put_table_length]

theorem dict.Get_calls_Put {V : Type} (keys : List String) (val : V)
    (d : dict.ConcurrentDict V) (hne : 0 < d.table.length) (k : String) :
    ((d.calls (keys.map fun key => dict.Call.Put key val)).Get k).isSome =
      (decide (k ∈ keys) || (d.Get k).isSome) := by
  induction keys generalizing d with
  | nil => simp [dict.ConcurrentDict.calls]
  | cons key rest ih =>
    simp only [List.map_cons, dict.ConcurrentDict.calls, dict.ConcurrentDict.call]
    rw [ih _ (by rw [dict.Put_table_length]; exact hne), dict.Get_Put _ _ _ _ hne]
    by_cases hk : k = key
    · simp [hk]
    · simp [hk]

theorem dict.presentKeys_manyPuts {V : Type} (n : Nat) (val : V) (param : Int)
    (hmk : 0 < (dict.MakeConcurrent param : dict.ConcurrentDict V).table.length) :
    ((dict.MakeConcurrent param : dict.ConcurrentDict V).calls
      (dict.manyPuts n val)).presentKeys.length = n := by
  have hmp : (dict.manyPuts n val : List (dict.Call V)) =
      ((List.range n).map dict.binaryKey).map (fun key => dict.Call.Put key val) := by
    simp only [dict.manyPuts, List.map_map]
    rfl
  have hnd : ((List.range n).map dict.binaryKey).Nodup :=
    (List.nodup_range n).map dict.binaryKey_injective
  rw [dict.presentKeys_length, hmp]
  have hset : ((dict.MakeConcurrent param : dict.ConcurrentDict V).calls
      (((List.range n).map dict.binaryKey).map
        (fun key => dict.Call.Put key val))).presentKeys.toFinset =
      ((List.range n).map dict.binaryKey).toFinset := by
    ext k
    rw [List.mem_toFinset, List.mem_toFinset, dict.mem_presentKeys,
      dict.Get_calls_Put _ _ _ hmk, dict.Get_MakeConcurrent]
    simp
  rw [hset, List.toFinset_card_of_nodup hnd, List.length_map, List.length_range]

theorem dict.Len_manyPuts {V : Type} (n : Nat) (val : V) (param : Int)
    (hmk : 0 < (dict.MakeConcurrent param : dict.ConcurrentDict V).table.length) :
    ((dict.MakeConcurrent param : dict.ConcurrentDict V).calls (dict.manyPuts n val)).Len
      = wrapInt32 n := by
  have hinv := dict.CountOk_calls (dict.manyPuts n val) _
    (dict.CountOk_MakeConcurrent param hmk)
  have h2 := hinv.2
  rw [dict.presentKeys_manyPuts n val param hmk] at h2
  exact h2

theorem forEachInShard_logged_stops {σ V : Type} (consumer : dict.Consumer σ V)
    (m : GoMap V) (s : σ) (log : List (String × V × Bool)) :
    ∃ calls, (dict.forEachInShard (dict.logged consumer) (s, log) m).2 = log ++ calls ∧
      ∀ i, i + 1 < calls.length → ∀ c, calls[i]? = some c → c.2.2 = true := by
  induction m generalizing s log with
  | nil => exact ⟨[], by simp [dict.forEachInShard], by simp⟩
  | cons kv rest ih =>
    obtain ⟨key, value⟩ := kv
    simp only [dict.forEachInShard, dict.logged]
    cases hc : (consumer s key value).1 with
    | false =>
      refine ⟨[(key, value, false)], by simp, ?_⟩
      intro i hi
      simp at hi
    | true =>
      obtain ⟨calls, h1, h2⟩ := ih (consumer s key value).2 (log ++ [(key, value, true)])
      refine ⟨(key, value, true) :: calls, ?_, ?_⟩
      · simp only [Bool.not_true, Bool.false_eq_true, if_false]
        rw [h1]
        simp
      · intro i hi c hci
        cases i with
        | zero =>
          simp at hci
          rw [← hci]
        | succ i =>
          simp only [List.length_cons] at hi
          simp only [List.getElem?_cons_succ] at hci
          exact h2 i (by omega) c hci

theorem testBit_smear_step (n s m : Nat)
    (hs : ∀ i, s.testBit i = true ↔ ∃ j, j < m ∧ n.testBit (i + j) = true) :
    ∀ i, (s ||| (s >>> m)).testBit i = true ↔ ∃ j, j < 2 * m ∧ n.testBit (i + j) = true := by
  intro i
  rw [Nat.testBit_or, Bool.or_eq_true, Nat.testBit_shiftRight, hs, hs]
  constructor
  · rintro (⟨j, hj, h⟩ | ⟨j, hj, h⟩)
    · exact ⟨j, by omega, h⟩
    · refine ⟨m + j, by omega, ?_⟩
      rw [← h]
      congr 1
      omega
  · rintro ⟨j, hj, h⟩
    by_cases hjm : j < m
    · exact Or.inl ⟨j, hjm, h⟩
    · refine Or.inr ⟨j - m, by omega, ?_⟩
      rw [← h]
      congr 1
      omega

/-- The five or-shift steps of `computeCapacity` on a number below 2^32 set every bit
below its highest set bit. -/
theorem smear_eq (n : Nat) (hpos : 0 < n) (hlt : n < 4294967296) :
    ∃ k, 0 < k ∧ k ≤ 32 ∧ 2 ^ (k - 1) ≤ n ∧ n < 2 ^ k ∧
      (let n1 := n ||| (n >>> 1)
       let n2 := n1 ||| (n1 >>> 2)
       let n3 := n2 ||| (n2 >>> 4)
       let n4 := n3 ||| (n3 >>> 8)
       n4 ||| (n4 >>> 16)) = 2 ^ k - 1 := by
  have h0 : ∀ i, n.testBit i = true ↔ ∃ j, j < 1 ∧ n.testBit (i + j) = true := by
    intro i
    constructor
    · intro h
      exact ⟨0, by omega, h⟩
    · rintro ⟨j, hj, h⟩
      have : j = 0 := by omega
      subst this
      exact h
  have h1 := testBit_smear_step n _ 1 h0
  have h2 := testBit_smear_step n _ 2 h1
  have h3 := testBit_smear_step n _ 4 h2
  have h4 := testBit_smear_step n _ 8 h3
  have h5 := testBit_smear_step n _ 16 h4
  have hk1 : n < 2 ^ n.size := Nat.lt_size_self n
  have hk0 : 0 < n.size := Nat.size_pos.2 hpos
  have hk2 : 2 ^ (n.size - 1) ≤ n := by
    have : n.size - 1 < n.size := by omega
    exact Nat.lt_size.1 this
  have hk3 : n.size ≤ 32 := Nat.size_le.2 hlt
  refine ⟨n.size, hk0, hk3, hk2, hk1, ?_⟩
  apply Nat.eq_of_testBit_eq
  intro i
  rw [Nat.testBit_two_pow_sub_one]
  rw [Bool.eq_iff_iff, h5 i, decide_eq_true_eq]
  constructor
  · rintro ⟨j, hj, h⟩
    have hge := Nat.testBit_implies_ge h
    have : 2 ^ (i + j) < 2 ^ n.size := lt_of_le_of_lt hge hk1
    have := (Nat.pow_lt_pow_iff_right (by norm_num : 1 < 2)).1 this
    omega
  · intro hi
    obtain ⟨t, ht1, ht2⟩ := Nat.ge_two_pow_implies_high_bit_true hk2
    have hge := Nat.testBit_implies_ge ht2
    have : 2 ^ t < 2 ^ n.size := lt_of_le_of_lt hge hk1
    have := (Nat.pow_lt_pow_iff_right (by norm_num : 1 < 2)).1 this
    refine ⟨t - i, by omega, ?_⟩
    rw [← ht2]
    congr 1
    omega

/-! ## The lock table (C11, C12) -/

/-- C11: `RWLocks` acquires the distinct lock indices of the write and read keys, each
exactly once and in strictly ascending order: the events it adds to the history are
one acquisition per index of the sorted list `toLockIndices`, a `Lock` when some write
key has that index and an `RLock` otherwise; that list holds exactly the indices
`spread(fnv32(key))` of the given keys, all below the table size; the mutex at each of
these indices is taken once more in the stated mode and every other mutex is left as
it was.  For a table of at most 2^32 mutexes the index is `fnv32(key) & (size - 1)`. -/
theorem RWLocks_spec (locks : lock.Locks) (W R : List String)
    (htable : 0 < locks.table.length) :
    (locks.toLockIndices (W ++ R) false).Sorted (fun a b => a < b) ∧
    (∀ i, i ∈ locks.toLockIndices (W ++ R) false ↔ ∃ key ∈ W ++ R, locks.indexOf key = i) ∧
    (∀ i ∈ locks.toLockIndices (W ++ R) false, i < locks.table.length) ∧
    (locks.RWLocks W R).history = locks.history ++
      (locks.toLockIndices (W ++ R) false).map
        (fun i => if i ∈ W.map locks.indexOf then .Lock i else .RLock i) ∧
    (∀ j, (locks.RWLocks W R).table[j]? =
      if j ∈ locks.toLockIndices (W ++ R) false then
        (locks.table[j]?).map (if j ∈ W.map locks.indexOf
          then (fun mu => { mu with writers := mu.writers + 1 })
          else (fun mu => { mu with readers := mu.readers + 1 }))
      else locks.table[j]?) ∧
    (locks.table.length ≤ 4294967296 →
      ∀ key, locks.indexOf key = lock.fnv32 key &&& (locks.table.length - 1)) := by
  refine ⟨lock.toLockIndices_sorted locks _, lock.mem_toLockIndices locks _ false, ?_,
    (lock.RWLocks_eq locks W R).1, (lock.RWLocks_eq locks W R).2, ?_⟩
  · intro i hi
    obtain ⟨key, -, rfl⟩ := (lock.mem_toLockIndices locks _ false i).1 hi
    exact lock.lockSpread_lt locks _ htable
  · intro hle key
    exact lock.lockSpread_eq locks _ htable hle

/-- C11 (witness): write key `a` (index 14) and read keys `b`, `c` (indices 13, 12) on
a table of 16 mutexes. -/
theorem RWLocks_spec_witness :
    (sampleLocks.RWLocks ["a"] ["b", "c"]).history = [.RLock 12, .RLock 13, .Lock 14] :=
  (RWLocks_spec sampleLocks ["a"] ["b", "c"] (by decide)).2.2.2.1

/-- C12: the (index, mode) pairs released by `RWUnLocks` are the pairs acquired by
`RWLocks` with the same arguments, in reverse order (whatever happened to the mutexes
in between, the table keeping its size); `RWLocks` adds acquisitions only and
`RWUnLocks` releases only; and `RWLocks` followed by `RWUnLocks` leaves every mutex of
the table in the state it had before. -/
theorem RWUnLocks_reverses_RWLocks (locks locks' : lock.Locks) (W R : List String)
    (htable : 0 < locks.table.length) (hlen : locks'.table.length = locks.table.length) :
    ∃ acq rel,
      (locks.RWLocks W R).history = locks.history ++ acq ∧
      (locks'.RWUnLocks W R).history = locks'.history ++ rel ∧
      lock.released rel = (lock.acquired acq).reverse ∧
      (∀ p ∈ lock.acquired acq, p.1 < locks.table.length) ∧
      (lock.acquired acq).length = acq.length ∧ lock.released acq = [] ∧
      (lock.released rel).length = rel.length ∧ lock.acquired rel = [] ∧
      ((locks.RWLocks W R).RWUnLocks W R).table = locks.table := by
  obtain ⟨hc1, hc2⟩ := lock.toLockIndices_congr locks locks' hlen
  refine ⟨_, _, (lock.RWLocks_eq locks W R).1, (lock.RWUnLocks_eq locks' W R).1, ?_, ?_, ?_, ?_,
    ?_, ?_, ?_⟩
  · rw [hc1, hc2, (lock.released_map _ _).1, (lock.acquired_map _ _).1,
      lock.toLockIndices_reverse, List.map_reverse]
  · rw [(lock.acquired_map _ _).1]
    intro p hp
    obtain ⟨i, hi, rfl⟩ := List.mem_map.1 hp
    obtain ⟨key, -, rfl⟩ := (lock.mem_toLockIndices locks _ false i).1 hi
    exact lock.lockSpread_lt locks _ htable
  · rw [(lock.acquired_map _ _).1]
    simp
  · exact (lock.acquired_map _ _).2
  · rw [(lock.released_map _ _).1]
    simp
  · exact (lock.released_map _ _).2
  · apply List.ext_getElem?
    intro j
    have hlen1 : (locks.RWLocks W R).table.length = locks.table.length := by
      have h0 := (lock.RWLocks_eq locks W R).2
      apply Nat.le_antisymm
      · by_contra hgt
        have hj := h0 locks.table.length
        have hnone : locks.table[locks.table.length]? = none :=
          List.getElem?_eq_none (Nat.le_refl _)
        rw [hnone] at hj
        simp only [Option.map_none', ite_self] at hj
        have := (List.getElem?_eq_none_iff.1 hj)
        omega
      · by_contra hlt
        have hlt' : (locks.RWLocks W R).table.length < locks.table.length := by omega
        have hj := h0 (locks.RWLocks W R).table.length
        rw [List.getElem?_eq_none (Nat.le_refl _)] at hj
        obtain ⟨mu, hmu⟩ : ∃ mu, locks.table[(locks.RWLocks W R).table.length]? = some mu :=
          ⟨_, List.getElem?_eq_getElem hlt'⟩
        rw [hmu] at hj
        split at hj <;> simp at hj
    obtain ⟨hd1, hd2⟩ := lock.toLockIndices_congr locks (locks.RWLocks W R) hlen1
    rw [(lock.RWUnLocks_eq (locks.RWLocks W R) W R).2 j, (lock.RWLocks_eq locks W R).2 j,
      hd1, hd2]
    have hmem : j ∈ locks.toLockIndices (W ++ R) true ↔ j ∈ locks.toLockIndices (W ++ R) false := by
      rw [lock.mem_toLockIndices, lock.mem_toLockIndices]
    by_cases hj : j ∈ locks.toLockIndices (W ++ R) false
    · rw [if_pos (hmem.2 hj), if_pos hj, Option.map_map]
      by_cases hw : j ∈ W.map locks.indexOf
      · simp only [hw, if_true]
        cases locks.table[j]? <;> rfl
      · simp only [hw, if_false]
        cases locks.table[j]? <;> rfl
    · rw [if_neg (fun h => hj (hmem.1 h)), if_neg hj]

/-- C12 (witness): write key `a`, read keys `b`, `c` on a table of 16 mutexes. -/
theorem RWUnLocks_reverses_RWLocks_witness :
    ∃ acq rel,
      (sampleLocks.RWLocks ["a"] ["b", "c"]).history = sampleLocks.history ++ acq ∧
      (sampleLocks.RWUnLocks ["a"] ["b", "c"]).history = sampleLocks.history ++ rel ∧
      lock.released rel = (lock.acquired acq).reverse ∧
      (∀ p ∈ lock.acquired acq, p.1 < sampleLocks.table.length) ∧
      (lock.acquired acq).length = acq.length ∧ lock.released acq = [] ∧
      (lock.released rel).length = rel.length ∧ lock.acquired rel = [] ∧
      ((sampleLocks.RWLocks ["a"] ["b", "c"]).RWUnLocks ["a"] ["b", "c"]).table =
        sampleLocks.table :=
  RWUnLocks_reverses_RWLocks sampleLocks sampleLocks ["a"] ["b", "c"] (by decide) rfl

/-! ## The sharded dictionary (C14 to C20) -/

/-- C14 (counterexample): 2^31 calls of `Put`, each with a key of its own (the binary
digits of 0, 1, ..., 2^31 - 1), on a dict fresh from `MakeConcurrent(16)`: 2^31 keys are
present, while the `int32` counter has wrapped around and `Len()` is -2^31. -/
theorem Len_wraps_counterexample :
    ((dict.MakeConcurrent 16 : dict.ConcurrentDict Unit).calls
      (dict.manyPuts 2147483648 ())).presentKeys.length = 2147483648 ∧
    ((dict.MakeConcurrent 16 : dict.ConcurrentDict Unit).calls
      (dict.manyPuts 2147483648 ())).Len = -2147483648 :=
  ⟨dict.presentKeys_manyPuts 2147483648 () 16 (by decide),
   (dict.Len_manyPuts 2147483648 () 16 (by decide)).trans wrapInt32_two_pow_31⟩

/-- C14 (amended): after every sequence of `Put`, `PutIfAbsent`, `PutIfExists` and
`Remove` calls on a dict created by `MakeConcurrent`, `Len()` is the number of distinct
keys for which `Get` reports present, reduced to an `int32`; so `Len()` equals that
number as long as fewer than 2^31 keys are present. -/
theorem Len_after_calls {V : Type} (param : Int) (cs : List (dict.Call V))
    (hmk : 0 < (dict.MakeConcurrent param : dict.ConcurrentDict V).table.length) :
    (∀ k, k ∈ ((dict.MakeConcurrent param : dict.ConcurrentDict V).calls cs).presentKeys ↔
      ((dict.MakeConcurrent param : dict.ConcurrentDict V).calls cs).Get k ≠ none) ∧
    ((dict.MakeConcurrent param : dict.ConcurrentDict V).calls cs).presentKeys.Nodup ∧
    ((dict.MakeConcurrent param : dict.ConcurrentDict V).calls cs).Len =
      wrapInt32 ((dict.MakeConcurrent param : dict.ConcurrentDict V).calls cs).presentKeys.length ∧
    (((dict.MakeConcurrent param : dict.ConcurrentDict V).calls cs).presentKeys.length
        < 2147483648 →
      ((dict.MakeConcurrent param : dict.ConcurrentDict V).calls cs).Len =
        ((dict.MakeConcurrent param : dict.ConcurrentDict V).calls cs).presentKeys.length) := by
  have hinv := dict.CountOk_calls cs _ (dict.CountOk_MakeConcurrent param hmk)
  refine ⟨?_, List.nodup_dedup _, hinv.2, ?_⟩
  · intro k
    rw [dict.mem_presentKeys, Option.isSome_iff_ne_none]
  · intro hlt
    show dict.ConcurrentDict.count _ = _
    rw [hinv.2, wrapInt32_of_lt _ hlt]

/-- C14 (witness): five calls on a dict of 16 shards; `a` and `b` are present at the
end. -/
theorem Len_after_calls_witness :
    ((dict.MakeConcurrent 16 : dict.ConcurrentDict String).calls
      [.Put "a" "1", .PutIfAbsent "a" "2", .Put "b" "3", .Remove "c", .PutIfExists "z" "4"]).Len
      = 2 :=
  (Len_after_calls 16
    [.Put "a" "1", .PutIfAbsent "a" "2", .Put "b" "3", .Remove "c", .PutIfExists "z" "4"]
    (by decide)).2.2.2 (by decide)

/-- C15: `Put` returns 1 when the key was absent and 0 when it was present; in both
cases a following `Get` of the key returns the new value with `exists = true`, and
`Get` of every other key returns what it returned before. -/
theorem Put_spec {V : Type} (d : dict.ConcurrentDict V) (key : String) (val : V)
    (htable : 0 < d.table.length) :
    (d.Get key = none → (d.Put key val).1 = 1) ∧
    (d.Get key ≠ none → (d.Put key val).1 = 0) ∧
    (d.Put key val).2.Get key = some val ∧
    ∀ k, k ≠ key → (d.Put key val).2.Get k = d.Get k := by
  refine ⟨?_, ?_, ?_, ?_⟩
  · intro h
    rw [dict.Put_fst, h]
    rfl
  · intro h
    rw [dict.Put_fst, if_pos (Option.isSome_iff_ne_none.2 h)]
  · rw [dict.Get_Put _ _ _ _ htable, if_pos rfl]
  · intro k hk
    rw [dict.Get_Put _ _ _ _ htable, if_neg hk]

/-- C15 (witness): `Put a 1` on an empty dict of 16 shards. -/
theorem Put_spec_witness :
    ((dict.MakeConcurrent 16 : dict.ConcurrentDict String).Put "a" "1").1 = 1 ∧
    ((dict.MakeConcurrent 16 : dict.ConcurrentDict String).Put "a" "1").2.Get "a" = some "1" :=
  have h := Put_spec (dict.MakeConcurrent 16 : dict.ConcurrentDict String) "a" "1" (by decide)
  ⟨h.1 (by decide), h.2.2.1⟩

/-- C16: `Remove` returns 1 when the key was present and 0 when it was absent; after
the call `Get` of the key reports absent, and `Get` of every other key returns what it
returned before. -/
theorem Remove_spec {V : Type} (d : dict.ConcurrentDict V) (key : String) :
    (d.Get key ≠ none → (d.Remove key).1 = 1) ∧
    (d.Get key = none → (d.Remove key).1 = 0) ∧
    (d.Remove key).2.Get key = none ∧
    ∀ k, k ≠ key → (d.Remove key).2.Get k = d.Get k := by
  refine ⟨?_, ?_, ?_, ?_⟩
  · intro h
    rw [dict.Remove_fst, if_pos (Option.isSome_iff_ne_none.2 h)]
  · intro h
    rw [dict.Remove_fst, h]
    rfl
  · rw [dict.Get_Remove, if_pos rfl]
  · intro k hk
    rw [dict.Get_Remove, if_neg hk]

/-- C16 (witness): `Remove a` on the sample dictionary, which holds `a`. -/
theorem Remove_spec_witness :
    (sampleDict.Remove "a").1 = 1 ∧ (sampleDict.Remove "a").2.Get "a" = none :=
  ⟨(Remove_spec sampleDict "a").1 (by decide), (Remove_spec sampleDict "a").2.2.1⟩

/-- C17: `PutIfAbsent` returns 1 and stores the value when the key was absent, and
returns 0 and leaves the dictionary (the value of the key and `Len` included) as it
was when the key was present; `PutIfExists` returns 1 and replaces the value, `Len`
staying the same, when the key was present, and returns 0 and leaves the dictionary
as it was (nothing inserted) when the key was absent. -/
theorem PutIfAbsent_PutIfExists_spec {V : Type} (d : dict.ConcurrentDict V) (key : String)
    (val : V) (htable : 0 < d.table.length) :
    (d.Get key = none →
      (d.PutIfAbsent key val).1 = 1 ∧ (d.PutIfAbsent key val).2.Get key = some val) ∧
    (d.Get key ≠ none →
      (d.PutIfAbsent key val).1 = 0 ∧ (d.PutIfAbsent key val).2.Get key = d.Get key ∧
      (d.PutIfAbsent key val).2.Len = d.Len ∧ (d.PutIfAbsent key val).2 = d) ∧
    (d.Get key ≠ none →
      (d.PutIfExists key val).1 = 1 ∧ (d.PutIfExists key val).2.Get key = some val ∧
      (d.PutIfExists key val).2.Len = d.Len) ∧
    (d.Get key = none →
      (d.PutIfExists key val).1 = 0 ∧ (d.PutIfExists key val).2.Get key = none ∧
      (d.PutIfExists key val).2.Len = d.Len ∧ (d.PutIfExists key val).2 = d) := by
  refine ⟨?_, ?_, ?_, ?_⟩
  · intro h
    rw [dict.PutIfAbsent_absent d key val h]
    exact ⟨rfl, by rw [dict.Get_Put _ _ _ _ htable, if_pos rfl]⟩
  · intro h
    rw [dict.PutIfAbsent_present d key val (Option.isSome_iff_ne_none.2 h)]
    exact ⟨rfl, rfl, rfl, rfl⟩
  · intro h
    have h' := Option.isSome_iff_ne_none.2 h
    rw [dict.PutIfExists_present d key val h']
    exact ⟨rfl, by rw [dict.Get_Put _ _ _ _ htable, if_pos rfl],
      dict.Put_count_present d key val h'⟩
  · intro h
    rw [dict.PutIfExists_absent d key val h]
    exact ⟨rfl, h, rfl, rfl⟩

/-- C17 (witness): on the sample dictionary `a` is present and `z` is absent. -/
theorem PutIfAbsent_PutIfExists_spec_witness :
    (sampleDict.PutIfAbsent "z" "9").1 = 1 ∧
    (sampleDict.PutIfAbsent "a" "9").1 = 0 ∧
    (sampleDict.PutIfExists "a" "9").1 = 1 ∧
    (sampleDict.PutIfExists "z" "9").1 = 0 :=
  ⟨((PutIfAbsent_PutIfExists_spec sampleDict "z" "9" (by decide)).1 (by decide)).1,
   ((PutIfAbsent_PutIfExists_spec sampleDict "a" "9" (by decide)).2.1 (by decide)).1,
   ((PutIfAbsent_PutIfExists_spec sampleDict "a" "9" (by decide)).2.2.1 (by decide)).1,
   ((PutIfAbsent_PutIfExists_spec sampleDict "z" "9" (by decide)).2.2.2 (by decide)).1⟩

/-- C18 (code): on the dictionary holding `b` in shard 13 and `a` in shard 14, with a
consumer that answers false to every entry, `ForEach` invokes the consumer on `b`,
gets false, and still invokes it on `a` in the next shard: the `return` leaves the
closure of one shard only and the loop over the table goes on. -/
theorem ForEach_goes_on_after_false :
    sampleDict.ForEachCalls sampleStop () = [("b", "2", false), ("a", "1", false)] := by
  decide

/-- C19 (counterexample): for the requested count 2^32 + 1 the five or-shift steps
leave bit 0 clear, and `computeCapacity` returns 2^33 - 1, which is not a power of
two. -/
theorem computeCapacity_counterexample :
    dict.computeCapacity 4294967297 = 8589934591 ∧
    ¬ ∃ k : Nat, dict.computeCapacity 4294967297 = 2 ^ k := by
  have h : dict.computeCapacity 4294967297 = 8589934591 := by decide
  refine ⟨h, ?_⟩
  rw [h]
  rintro ⟨k, hk⟩
  have hk' : (8589934591 : Nat) = 2 ^ k := by exact_mod_cast hk
  rcases Nat.eq_zero_or_pos k with rfl | hpos
  · norm_num at hk'
  · have : 2 ∣ 2 ^ k := dvd_pow_self 2 (by omega)
    rw [← hk'] at this
    norm_num at this

/-- C19 (amended): for every requested shard count of at most 2^32, `computeCapacity`
returns a power of two that is greater than or equal to `max(16, n)` and is the
smallest power of two with that property. -/
theorem computeCapacity_spec (param : Int) (hle : param ≤ 4294967296) :
    (∃ k : Nat, dict.computeCapacity param = 2 ^ k) ∧
    max 16 param ≤ dict.computeCapacity param ∧
    ∀ m : Nat, max 16 param ≤ 2 ^ m → dict.computeCapacity param ≤ 2 ^ m := by
  by_cases h16 : param ≤ 16
  · have hc : dict.computeCapacity param = 16 := by simp [dict.computeCapacity, h16]
    rw [hc]
    refine ⟨⟨4, by norm_num⟩, by simp [h16], ?_⟩
    intro m hm
    exact le_trans (le_max_left _ _) hm
  · have hpos : 0 < (param - 1).toNat := by omega
    have hlt : (param - 1).toNat < 4294967296 := by omega
    obtain ⟨k, hk0, hk32, hklo, hkhi, hsm⟩ := smear_eq _ hpos hlt
    have hpow : (2 : Nat) ^ k ≤ 2 ^ 32 := Nat.pow_le_pow_right (by norm_num) hk32
    have h2k : 0 < 2 ^ k := Nat.pos_pow_of_pos _ (by norm_num)
    have hc : dict.computeCapacity param = ((2 ^ k : Nat) : Int) := by
      simp only [dict.computeCapacity, h16, if_false]
      simp only [] at hsm
      rw [hsm]
      have hneg : ¬ (((2 ^ k - 1 : Nat) : Int) < 0) := by omega
      rw [if_neg hneg]
      unfold wrapInt
      omega
    have hparam : param = ((param - 1).toNat : Int) + 1 := by omega
    rw [hc]
    refine ⟨⟨k, by push_cast; rfl⟩, ?_, ?_⟩
    · rw [max_le_iff]
      constructor
      · have : (16 : Int) < param := by omega
        omega
      · omega
    · intro m hm
      have hm' : param ≤ 2 ^ m := le_trans (le_max_right _ _) hm
      have hm2 : (param - 1).toNat < 2 ^ m := by
        have : (((param - 1).toNat : Nat) : Int) < ((2 ^ m : Nat) : Int) := by
          push_cast
          omega
        exact_mod_cast this
      have : 2 ^ (k - 1) < 2 ^ m := lt_of_le_of_lt hklo hm2
      have := (Nat.pow_lt_pow_iff_right (by norm_num : 1 < 2)).1 this
      have hkm : k ≤ m := by omega
      have : (2 : Nat) ^ k ≤ 2 ^ m := Nat.pow_le_pow_right (by norm_num) hkm
      exact_mod_cast this

/-- C19 (witness): the request 1000 gives 1024. -/
theorem computeCapacity_spec_witness :
    (∃ k : Nat, dict.computeCapacity 1000 = 2 ^ k) ∧
    max 16 1000 ≤ dict.computeCapacity 1000 :=
  have h := computeCapacity_spec 1000 (by decide)
  ⟨h.1, h.2.1⟩

/-- C20: for every key, `fnv32` of the dict package and `fnv32` of the lock package
return the same value: starting from 2166136261, for each byte of the key in order,
multiply by 16777619 modulo 2^32, then xor the byte; the hash of the empty key is
2166136261. -/
theorem fnv32_agree (key : String) :
    dict.fnv32 key = lock.fnv32 key ∧
    dict.fnv32 key = fnvFold 2166136261 (strBytes key) ∧
    dict.fnv32 "" = 2166136261 ∧ lock.fnv32 "" = 2166136261 := by
  refine ⟨rfl, ?_, by decide, by decide⟩
  rw [fnvFold_eq_foldl]
  rfl

/-! ## Lemmas on the placement of the keys -/

theorem GoMap.keys_set {V : Type} (m : GoMap V) (k : String) (v : V) :
    (m.set k v).map Prod.fst =
      if k ∈ m.map Prod.fst then m.map Prod.fst else m.map Prod.fst ++ [k] := by
  induction m with
  | nil => simp [GoMap.set]
  | cons kv rest ih =>
    obtain ⟨k0, v0⟩ := kv
    by_cases h : k0 = k
    · subst h; simp [GoMap.set]
    · have h' : ¬ k = k0 := fun e => h e.symm
      simp only [GoMap.set, h, if_false, List.map_cons, ih, List.mem_cons, h', false_or]
      split <;> simp

theorem GoMap.keys_delete {V : Type} (m : GoMap V) (k : String) :
    (m.delete k).map Prod.fst = (m.map Prod.fst).filter (fun x => decide (x ≠ k)) := by
  induction m with
  | nil => simp [GoMap.delete]
  | cons kv rest ih =>
    obtain ⟨k0, v0⟩ := kv
    by_cases h : k0 = k
    · subst h; simp [GoMap.delete, ih]
    · simp [GoMap.delete, h, ih]

theorem GoMap.get_isSome_of_mem {V : Type} (m : GoMap V) (k : String)
    (h : k ∈ m.map Prod.fst) : (m.get k).isSome = true := by
  induction m with
  | nil => simp at h
  | cons kv rest ih =>
    obtain ⟨k0, v0⟩ := kv
    by_cases h0 : k0 = k
    · simp [GoMap.get, h0]
    · have h' : ¬ k = k0 := fun e => h0 e.symm
      simp only [List.map_cons, List.mem_cons, h', false_or] at h
      simp [GoMap.get, h0, ih h]

theorem dict.spread_setShard {V : Type} (d : dict.ConcurrentDict V) (i : Nat) (sh : dict.shard V)
    (h : Nat) : (d.setShard i sh).spread h = d.spread h := by
  simp [dict.ConcurrentDict.spread, dict.ConcurrentDict.setShard]

theorem dict.Placed_of_table {V : Type} (d d' : dict.ConcurrentDict V)
    (h : d'.table = d.table) (hp : dict.Placed d) : dict.Placed d' := by
  intro i sh hi
  rw [h] at hi
  have := hp i sh hi
  simpa [dict.ConcurrentDict.spread, h] using this

theorem dict.getShard_of_getElem? {V : Type} (d : dict.ConcurrentDict V) (i : Nat)
    (sh : dict.shard V) (h : d.table[i]? = some sh) : d.getShard i = sh := by
  simp [dict.ConcurrentDict.getShard, List.getD_eq_getElem?_getD, h]

theorem dict.Placed_setShard {V : Type} (d : dict.ConcurrentDict V) (key : String)
    (m' : GoMap V) (hp : dict.Placed d) (hnd : (m'.map Prod.fst).Nodup)
    (hsub : ∀ k ∈ m'.map Prod.fst,
      k = key ∨ k ∈ (d.getShard (d.spread (dict.fnv32 key))).m.map Prod.fst) :
    dict.Placed (d.setShard (d.spread (dict.fnv32 key)) ⟨m'⟩) := by
  intro j sh hj
  simp only [dict.ConcurrentDict.setShard] at hj
  rw [List.getElem?_set] at hj
  split at hj
  · rename_i hij
    split at hj
    · rename_i hlt
      simp only [Option.some.injEq] at hj
      subst hj
      refine ⟨hnd, ?_⟩
      intro k hk
      rw [dict.spread_setShard]
      rcases hsub k hk with rfl | hk'
      · exact hij
      · obtain ⟨sh0, hsh0⟩ : ∃ sh0, d.table[d.spread (dict.fnv32 key)]? = some sh0 :=
          ⟨_, List.getElem?_eq_getElem hlt⟩
        rw [dict.getShard_of_getElem? d _ sh0 hsh0] at hk'
        have := (hp _ sh0 hsh0).2 k hk'
        rw [this]; exact hij
    · simp at hj
  · have := hp j sh hj
    refine ⟨this.1, ?_⟩
    intro k hk
    rw [dict.spread_setShard]
    exact this.2 k hk

theorem dict.Placed_getShard_nodup {V : Type} (d : dict.ConcurrentDict V) (i : Nat)
    (hp : dict.Placed d) : ((d.getShard i).m.map Prod.fst).Nodup := by
  cases h : d.table[i]? with
  | none => simp [dict.ConcurrentDict.getShard, List.getD_eq_getElem?_getD, h]
  | some sh => rw [dict.getShard_of_getElem? d i sh h]; exact (hp i sh h).1

theorem dict.Placed_Put {V : Type} (d : dict.ConcurrentDict V) (key : String) (val : V)
    (hp : dict.Placed d) : dict.Placed (d.Put key val).2 := by
  have hset : dict.Placed (d.setShard (d.spread (dict.fnv32 key))
      ⟨(d.getShard (d.spread (dict.fnv32 key))).m.set key val⟩) := by
    apply dict.Placed_setShard d key _ hp
    · rw [GoMap.keys_set]
      split
      · exact dict.Placed_getShard_nodup d _ hp
      · rename_i hnot
        exact List.Nodup.append (dict.Placed_getShard_nodup d _ hp) (List.nodup_singleton _)
          (by
            intro a ha hb
            rw [List.mem_singleton] at hb
            subst hb
            exact hnot ha)
    · intro k hk
      rw [GoMap.keys_set] at hk
      split at hk
      · exact Or.inr hk
      · simp only [List.mem_append, List.mem_singleton] at hk
        exact hk.symm
  simp only [dict.ConcurrentDict.Put]
  cases (d.getShard (d.spread (dict.fnv32 key))).m.get key with
  | none => exact dict.Placed_of_table _ _ rfl hset
  | some v => exact hset

theorem dict.Placed_Remove {V : Type} (d : dict.ConcurrentDict V) (key : String)
    (hp : dict.Placed d) : dict.Placed (d.Remove key).2 := by
  have hset : dict.Placed (d.setShard (d.spread (dict.fnv32 key))
      ⟨(d.getShard (d.spread (dict.fnv32 key))).m.delete key⟩) := by
    apply dict.Placed_setShard d key _ hp
    · rw [GoMap.keys_delete]
      exact (dict.Placed_getShard_nodup d _ hp).filter _
    · intro k hk
      rw [GoMap.keys_delete] at hk
      exact Or.inr (List.mem_filter.mp hk).1
  simp only [dict.ConcurrentDict.Remove]
  cases (d.getShard (d.spread (dict.fnv32 key))).m.get key with
  | none => exact hp
  | some v => exact dict.Placed_of_table _ _ rfl hset

theorem dict.Placed_call {V : Type} (d : dict.ConcurrentDict V) (c : dict.Call V)
    (hp : dict.Placed d) : dict.Placed (d.call c) := by
  cases c with
  | Put key val => exact dict.Placed_Put d key val hp
  | PutIfAbsent key val =>
    simp only [dict.ConcurrentDict.call]
    cases hg : d.Get key with
    | none => rw [dict.PutIfAbsent_absent d key val hg]; exact dict.Placed_Put d key val hp
    | some v => rw [dict.PutIfAbsent_present d key val (by simp [hg])]; exact hp
  | PutIfExists key val =>
    simp only [dict.ConcurrentDict.call]
    cases hg : d.Get key with
    | none => rw [dict.PutIfExists_absent d key val hg]; exact hp
    | some v =>
      rw [dict.PutIfExists_present d key val (by simp [hg])]; exact dict.Placed_Put d key val hp
  | Remove key => exact dict.Placed_Remove d key hp

theorem dict.Placed_calls {V : Type} (cs : List (dict.Call V)) (d : dict.ConcurrentDict V)
    (hp : dict.Placed d) : dict.Placed (d.calls cs) := by
  induction cs generalizing d with
  | nil => exact hp
  | cons c cs ih => exact ih _ (dict.Placed_call d c hp)

theorem dict.Placed_MakeConcurrent {V : Type} (param : Int) :
    dict.Placed (dict.MakeConcurrent param : dict.ConcurrentDict V) := by
  intro i sh hi
  have hmem := List.getElem?_mem hi
  simp only [dict.MakeConcurrent] at hmem
  have := List.eq_of_mem_replicate hmem
  subst this
  simp

/-! ## Lemmas on the keys of the dictionary -/

theorem dict.Get_of_mem_shard {V : Type} (d : dict.ConcurrentDict V) (hp : dict.Placed d)
    (i : Nat) (sh : dict.shard V) (hi : d.table[i]? = some sh) (k : String)
    (hk : k ∈ sh.m.map Prod.fst) : (d.Get k).isSome = true := by
  have hs := (hp i sh hi).2 k hk
  simp only [dict.ConcurrentDict.Get, hs, dict.getShard_of_getElem? d i sh hi]
  exact GoMap.get_isSome_of_mem sh.m k hk

theorem dict.Get_of_mem_storedKeys {V : Type} (d : dict.ConcurrentDict V) (hp : dict.Placed d)
    (k : String) (hk : k ∈ d.storedKeys) : (d.Get k).isSome = true := by
  simp only [dict.ConcurrentDict.storedKeys, List.mem_flatten, List.mem_map] at hk
  obtain ⟨l, ⟨sh, hsh, rfl⟩, hkl⟩ := hk
  obtain ⟨i, hi⟩ := List.getElem?_of_mem hsh
  exact dict.Get_of_mem_shard d hp i sh hi k hkl

theorem dict.storedKeys_nodup {V : Type} (d : dict.ConcurrentDict V) (hp : dict.Placed d) :
    d.storedKeys.Nodup := by
  simp only [dict.ConcurrentDict.storedKeys]
  rw [List.nodup_flatten]
  constructor
  · intro l hl
    simp only [List.mem_map] at hl
    obtain ⟨sh, hsh, rfl⟩ := hl
    obtain ⟨i, hi⟩ := List.getElem?_of_mem hsh
    exact (hp i sh hi).1
  · rw [List.pairwise_map, List.pairwise_iff_getElem]
    intro i j hi hj hij a ha hb
    have h1 := (hp i _ (List.getElem?_eq_getElem hi)).2 a ha
    have h2 := (hp j _ (List.getElem?_eq_getElem hj)).2 a hb
    omega

theorem dict.presentKeys_eq_storedKeys {V : Type} (d : dict.ConcurrentDict V)
    (hp : dict.Placed d) : d.presentKeys = d.storedKeys := by
  simp only [dict.ConcurrentDict.presentKeys]
  rw [List.filter_eq_self.mpr (fun k hk => dict.Get_of_mem_storedKeys d hp k hk)]
  exact (dict.storedKeys_nodup d hp).dedup

theorem dict.forEachInShard_keys {V : Type} (m : GoMap V) (s : List String × Int) :
    dict.forEachInShard dict.keysConsumer s m = (m.map Prod.fst).foldl dict.keysStep s := by
  induction m generalizing s with
  | nil => rfl
  | cons kv rest ih =>
    obtain ⟨k, v⟩ := kv
    simp only [dict.forEachInShard, List.map_cons, List.foldl_cons]
    have h1 : (dict.keysConsumer s k v).1 = true := by
      simp only [dict.keysConsumer]; split <;> rfl
    have h2 : (dict.keysConsumer s k v).2 = dict.keysStep s k := by
      simp only [dict.keysConsumer, dict.keysStep]; split <;> rfl
    simp only [h1, h2, Bool.not_true, Bool.false_eq_true, if_false]
    exact ih _

theorem dict.ForEach_keys {V : Type} (d : dict.ConcurrentDict V) (s : List String × Int) :
    d.ForEach dict.keysConsumer s = d.storedKeys.foldl dict.keysStep s := by
  simp only [dict.ConcurrentDict.ForEach, dict.ConcurrentDict.storedKeys]
  rw [List.foldl_flatten, List.foldl_map]
  congr 1
  funext s sh
  exact dict.forEachInShard_keys sh.m s

theorem dict.foldl_keysStep (ks pre : List String) (m : Nat) (h : ks.length ≤ m) :
    ks.foldl dict.keysStep (pre ++ List.replicate m "", (pre.length : Int)) =
      (pre ++ ks ++ List.replicate (m - ks.length) "", ((pre.length + ks.length : Nat) : Int)) := by
  induction ks generalizing pre m with
  | nil => simp
  | cons k ks ih =>
    simp only [List.length_cons] at h
    obtain ⟨m', rfl⟩ : ∃ m', m = m' + 1 := ⟨m - 1, by omega⟩
    have hstep : dict.keysStep (pre ++ List.replicate (m' + 1) "", (pre.length : Int)) k =
        ((pre ++ [k]) ++ List.replicate m' "", ((pre ++ [k]).length : Int)) := by
      have hlt : (pre.length : Int) < ((pre ++ List.replicate (m' + 1) "").length : Int) := by
        simp only [List.length_append, List.length_replicate]; omega
      simp only [dict.keysStep, hlt, if_true, Int.toNat_ofNat, List.length_append,
        List.length_singleton, Nat.cast_add, Nat.cast_one]
      rw [List.set_append_right _ _ (le_refl _)]
      simp [List.replicate_succ]
    rw [List.foldl_cons, hstep, ih (pre ++ [k]) m' (by omega)]
    have e1 : m' + 1 - (ks.length + 1) = m' - ks.length := by omega
    have e2 : (pre ++ [k]).length + ks.length = pre.length + (ks.length + 1) := by
      simp only [List.length_append, List.length_singleton]; omega
    simp only [List.length_cons, e1, e2, List.append_assoc, List.singleton_append]

theorem dict.Keys_eq {V : Type} (d : dict.ConcurrentDict V)
    (hlen : d.Len = (d.storedKeys.length : Int)) : d.Keys = .ret d.storedKeys := by
  have h0 : ¬ d.Len < 0 := by omega
  simp only [dict.ConcurrentDict.Keys, h0, if_false, dict.ForEach_keys, hlen, Int.toNat_ofNat]
  have := dict.foldl_keysStep d.storedKeys [] d.storedKeys.length (le_refl _)
  simp only [List.nil_append, List.length_nil, Nat.cast_zero] at this
  rw [this]
  simp

theorem dict.RandomKey_mem {V : Type} (sh : dict.shard V) (pick : Nat)
    (h : sh.RandomKey pick ≠ "") : sh.RandomKey pick ∈ sh.m.map Prod.fst := by
  simp only [dict.shard.RandomKey, List.getD_eq_getElem?_getD] at h ⊢
  cases hg : (sh.m.map Prod.fst)[pick % sh.m.length]? with
  | none => simp [hg] at h
  | some k => simp only [Option.getD_some]; exact List.getElem?_mem hg

theorem dict.RandomKey_present {V : Type} (d : dict.ConcurrentDict V) (hp : dict.Placed d)
    (index pick : Nat) (h : (d.getShard index).RandomKey pick ≠ "") :
    (d.Get ((d.getShard index).RandomKey pick)).isSome = true := by
  cases hi : d.table[index]? with
  | none =>
    exfalso; apply h
    simp [dict.ConcurrentDict.getShard, List.getD_eq_getElem?_getD, hi, dict.shard.RandomKey]
  | some sh =>
    rw [dict.getShard_of_getElem? d index sh hi] at h ⊢
    exact dict.Get_of_mem_shard d hp index sh hi _ (dict.RandomKey_mem sh pick h)

theorem dict.randomKeysLoop_spec {V : Type} (d : dict.ConcurrentDict V) (hp : dict.Placed d)
    (shardCount : Int) (limit : Nat) (draws : List (Nat × Nat)) (filled out : List String)
    (hlen : filled.length ≤ limit) (hfilled : ∀ k ∈ filled, (d.Get k).isSome = true)
    (hret : dict.randomKeysLoop d shardCount limit
      (filled ++ List.replicate (limit - filled.length) "") filled.length draws
        = some (.ret out)) :
    out.length = limit ∧ ∀ k ∈ out, (d.Get k).isSome = true := by
  induction draws generalizing filled with
  | nil =>
    simp only [dict.randomKeysLoop] at hret
    split at hret
    · split at hret <;> simp at hret
    · rename_i hnot
      have heq : filled.length = limit := by omega
      simp only [Option.some.injEq, Outcome.ret.injEq] at hret
      subst hret
      simp only [heq, Nat.sub_self, List.replicate_zero, List.append_nil]
      exact ⟨trivial, hfilled⟩
  | cons draw rest ih =>
    simp only [dict.randomKeysLoop] at hret
    split at hret
    · rename_i hlt
      have hlt' : filled.length < limit := by omega
      split at hret
      · simp at hret
      · split at hret
        · rename_i hkey
          have hset : (filled ++ List.replicate (limit - filled.length) "").set
              (filled.length : Int).toNat
              ((d.getShard (u32 (draw.1 % shardCount.toNat))).RandomKey draw.2) =
              (filled ++ [(d.getShard (u32 (draw.1 % shardCount.toNat))).RandomKey draw.2]) ++
                List.replicate (limit -
                  (filled ++ [(d.getShard (u32 (draw.1 % shardCount.toNat))).RandomKey
                    draw.2]).length) "" := by
            obtain ⟨m', hm'⟩ : ∃ m', limit - filled.length = m' + 1 :=
              ⟨limit - filled.length - 1, by omega⟩
            have e1 : limit - (filled.length + 1) = m' := by omega
            simp only [Int.toNat_ofNat, hm', List.length_append, List.length_singleton, e1]
            rw [List.set_append_right _ _ (le_refl _)]
            simp [List.replicate_succ]
          have hi : ((filled.length : Int) + 1) =
              (((filled ++ [(d.getShard (u32 (draw.1 % shardCount.toNat))).RandomKey
                draw.2]).length : Nat) : Int) := by
            simp
          rw [hset, hi] at hret
          refine ih _ ?_ ?_ hret
          · simp only [List.length_append, List.length_singleton]; omega
          · intro k hk
            simp only [List.mem_append, List.mem_singleton] at hk
            rcases hk with hk | rfl
            · exact hfilled k hk
            · exact dict.RandomKey_present d hp _ _ hkey
        · exact ih filled hlen hfilled hret
    · rename_i hnot
      have heq : filled.length = limit := by omega
      simp only [Option.some.injEq, Outcome.ret.injEq] at hret
      subst hret
      simp only [heq, Nat.sub_self, List.replicate_zero, List.append_nil]
      exact ⟨trivial, hfilled⟩

theorem dict.randomKeysLoop_returns {V : Type} (d : dict.ConcurrentDict V)
    (index pick : Nat) (hidx : index < d.table.length) (hidx32 : index < 4294967296)
    (hkey : (d.getShard index).RandomKey pick ≠ "") (limit n : Nat) (result : List String)
    (i : Nat) (hn : n = limit - i) :
    ∃ out, dict.randomKeysLoop d d.table.length limit result i
      (List.replicate n (index, pick)) = some (.ret out) := by
  induction n generalizing result i with
  | zero =>
    have h : ¬ ((i : Int) < (limit : Int)) := by omega
    exact ⟨result, by simp [dict.randomKeysLoop, h]⟩
  | succ n ih =>
    have h : (i : Int) < (limit : Int) := by omega
    have hpos : ¬ ((d.table.length : Int) ≤ 0) := by omega
    have hmod : u32 (index % d.table.length) = index := by
      rw [Nat.mod_eq_of_lt hidx]; exact Nat.mod_eq_of_lt hidx32
    obtain ⟨out, hout⟩ := ih (result.set i ((d.getShard index).RandomKey pick)) (i + 1) (by omega)
    refine ⟨out, ?_⟩
    simp only [List.replicate_succ, dict.randomKeysLoop, h, if_true, hpos, if_false,
      Int.toNat_ofNat, hmod, ne_eq, hkey, not_false_eq_true]
    exact_mod_cast hout

theorem dict.exists_nonempty_key (ks : List String) (hn : ks.Nodup) (h2 : 2 ≤ ks.length) :
    ∃ k ∈ ks, k ≠ "" := by
  match ks, hn, h2 with
  | a :: b :: rest, hn, _ =>
    by_cases ha : a = ""
    · refine ⟨b, by simp, ?_⟩
      intro hb
      simp [ha, hb] at hn
    · exact ⟨a, by simp, ha⟩

theorem dict.exists_draw {V : Type} (d : dict.ConcurrentDict V) (hp : dict.Placed d)
    (k : String) (hk : k ∈ d.storedKeys) :
    ∃ index pick, index < d.table.length ∧ index < 4294967296 ∧
      (d.getShard index).RandomKey pick = k := by
  simp only [dict.ConcurrentDict.storedKeys, List.mem_flatten, List.mem_map] at hk
  obtain ⟨l, ⟨sh, hsh, rfl⟩, hkl⟩ := hk
  obtain ⟨i, hi⟩ := List.getElem?_of_mem hsh
  obtain ⟨p, hp1, hp2⟩ := List.getElem_of_mem hkl
  have hilt : i < d.table.length := (List.getElem?_eq_some_iff.mp hi).1
  refine ⟨i, p, hilt, ?_, ?_⟩
  · have hs := (hp i sh hi).2 k hkl
    rw [← hs]
    simp only [dict.ConcurrentDict.spread]
    exact lt_of_le_of_lt Nat.and_le_left (Nat.mod_lt _ (by norm_num))
  · rw [dict.getShard_of_getElem? d i sh hi]
    simp only [List.length_map] at hp1
    simp only [dict.shard.RandomKey, Nat.mod_eq_of_lt hp1, List.getD_eq_getElem?_getD]
    rw [List.getElem?_eq_getElem (by simpa using hp1), hp2]
    rfl

/-! ## Lemmas on the engine -/

theorem dict.Get_eq_none_of_empty {V : Type} (d : dict.ConcurrentDict V) (k : String)
    (h : d.table.length = 0) : d.Get k = none := by
  have h0 : d.table = [] := List.length_eq_zero.mp h
  simp [dict.ConcurrentDict.Get, dict.ConcurrentDict.getShard, h0, GoMap.get]

theorem dict.Get_Put_isSome {V : Type} (d : dict.ConcurrentDict V) (key k : String) (val : V)
    (h : (d.Get k).isSome = true) : ((d.Put key val).2.Get k).isSome = true := by
  have hne : 0 < d.table.length := by
    by_contra hc
    have h0 := dict.Get_eq_none_of_empty d k (by omega)
    rw [h0] at h
    simp at h
  rw [dict.Get_Put d key k val hne]
  split <;> simp [h]

theorem dict.isSome_of_Get_Put {V : Type} (d : dict.ConcurrentDict V) (key k : String) (val : V)
    (h : ((d.Put key val).2.Get k).isSome = true) : k = key ∨ (d.Get k).isSome = true := by
  by_cases hne : 0 < d.table.length
  · rw [dict.Get_Put d key k val hne] at h
    by_cases hk : k = key
    · exact Or.inl hk
    · right; simpa [hk] using h
  · have h0 := dict.Get_eq_none_of_empty (d.Put key val).2 k
      (by rw [dict.Put_table_length]; omega)
    rw [h0] at h
    simp at h

theorem dict.Get_PutIfAbsent_isSome {V : Type} (d : dict.ConcurrentDict V) (key k : String)
    (val : V) (h : (d.Get k).isSome = true) : ((d.PutIfAbsent key val).2.Get k).isSome = true := by
  cases hg : d.Get key with
  | none => rw [dict.PutIfAbsent_absent d key val hg]; exact dict.Get_Put_isSome d key k val h
  | some v => rw [dict.PutIfAbsent_present d key val (by simp [hg])]; exact h

theorem dict.Get_PutIfExists_isSome {V : Type} (d : dict.ConcurrentDict V) (key k : String)
    (val : V) (h : (d.Get k).isSome = true) : ((d.PutIfExists key val).2.Get k).isSome = true := by
  cases hg : d.Get key with
  | none => rw [dict.PutIfExists_absent d key val hg]; exact h
  | some v =>
    rw [dict.PutIfExists_present d key val (by simp [hg])]; exact dict.Get_Put_isSome d key k val h

theorem DB.TtlInData_Remove (db : DB) (key : String) (h : db.TtlInData) :
    (db.Remove key).TtlInData := by
  intro k hk
  simp only [DB.Remove, dict.Get_Remove] at hk ⊢
  by_cases hkk : k = key
  · simp [hkk] at hk
  · simp only [hkk, if_false] at hk ⊢
    exact h k hk

theorem DB.TtlInData_removesLoop (keys : List String) (db : DB) (deleted : Int)
    (h : db.TtlInData) : (DB.removesLoop db deleted keys).2.TtlInData := by
  induction keys generalizing db deleted with
  | nil => exact h
  | cons key keys ih =>
    simp only [DB.removesLoop]
    cases db.data.Get key with
    | none => exact ih db deleted h
    | some v => exact ih _ _ (DB.TtlInData_Remove db key h)

theorem DB.TtlInData_IsExpired (db : DB) (now : Time) (key : String) (h : db.TtlInData) :
    (db.IsExpired now key).2.TtlInData := by
  simp only [DB.IsExpired]
  cases db.ttlMap.Get key with
  | none => exact h
  | some t =>
    by_cases hnow : now > t
    · simp only [hnow, decide_True, if_true]; exact DB.TtlInData_Remove db key h
    · simp only [hnow, decide_False]; exact h

theorem sampleDB_TtlInData : DB.TtlInData sampleDB := by
  intro k hk
  simp [sampleDB, dict.Get_MakeConcurrent] at hk



/-! ## Lemmas on the parser -/

theorem strconv.foldl_digits_nonneg (digits : List Char) (acc : Int) (hacc : 0 ≤ acc)
    (h : digits.all Char.isDigit = true) :
    0 ≤ digits.foldl (fun (n : Int) digit => 10 * n + ((digit.toNat : Int) - 48)) acc := by
  induction digits generalizing acc with
  | nil => simpa using hacc
  | cons c rest ih =>
    simp only [List.all_cons, Bool.and_eq_true] at h
    simp only [List.foldl_cons]
    apply ih _ _ h.2
    have hc : 48 ≤ c.toNat := by
      have := h.1
      simp only [Char.isDigit, Bool.and_eq_true, decide_eq_true_eq] at this
      exact this.1
    omega

theorem strconv.ParseInt_lt (s : String) (bitSize : Nat) :
    (strconv.ParseInt s bitSize).val < 2 ^ (bitSize - 1) := by
  have hpos : (0 : Int) < 2 ^ (bitSize - 1) := by positivity
  cases hs : s.data with
  | nil => simp only [strconv.ParseInt, hs]; exact hpos
  | cons c rest =>
    simp only [strconv.ParseInt, hs]
    generalize (if c = '+' ∨ c = '-' then rest else c :: rest) = digits
    generalize (2 : Int) ^ (bitSize - 1) = cutoff at hpos ⊢
    by_cases hd : (digits.isEmpty || !digits.all Char.isDigit) = true
    · simp only [hd, if_true]; exact hpos
    · simp only [hd, if_false]
      have hall : digits.all Char.isDigit = true := by
        simp only [Bool.or_eq_true, Bool.not_eq_true', not_or, Bool.not_eq_false] at hd
        exact hd.2
      have hun := strconv.foldl_digits_nonneg digits 0 (le_refl _) hall
      generalize digits.foldl (fun (n : Int) digit => 10 * n + ((digit.toNat : Int) - 48)) 0
        = un at hun ⊢
      by_cases hneg : c = '-'
      · simp only [hneg, decide_True, Bool.not_true, Bool.false_and, Bool.false_eq_true,
          if_false, Bool.true_and, decide_eq_true_eq, if_true]
        split
        · simp only; omega
        · simp only; omega
      · simp only [hneg, decide_False, Bool.not_false, Bool.true_and, decide_eq_true_eq,
          Bool.false_and, Bool.false_eq_true, if_false]
        split
        · simp only; omega
        · simp only; omega

theorem parser.ReadBytes_length (input : List Char)
    (h : (parser.ReadBytes input).2.1 = false) :
    (parser.ReadBytes input).2.2.length < input.length := by
  induction input with
  | nil => simp [parser.ReadBytes] at h
  | cons c rest ih =>
    simp only [parser.ReadBytes] at h ⊢
    split
    · simp
    · rename_i hc
      simp only [hc, if_false] at h
      have := ih h
      simp only [List.length_cons]
      omega

theorem parser.index_replicate (n : Nat) (c : Char) (i : Int) (h0 : 0 ≤ i) (h1 : i < n) :
    parser.index (List.replicate n c) i = some c := by
  have hlt : i.toNat < n := by omega
  simp [parser.index, h0, h1, List.getElem?_replicate, hlt]

theorem parser.readLine_spec (input : List Char) (state : parser.readState) (l : parser.Line)
    (hinv : 0 ≤ state.bulkLen ∧ state.bulkLen < 9223372036854775808)
    (h : parser.readLine input state = .ret l) :
    (l.err = none → l.state.bulkLen = 0 ∧ l.rest.length < input.length) ∧
    (l.ioErr = false → l.rest.length < input.length ∨ (input = [] ∧ l.rest = [] ∧ l.err ≠ none)) := by
  simp only [parser.readLine] at h
  split at h
  · rename_i hb
    split at h
    · simp only [Outcome.ret.injEq] at h
      subst h
      simp
    · rename_i hio
      have hlen := parser.ReadBytes_length input (by simpa using hio)
      split at h
      · simp only [Outcome.ret.injEq] at h
        subst h
        simp [hlen]
      · split at h
        · simp at h
        · split at h
          · simp only [Outcome.ret.injEq] at h
            subst h
            simp [hlen]
          · simp only [Outcome.ret.injEq] at h
            subst h
            simp [hlen, hb]
  · rename_i hb
    have hn : wrapInt (state.bulkLen + 2) = state.bulkLen + 2 ∨ wrapInt (state.bulkLen + 2) < 0 := by
      simp only [wrapInt]
      omega
    split at h
    · simp at h
    · rename_i hneg
      have hn' : wrapInt (state.bulkLen + 2) = state.bulkLen + 2 := by
        rcases hn with hn | hn
        · exact hn
        · exact absurd (Or.inl hn) hneg
      have hpos : 3 ≤ (wrapInt (state.bulkLen + 2)).toNat := by omega
      have hrest : (parser.ReadFull input (wrapInt (state.bulkLen + 2)).toNat).2.length
          < input.length ∨ (input = [] ∧
            (parser.ReadFull input (wrapInt (state.bulkLen + 2)).toNat).2 = []) := by
        cases input with
        | nil => right; simp [parser.ReadFull]
        | cons c rest =>
          left
          simp only [parser.ReadFull, List.length_drop, List.length_cons]
          omega
      split at h
      · simp only [Outcome.ret.injEq] at h
        subst h
        refine ⟨by simp, fun _ => ?_⟩
        rcases hrest with hr | ⟨h1, h2⟩
        · exact Or.inl hr
        · exact Or.inr ⟨h1, h2, by simp⟩
      · split at h
        · rename_i b b' hb1 hb2
          split at h
          · simp only [Outcome.ret.injEq] at h
            subst h
            refine ⟨by simp, fun _ => ?_⟩
            rcases hrest with hr | ⟨h1, h2⟩
            · exact Or.inl hr
            · exact Or.inr ⟨h1, h2, by simp⟩
          · rename_i hok
            simp only [Outcome.ret.injEq] at h
            subst h
            have hshort : (parser.ReadFull input (wrapInt (state.bulkLen + 2)).toNat).2.length
                < input.length := by
              rcases hrest with hr | ⟨h1, h2⟩
              · exact hr
              · exfalso
                subst h1
                simp only [parser.ReadFull, List.take_nil, List.length_nil, Nat.sub_zero,
                  List.nil_append, List.length_replicate] at hb1
                rw [parser.index_replicate _ _ _ (by omega) (by omega)] at hb1
                simp only [Option.some.injEq] at hb1
                subst hb1
                apply hok
                left
                decide
            exact ⟨fun _ => ⟨rfl, hshort⟩, fun _ => Or.inl hshort⟩
        · simp at h

theorem parser.parseMultiBulkHeader_bulkLen (msg : List Char) (state s : parser.readState)
    (err : Option String) (h : parser.parseMultiBulkHeader msg state = .ret (err, s)) :
    s.bulkLen = state.bulkLen := by
  simp only [parser.parseMultiBulkHeader] at h
  split at h
  · split at h
    · simp only [Outcome.ret.injEq, Prod.mk.injEq] at h; rw [← h.2]
    · split at h
      · simp only [Outcome.ret.injEq, Prod.mk.injEq] at h; rw [← h.2]
      · split at h
        · simp only [Outcome.ret.injEq, Prod.mk.injEq] at h; rw [← h.2]
        · simp only [Outcome.ret.injEq, Prod.mk.injEq] at h; rw [← h.2]
  · simp at h

theorem parser.parseBulkHeader_bulkLen (msg : List Char) (state s : parser.readState)
    (h : parser.parseBulkHeader msg state = .ret (none, s)) :
    s.bulkLen = -1 ∨ (0 < s.bulkLen ∧ s.bulkLen < 9223372036854775808) := by
  simp only [parser.parseBulkHeader] at h
  split at h
  · rename_i digits b _ _
    have hlt := strconv.ParseInt_lt ⟨digits⟩ 32
    split at h
    · simp at h
    · split at h
      · rename_i h1
        simp only [Outcome.ret.injEq, Prod.mk.injEq, true_and] at h
        rw [← h]; exact Or.inl h1
      · split at h
        · rename_i h2
          simp only [Outcome.ret.injEq, Prod.mk.injEq, true_and] at h
          rw [← h]
          right
          simp only at h2 ⊢
          constructor
          · exact h2
          · norm_num at hlt; omega
        · simp at h
  · simp at h

theorem parser.readBody_bulkLen (msg : List Char) (state s : parser.readState)
    (h0 : state.bulkLen = 0) (h : parser.readBody msg state = .ret (none, s)) :
    0 ≤ s.bulkLen ∧ s.bulkLen < 9223372036854775808 := by
  simp only [parser.readBody] at h
  split at h
  · simp at h
  · split at h
    · simp at h
    · split at h
      · split at h
        · simp at h
        · rename_i digits _
          have hlt := strconv.ParseInt_lt ⟨digits⟩ 64
          split at h
          · simp at h
          · split at h
            · simp only [Outcome.ret.injEq, Prod.mk.injEq, true_and] at h
              rw [← h]; simp
            · rename_i h2
              simp only [Outcome.ret.injEq, Prod.mk.injEq, true_and] at h
              rw [← h]
              simp only at h2 ⊢
              constructor
              · omega
              · norm_num at hlt; omega
      · simp only [Outcome.ret.injEq, Prod.mk.injEq, true_and] at h
        rw [← h]; simp [h0]

theorem parser.zero_bulkLen :
    0 ≤ parser.readState.zero.bulkLen ∧ parser.readState.zero.bulkLen < 9223372036854775808 := by
  decide

theorem parser.round_next (input : List Char) (state : parser.readState)
    (ps : List parser.Payload) (state' : parser.readState) (rest : List Char)
    (hinv : 0 ≤ state.bulkLen ∧ state.bulkLen < 9223372036854775808)
    (h : parser.round input state = .next ps state' rest) :
    (0 ≤ state'.bulkLen ∧ state'.bulkLen < 9223372036854775808) ∧
    (rest.length < input.length ∨ (input = [] ∧ rest = [] ∧ state' = parser.readState.zero)) := by
  simp only [parser.round] at h
  split at h
  · simp at h
  · rename_i l hl
    have hspec := parser.readLine_spec input state l hinv hl
    split at h
    · rename_i err herr
      split at h
      · simp at h
      · rename_i hio
        simp only [parser.Round.next.injEq] at h
        obtain ⟨-, hs, hr⟩ := h
        subst hs; subst hr
        refine ⟨parser.zero_bulkLen, ?_⟩
        rcases hspec.2 (by simpa using hio) with h1 | ⟨h1, h2, -⟩
        · exact Or.inl h1
        · exact Or.inr ⟨h1, h2, rfl⟩
    · rename_i herr
      obtain ⟨hb0, hshort⟩ := hspec.1 herr
      split at h
      · split at h
        · simp at h
        · split at h
          · split at h
            · simp at h
            · simp only [parser.Round.next.injEq] at h
              obtain ⟨-, hs, hr⟩ := h
              subst hs; subst hr
              exact ⟨parser.zero_bulkLen, Or.inl hshort⟩
            · rename_i s hpm
              have hbl := parser.parseMultiBulkHeader_bulkLen _ _ _ _ hpm
              split at h
              · simp only [parser.Round.next.injEq] at h
                obtain ⟨-, hs, hr⟩ := h
                subst hs; subst hr
                exact ⟨parser.zero_bulkLen, Or.inl hshort⟩
              · simp only [parser.Round.next.injEq] at h
                obtain ⟨-, hs, hr⟩ := h
                subst hs; subst hr
                rw [hbl, hb0]
                exact ⟨by decide, Or.inl hshort⟩
          · split at h
            · split at h
              · simp at h
              · simp only [parser.Round.next.injEq] at h
                obtain ⟨-, hs, hr⟩ := h
                subst hs; subst hr
                exact ⟨parser.zero_bulkLen, Or.inl hshort⟩
              · rename_i s hpb
                have hbl := parser.parseBulkHeader_bulkLen _ _ _ hpb
                split at h
                · simp only [parser.Round.next.injEq] at h
                  obtain ⟨-, hs, hr⟩ := h
                  subst hs; subst hr
                  exact ⟨parser.zero_bulkLen, Or.inl hshort⟩
                · rename_i hne
                  simp only [parser.Round.next.injEq] at h
                  obtain ⟨-, hs, hr⟩ := h
                  subst hs; subst hr
                  rcases hbl with hbl | hbl
                  · exact absurd hbl hne
                  · exact ⟨⟨by omega, hbl.2⟩, Or.inl hshort⟩
            · split at h
              · simp at h
              · simp only [parser.Round.next.injEq] at h
                obtain ⟨-, hs, hr⟩ := h
                subst hs; subst hr
                exact ⟨parser.zero_bulkLen, Or.inl hshort⟩
      · split at h
        · simp at h
        · simp only [parser.Round.next.injEq] at h
          obtain ⟨-, hs, hr⟩ := h
          subst hs; subst hr
          exact ⟨parser.zero_bulkLen, Or.inl hshort⟩
        · rename_i s hrb
          have hbl := parser.readBody_bulkLen _ _ _ hb0 hrb
          split at h
          · split at h
            · simp only [parser.Round.next.injEq] at h
              obtain ⟨-, hs, hr⟩ := h
              subst hs; subst hr
              exact ⟨parser.zero_bulkLen, Or.inl hshort⟩
            · split at h
              · split at h
                · simp at h
                · simp only [parser.Round.next.injEq] at h
                  obtain ⟨-, hs, hr⟩ := h
                  subst hs; subst hr
                  exact ⟨parser.zero_bulkLen, Or.inl hshort⟩
              · simp only [parser.Round.next.injEq] at h
                obtain ⟨-, hs, hr⟩ := h
                subst hs; subst hr
                exact ⟨parser.zero_bulkLen, Or.inl hshort⟩
          · simp only [parser.Round.next.injEq] at h
            obtain ⟨-, hs, hr⟩ := h
            subst hs; subst hr
            exact ⟨hbl, Or.inl hshort⟩

theorem parser.parseLoop_ends (fuel : Nat) (input : List Char) (state : parser.readState)
    (sent : List parser.Payload)
    (hinv : 0 ≤ state.bulkLen ∧ state.bulkLen < 9223372036854775808)
    (hfuel : input.length + 2 ≤ fuel ∨
      (state = parser.readState.zero ∧ input = [] ∧ 1 ≤ fuel)) :
    (parser.parseLoop fuel input state sent).ending = .closed ∨
    (parser.parseLoop fuel input state sent).ending = .panicked := by
  induction fuel generalizing input state sent with
  | zero => omega
  | succ fuel ih =>
    simp only [parser.parseLoop]
    cases hr : parser.round input state with
    | panic => exact Or.inr rfl
    | close ps => exact Or.inl rfl
    | next ps state' rest =>
      simp only
      obtain ⟨hinv', hcons⟩ := parser.round_next input state ps state' rest hinv hr
      apply ih rest state' _ hinv'
      rcases hfuel with hf | ⟨hz, hi, -⟩
      · rcases hcons with hc | ⟨h1, h2, h3⟩
        · left; omega
        · right
          subst h1
          simp only [List.length_nil] at hf
          exact ⟨h3, h2, by omega⟩
      · subst hz; subst hi
        have : parser.round [] parser.readState.zero =
            .close [⟨none, some "EOF"⟩] := rfl
        rw [this] at hr
        cases hr

theorem parser.parse0_ends (reader : List Char) :
    (parser.parse0 reader).ending = .closed ∨ (parser.parse0 reader).ending = .panicked :=
  parser.parseLoop_ends _ reader _ [] parser.zero_bulkLen (Or.inl (le_refl _))

theorem parser.digit_facts (m : Nat) (hm : m < 10) :
    (Char.ofNat (48 + m)).isDigit = true ∧ ((Char.ofNat (48 + m)).toNat : Int) - 48 = m ∧
    Char.ofNat (48 + m) ≠ '\n' ∧ Char.ofNat (48 + m) ≠ '+' ∧ Char.ofNat (48 + m) ≠ '-' := by
  interval_cases m <;> decide

theorem parser.decimalAux_spec (fuel n : Nat) (acc : List Char) (hn : n ≤ fuel) :
    ∃ ds, parser.decimalAux (fuel + 1) n acc = ds ++ acc ∧ ds ≠ [] ∧
      ds.all Char.isDigit = true ∧
      ∀ a : Int, ds.foldl (fun (x : Int) digit => 10 * x + ((digit.toNat : Int) - 48)) a
        = a * 10 ^ ds.length + n := by
  induction fuel generalizing n acc with
  | zero =>
    have h0 : n = 0 := by omega
    subst h0
    refine ⟨[Char.ofNat 48], by simp [parser.decimalAux], by simp, by decide, ?_⟩
    intro a
    simp only [List.foldl_cons, List.foldl_nil, List.length_singleton]
    have : ((Char.ofNat 48).toNat : Int) - 48 = 0 := by decide
    rw [this]; push_cast; ring
  | succ fuel ih =>
    obtain ⟨hd, hv, -, -, -⟩ := parser.digit_facts (n % 10) (Nat.mod_lt _ (by norm_num))
    by_cases h10 : n / 10 = 0
    · refine ⟨[Char.ofNat (48 + n % 10)], by simp [parser.decimalAux, h10], by simp,
        by simp [hd], ?_⟩
      intro a
      simp only [List.foldl_cons, List.foldl_nil, List.length_singleton, hv]
      have : n % 10 = n := by omega
      rw [this]; ring
    · obtain ⟨ds, h1, h2, h3, h4⟩ := ih (n / 10) (Char.ofNat (48 + n % 10) :: acc) (by omega)
      refine ⟨ds ++ [Char.ofNat (48 + n % 10)], ?_, by simp, ?_, ?_⟩
      · rw [parser.decimalAux]
        simp only [h10, if_false]
        rw [h1]; simp
      · simp [List.all_append, h3, hd]
      · intro a
        simp only [List.foldl_append, List.foldl_cons, List.foldl_nil, h4, hv,
          List.length_append, List.length_singleton]
        have : (n : Int) = 10 * ((n / 10 : Nat) : Int) + ((n % 10 : Nat) : Int) := by
          omega
        rw [pow_succ]
        linarith

theorem parser.decimal_spec (n : Nat) :
    parser.decimal n ≠ [] ∧ (parser.decimal n).all Char.isDigit = true ∧
    (parser.decimal n).foldl (fun (x : Int) digit => 10 * x + ((digit.toNat : Int) - 48)) 0
      = n := by
  obtain ⟨ds, h1, h2, h3, h4⟩ := parser.decimalAux_spec n n [] (le_refl _)
  simp only [List.append_nil] at h1
  simp only [parser.decimal, h1]
  exact ⟨h2, h3, by rw [h4]; simp⟩

theorem parser.isDigit_ne (c : Char) (h : c.isDigit = true) :
    c ≠ '\n' ∧ c ≠ '+' ∧ c ≠ '-' := by
  simp only [Char.isDigit, Bool.and_eq_true, decide_eq_true_eq] at h
  refine ⟨?_, ?_, ?_⟩ <;> (intro hc; subst hc; revert h; decide)

theorem parser.ParseInt_decimal (n bitSize : Nat) (hn : (n : Int) < 2 ^ (bitSize - 1)) :
    strconv.ParseInt ⟨parser.decimal n⟩ bitSize = ⟨n, false⟩ := by
  obtain ⟨h1, h2, h3⟩ := parser.decimal_spec n
  cases hd : parser.decimal n with
  | nil => exact absurd hd h1
  | cons c rest =>
    rw [hd] at h2 h3
    have hc : c.isDigit = true := by
      simp only [List.all_cons, Bool.and_eq_true] at h2; exact h2.1
    obtain ⟨-, hplus, hminus⟩ := parser.isDigit_ne c hc
    have hdig : ¬ ((c :: rest).isEmpty || !(c :: rest).all Char.isDigit) = true := by
      simp only [List.isEmpty_cons, Bool.false_or, Bool.not_eq_true', h2]
      simp
    have hge : ¬ ((n : Int) ≥ 2 ^ (bitSize - 1)) := by omega
    simp only [strconv.ParseInt, hplus, hminus, or_self, if_false, hdig, h3, decide_False,
      Bool.not_false, Bool.true_and, decide_eq_true_eq, hge, Bool.false_and,
      Bool.false_eq_true]

theorem parser.ReadBytes_line (ds rest : List Char) (h : ∀ c ∈ ds, c ≠ '\n') :
    parser.ReadBytes (ds ++ '\n' :: rest) = (ds ++ ['\n'], false, rest) := by
  induction ds with
  | nil => simp [parser.ReadBytes]
  | cons c ds ih =>
    have hc : c ≠ '\n' := h c (by simp)
    have hrec : parser.ReadBytes (ds.append ('\n' :: rest)) = (ds ++ ['\n'], false, rest) :=
      ih (fun x hx => h x (by simp [hx]))
    simp only [List.cons_append, parser.ReadBytes, hc, if_false, hrec]

theorem parser.index_append_right (msg tail : List Char) (i : Nat) :
    parser.index (msg ++ tail) ((msg.length + i : Nat) : Int) = tail[i]? := by
  simp only [parser.index, List.length_append, Int.toNat_ofNat]
  by_cases hi : i < tail.length
  · have h1 : (0 : Int) ≤ ((msg.length + i : Nat) : Int) ∧
        ((msg.length + i : Nat) : Int) < ((msg.length + tail.length : Nat) : Int) := by
      constructor <;> omega
    simp only [h1, and_self, if_true, List.get?_eq_getElem?]
    rw [List.getElem?_append_right (by omega)]
    simp
  · have h1 : ¬ ((0 : Int) ≤ ((msg.length + i : Nat) : Int) ∧
        ((msg.length + i : Nat) : Int) < ((msg.length + tail.length : Nat) : Int)) := by
      omega
    simp only [h1, if_false]
    rw [List.getElem?_eq_none (by omega)]

theorem parser.index_crlf (body : List Char) :
    parser.index (body ++ ['\r', '\n']) (((body ++ ['\r', '\n']).length : Int) - 2) = some '\r' ∧
    parser.index (body ++ ['\r', '\n']) (((body ++ ['\r', '\n']).length : Int) - 1) = some '\n' := by
  have e1 : (((body ++ ['\r', '\n']).length : Int) - 2) = ((body.length + 0 : Nat) : Int) := by
    simp
  have e2 : (((body ++ ['\r', '\n']).length : Int) - 1) = ((body.length + 1 : Nat) : Int) := by
    simp only [List.length_append, List.length_cons, List.length_nil]; omega
  rw [e1, e2, parser.index_append_right, parser.index_append_right]
  simp

theorem parser.slice_body (body : List Char) :
    parser.slice (body ++ ['\r', '\n']) 0 (((body ++ ['\r', '\n']).length : Int) - 2)
      = some body := by
  have e1 : (((body ++ ['\r', '\n']).length : Int) - 2) = (body.length : Int) := by simp
  rw [e1]
  have h : (0 : Int) ≤ 0 ∧ (0 : Int) ≤ (body.length : Int) ∧
      (body.length : Int) ≤ ((body ++ ['\r', '\n']).length : Int) := by
    simp
  simp only [parser.slice, h, and_self, if_true, Int.toNat_ofNat, Int.toNat_zero, List.drop_zero]
  simp

theorem parser.slice_tail (c : Char) (ds : List Char) (n : Int) (hn : n = ds.length + 1) :
    parser.slice (c :: ds) 1 n = some ds := by
  subst hn
  have h : (0 : Int) ≤ 1 ∧ (1 : Int) ≤ (ds.length : Int) + 1 ∧
      (ds.length : Int) + 1 ≤ ((c :: ds).length : Int) := by
    simp
  simp only [parser.slice, h, and_self, if_true]
  have : ((ds.length : Int) + 1).toNat = ds.length + 1 := by omega
  simp [this]

theorem parser.slice_header (c : Char) (ds : List Char) :
    parser.slice (c :: ds ++ ['\r', '\n']) 1 (((c :: ds ++ ['\r', '\n']).length : Int) - 2)
      = some ds := by
  have hl : (c :: ds ++ ['\r', '\n']).length = ds.length + 3 := by simp
  have e1 : (((c :: ds ++ ['\r', '\n']).length : Int) - 2) = (ds.length : Int) + 1 := by
    rw [hl]; push_cast; omega
  rw [e1]
  have h : (0 : Int) ≤ 1 ∧ (1 : Int) ≤ (ds.length : Int) + 1 ∧
      (ds.length : Int) + 1 ≤ ((c :: ds ++ ['\r', '\n']).length : Int) := by
    rw [hl]; push_cast; exact ⟨trivial, by omega, by omega⟩
  simp only [parser.slice, h, and_self, if_true]
  have : ((ds.length : Int) + 1).toNat = ds.length + 1 := by omega
  simp [this]

theorem parser.index_zero (c : Char) (l : List Char) : parser.index (c :: l) 0 = some c := by
  simp [parser.index]

theorem parser.readLine_header (c : Char) (ds rest : List Char) (state : parser.readState)
    (hb : state.bulkLen = 0) (hc : c ≠ '\n') (hds : ∀ x ∈ ds, x ≠ '\n') :
    parser.readLine (c :: ds ++ ['\r', '\n'] ++ rest) state =
      .ret ⟨c :: ds ++ ['\r', '\n'], false, none, rest, state⟩ := by
  have hin : c :: ds ++ ['\r', '\n'] ++ rest = (c :: ds ++ ['\r']) ++ '\n' :: rest := by simp
  have hrb := parser.ReadBytes_line (c :: ds ++ ['\r']) rest (by
    intro x hx
    rw [List.mem_append] at hx
    rcases hx with hx | hx
    · rw [List.mem_cons] at hx
      rcases hx with rfl | hx
      · exact hc
      · exact hds x hx
    · rw [List.mem_singleton] at hx
      subst hx
      decide)
  have hmsg : (c :: ds ++ ['\r']) ++ ['\n'] = (c :: ds) ++ ['\r', '\n'] := by simp
  rw [hmsg] at hrb
  have hidx := (parser.index_crlf (c :: ds)).1
  have hlen : ¬ ((c :: ds) ++ ['\r', '\n']).length = 0 := by simp
  simp only [parser.readLine, hb, if_true, hin, hrb, Bool.false_eq_true, if_false, hlen, hidx,
    ne_eq, not_true_eq_false]

theorem parser.readLine_payload (body rest : List Char) (state : parser.readState)
    (hb : state.bulkLen = body.length) (hpos : 0 < body.length)
    (hsmall : (body.length : Int) + 2 ≤ runtime.maxAlloc) :
    parser.readLine (body ++ ['\r', '\n'] ++ rest) state =
      .ret ⟨body ++ ['\r', '\n'], false, none, rest, { state with bulkLen := 0 }⟩ := by
  have hmax : (body.length : Int) + 2 ≤ 281474976710656 := hsmall
  have hb0 : ¬ state.bulkLen = 0 := by omega
  have hw : wrapInt (state.bulkLen + 2) = ((body.length + 2 : Nat) : Int) := by
    simp only [wrapInt, hb]; push_cast; omega
  have hneg : ¬ (((body.length + 2 : Nat) : Int) < 0 ∨
      ((body.length + 2 : Nat) : Int) > runtime.maxAlloc) := by
    simp only [runtime.maxAlloc]; omega
  have hrf : parser.ReadFull (body ++ ['\r', '\n'] ++ rest) (body.length + 2) =
      (body ++ ['\r', '\n'], rest) := by
    have hl : (body ++ ['\r', '\n']).length = body.length + 2 := by simp
    simp only [parser.ReadFull]
    rw [← hl, List.take_left, List.drop_left]
    simp
  have hidx := parser.index_crlf body
  have hlen : ¬ (body ++ ['\r', '\n']).length = 0 := by simp
  simp only [parser.readLine, hb0, if_false, hw, hneg, Int.toNat_ofNat, hrf, hlen, hidx.1,
    hidx.2, ne_eq, not_true_eq_false, or_self]

theorem parser.round_multiBulkHeader (n : Nat) (hn0 : 0 < n) (hn : n < 2147483648)
    (rest : List Char) :
    parser.round ('*' :: parser.decimal n ++ ['\r', '\n'] ++ rest) parser.readState.zero =
      .next [] ⟨true, n, '*', [], 0⟩ rest := by
  obtain ⟨-, hall, -⟩ := parser.decimal_spec n
  have hds : ∀ x ∈ parser.decimal n, x ≠ '\n' := fun x hx =>
    (parser.isDigit_ne x (List.all_eq_true.mp hall x hx)).1
  have hrl := parser.readLine_header '*' (parser.decimal n) rest parser.readState.zero rfl
    (by decide) hds
  have hpi := parser.ParseInt_decimal n 32 (by norm_num; omega)
  have hsl := parser.slice_header '*' (parser.decimal n)
  have hix : parser.index ('*' :: parser.decimal n ++ ['\r', '\n']) 0 = some '*' :=
    parser.index_zero _ _
  have hn1 : ¬ ((n : Int) = 0) := by omega
  have hn2 : (n : Int) > 0 := by omega
  generalize '*' :: parser.decimal n ++ ['\r', '\n'] = msg at hrl hsl hix ⊢
  simp only [parser.round, hrl, parser.parseMultiBulkHeader, hsl, hpi, hix]
  simp [parser.readState.zero, hn1, hn2]

theorem parser.round_bulkHeader (len : Nat) (hlen0 : 0 < len)
    (hlen : (len : Int) < 9223372036854775808) (expected : Int) (done : List String)
    (hnot : (done.length : Int) ≠ expected) (rest : List Char) :
    parser.round ('$' :: parser.decimal len ++ ['\r', '\n'] ++ rest)
        ⟨true, expected, '*', done, 0⟩ =
      .next [] ⟨true, expected, '*', done, len⟩ rest := by
  obtain ⟨-, hall, -⟩ := parser.decimal_spec len
  have hds : ∀ x ∈ parser.decimal len, x ≠ '\n' := fun x hx =>
    (parser.isDigit_ne x (List.all_eq_true.mp hall x hx)).1
  have hrl := parser.readLine_header '$' (parser.decimal len) rest
    ⟨true, expected, '*', done, 0⟩ rfl (by decide) hds
  have hpi := parser.ParseInt_decimal len 64 (by norm_num; omega)
  have hsl := parser.slice_body ('$' :: parser.decimal len)
  have hst := parser.slice_tail '$' (parser.decimal len)
    ((('$' :: parser.decimal len).length : Nat) : Int) (by simp)
  have hix : parser.index ('$' :: parser.decimal len) 0 = some '$' := parser.index_zero _ _
  have hl1 : ¬ ((len : Int) ≤ 0) := by omega
  generalize '$' :: parser.decimal len ++ ['\r', '\n'] = msg at hrl hsl ⊢
  simp only [parser.round, hrl, parser.readBody, hsl, hix, hst, hpi]
  simp [hl1, parser.readState.finished, hnot]

theorem parser.round_payload (arg : String) (expected : Int) (done : List String)
    (hpos : 0 < arg.data.length) (hdollar : arg.data.head? ≠ some '$')
    (hsmall : (arg.data.length : Int) + 2 ≤ runtime.maxAlloc)
    (hexp : 0 < expected) (rest : List Char) :
    parser.round (arg.data ++ ['\r', '\n'] ++ rest)
        ⟨true, expected, '*', done, arg.data.length⟩ =
      if ((done ++ [arg]).length : Int) = expected then
        .next [⟨some (.MultiBulkReply (done ++ [arg])), none⟩] parser.readState.zero rest
      else .next [] ⟨true, expected, '*', done ++ [arg], 0⟩ rest := by
  have hrl := parser.readLine_payload arg.data rest
    ⟨true, expected, '*', done, arg.data.length⟩ rfl hpos hsmall
  have hsl := parser.slice_body arg.data
  obtain ⟨c, tail, hct⟩ : ∃ c tail, arg.data = c :: tail := by
    cases h : arg.data with
    | nil => simp [h] at hpos
    | cons c tail => exact ⟨c, tail, rfl⟩
  have hc : c ≠ '$' := by
    intro h
    apply hdollar
    simp [hct, h]
  have hix : parser.index arg.data 0 = some c := by rw [hct]; exact parser.index_zero c tail
  generalize arg.data ++ ['\r', '\n'] = msg at hrl hsl ⊢
  simp only [parser.round, hrl, parser.readBody, hsl, hix]
  simp only [hc, if_false, Bool.not_true, Bool.false_eq_true, parser.readState.finished,
    List.length_append, List.length_singleton]
  by_cases hfin : (done.length : Int) + 1 = expected
  · simp [hfin, hexp]
  · simp [hfin]

theorem parser.parseLoop_succ (fuel : Nat) (input : List Char) (state : parser.readState)
    (sent : List parser.Payload) :
    parser.parseLoop (fuel + 1) input state sent =
      match parser.round input state with
      | .panic => ⟨sent, .panicked⟩
      | .close ps => ⟨sent ++ ps, .closed⟩
      | .next ps state rest => parser.parseLoop fuel rest state (sent ++ ps) := rfl

theorem parser.parseLoop_args (remaining : List String) (done : List String) (expected : Nat)
    (hgood : ∀ a ∈ remaining, a.data ≠ [] ∧ a.data.head? ≠ some '$' ∧
      (a.data.length : Int) + 2 ≤ runtime.maxAlloc)
    (hcount : done.length + remaining.length = expected) (hne : remaining ≠ [])
    (fuel : Nat) (rest : List Char) (sent : List parser.Payload) :
    parser.parseLoop (fuel + 2 * remaining.length)
        ((remaining.map parser.bulkWire).flatten ++ rest) ⟨true, expected, '*', done, 0⟩ sent =
      parser.parseLoop fuel rest parser.readState.zero
        (sent ++ [⟨some (.MultiBulkReply (done ++ remaining)), none⟩]) := by
  induction remaining generalizing done with
  | nil => exact absurd rfl hne
  | cons a rem ih =>
    obtain ⟨ha1, ha2, ha3⟩ := hgood a (by simp)
    have hmax : (a.data.length : Int) + 2 ≤ 281474976710656 := ha3
    have hpos : 0 < a.data.length := List.length_pos.mpr ha1
    have hwire : ((a :: rem).map parser.bulkWire).flatten ++ rest =
        '$' :: parser.decimal a.data.length ++ ['\r', '\n'] ++
          (a.data ++ ['\r', '\n'] ++ ((rem.map parser.bulkWire).flatten ++ rest)) := by
      simp [parser.bulkWire, List.append_assoc]
    have hfuel : fuel + 2 * (a :: rem).length = (fuel + 2 * rem.length) + 1 + 1 := by
      simp only [List.length_cons]; omega
    simp only [List.length_cons] at hcount
    have hnot : (done.length : Int) ≠ (expected : Int) := by omega
    rw [hwire, hfuel, parser.parseLoop_succ,
      parser.round_bulkHeader a.data.length hpos (by omega) expected done hnot]
    simp only [List.append_nil]
    rw [parser.parseLoop_succ,
      parser.round_payload a expected done hpos ha2 ha3 (by omega)]
    by_cases hrem : rem = []
    · subst hrem
      have hfin : (done.length : Int) + 1 = (expected : Int) := by
        simp only [List.length_nil] at hcount
        omega
      simp [hfin]
    · have hnf : ¬ ((done ++ [a]).length : Int) = (expected : Int) := by
        have : 0 < rem.length := List.length_pos.mpr hrem
        simp only [List.length_append, List.length_singleton]
        omega
      simp only [hnf, if_false, List.append_nil]
      rw [ih (done ++ [a]) (fun x hx => hgood x (by simp [hx]))
        (by simp only [List.length_append, List.length_singleton]; omega) hrem]
      simp

theorem parser.bulkWire_length (args : List String) :
    2 * args.length ≤ ((args.map parser.bulkWire).flatten).length := by
  induction args with
  | nil => simp
  | cons a rest ih =>
    simp only [List.map_cons, List.flatten_cons, List.length_append, List.length_cons,
      parser.bulkWire]
    omega

theorem parser.multiBulk_roundtrip (args : List String) (hne : args ≠ [])
    (hn : args.length < 2147483648)
    (hgood : ∀ a ∈ args, a.data ≠ [] ∧ a.data.head? ≠ some '$' ∧
      (a.data.length : Int) + 2 ≤ runtime.maxAlloc) :
    (parser.parse0 (parser.multiBulkWire args)).payloads =
      [⟨some (.MultiBulkReply args), none⟩, ⟨none, some "EOF"⟩] ∧
    (parser.parse0 (parser.multiBulkWire args)).ending = .closed := by
  have hpos : 0 < args.length := List.length_pos.mpr hne
  have hlen := parser.bulkWire_length args
  have hwl : (parser.multiBulkWire args).length =
      1 + (parser.decimal args.length).length + 2 +
        ((args.map parser.bulkWire).flatten).length := by
    simp only [parser.multiBulkWire, List.length_cons, List.length_append, List.length_nil]
    omega
  obtain ⟨f, hf⟩ : ∃ f, (parser.multiBulkWire args).length + 2 =
      ((f + 1) + 2 * args.length) + 1 := ⟨(parser.multiBulkWire args).length - 2 * args.length,
    by omega⟩
  have hwire : parser.multiBulkWire args =
      '*' :: parser.decimal args.length ++ ['\r', '\n'] ++
        ((args.map parser.bulkWire).flatten ++ []) := by
    simp [parser.multiBulkWire]
  have hrun : parser.parse0 (parser.multiBulkWire args) =
      ⟨[⟨some (.MultiBulkReply args), none⟩, ⟨none, some "EOF"⟩], .closed⟩ := by
    simp only [parser.parse0]
    rw [hf, hwire, parser.parseLoop_succ, parser.round_multiBulkHeader args.length hpos hn]
    simp only [List.append_nil]
    have := parser.parseLoop_args args [] args.length hgood (by simp) hne (f + 1) [] []
    simp only [List.append_nil, List.nil_append] at this
    rw [this, parser.parseLoop_succ]
    rfl
  rw [hrun]
  exact ⟨rfl, rfl⟩

theorem parser.round_unterminated (ds : List Char) (last : Char) (rest : List Char)
    (state : parser.readState) (hb : state.bulkLen = 0)
    (hds : ∀ c ∈ ds, c ≠ '\n') (hlast : last ≠ '\n' ∧ last ≠ '\r') :
    parser.round (ds ++ [last] ++ '\n' :: rest) state =
      .next [⟨none, some ("protocol error: " ++ ⟨ds ++ [last] ++ ['\n']⟩)⟩]
        parser.readState.zero rest := by
  have hrb := parser.ReadBytes_line (ds ++ [last]) rest (by
    intro x hx
    rw [List.mem_append] at hx
    rcases hx with hx | hx
    · exact hds x hx
    · rw [List.mem_singleton] at hx; subst hx; exact hlast.1)
  have hidx : parser.index (ds ++ [last] ++ ['\n'])
      (((ds ++ [last] ++ ['\n']).length : Int) - 2) = some last := by
    have e : (((ds ++ [last] ++ ['\n']).length : Int) - 2) = ((ds.length + 0 : Nat) : Int) := by
      simp
    have e2 : ds ++ [last] ++ ['\n'] = ds ++ [last, '\n'] := by simp
    rw [e, e2]
    simp only [parser.index, List.length_append, List.length_cons, List.length_nil,
      Int.toNat_ofNat, Nat.add_zero, List.get?_eq_getElem?]
    have h1 : (0 : Int) ≤ (ds.length : Int) ∧ (ds.length : Int) < ((ds.length + (0 + 1 + 1) : Nat) : Int) := by
      constructor <;> omega
    simp only [h1, and_self, if_true]
    rw [List.getElem?_append_right (le_refl _)]
    simp
  have hlen : ¬ (ds ++ [last] ++ ['\n']).length = 0 := by simp
  simp only [parser.round, parser.readLine, hb, if_true, hrb, Bool.false_eq_true, if_false, hlen,
    hidx, ne_eq, hlast.2, not_false_eq_true]

/-! ## Keys and random keys (C21) -/

/-- C21 (code, the failing input): the sample dictionary holds the two keys `a` and
`b`; with the limit 5 the guard `limit >= size` hands the call over to `Keys`, and the
result has two elements, not five.  With the limit 1 and the draws 0 (an empty shard,
tried again) and 13 (the shard of `b`) the result is the one key `b`. -/
theorem RandomKeys_all_keys_counterexample :
    (sampleDict.Get "a").isSome = true ∧ (0 : Int) ≤ 5 ∧
    sampleDict.RandomKeys 5 [] = some (.ret ["b", "a"]) ∧
    (["b", "a"] : List String).length ≠ 5 ∧
    sampleDict.RandomKeys 1 [(0, 0), (13, 0)] = some (.ret ["b"]) := by
  refine ⟨by decide, by decide, rfl, by decide, rfl⟩

/-- C21 (code): for a dictionary built by `MakeConcurrent` and any sequence of `Put`,
`PutIfAbsent`, `PutIfExists` and `Remove`, holding fewer than 2^31 keys, and every limit
`>= 0`: `Len` is the number of present keys; some sequence of random draws makes
`RandomKeys(limit)` return; and whenever it returns, every element of the result is a
key present in the dictionary, the result has exactly `limit` elements when
`limit < Len`, and when `limit >= Len` it is the list of all present keys, each once
(`Len` elements). -/
theorem RandomKeys_spec {V : Type} (param : Int) (cs : List (dict.Call V))
    (d : dict.ConcurrentDict V)
    (hd : d = (dict.MakeConcurrent param).calls cs)
    (hmk : 0 < (dict.MakeConcurrent param : dict.ConcurrentDict V).table.length)
    (hsmall : d.presentKeys.length < 2147483648)
    (limit : Int) (hlimit : 0 ≤ limit) :
    d.Len = d.presentKeys.length ∧
    (∃ draws result, d.RandomKeys limit draws = some (.ret result)) ∧
    ∀ draws result, d.RandomKeys limit draws = some (.ret result) →
      (∀ k ∈ result, (d.Get k).isSome = true) ∧
      (limit < d.Len → result.length = limit) ∧
      (d.Len ≤ limit → result.length = d.Len ∧ result.Nodup ∧
        ∀ k, (d.Get k).isSome = true → k ∈ result) := by
  have hp : dict.Placed d := by
    rw [hd]; exact dict.Placed_calls cs _ (dict.Placed_MakeConcurrent param)
  have hc : dict.CountOk d := by
    rw [hd]; exact dict.CountOk_calls cs _ (dict.CountOk_MakeConcurrent param hmk)
  have hlen : d.Len = (d.presentKeys.length : Int) := by
    simp only [dict.ConcurrentDict.Len]
    rw [hc.2, wrapInt32_of_lt _ hsmall]
  have hst : d.presentKeys = d.storedKeys := dict.presentKeys_eq_storedKeys d hp
  have hlen' : d.Len = (d.storedKeys.length : Int) := by rw [hlen, hst]
  have hkeys : d.Keys = .ret d.storedKeys := dict.Keys_eq d hlen'
  obtain ⟨n, rfl⟩ : ∃ n : Nat, limit = n := ⟨limit.toNat, (Int.toNat_of_nonneg hlimit).symm⟩
  have hneg : ¬ ((n : Int) < 0) := by omega
  refine ⟨hlen, ?_, ?_⟩
  · by_cases hge : (n : Int) ≥ d.Len
    · exact ⟨[], d.storedKeys, by simp [dict.ConcurrentDict.RandomKeys, hge, hkeys]⟩
    · simp only [dict.ConcurrentDict.RandomKeys, hge, if_false, hneg, Int.toNat_ofNat]
      by_cases hn0 : n = 0
      · subst hn0
        exact ⟨[], [], by simp [dict.randomKeysLoop]⟩
      · have h2 : 2 ≤ d.storedKeys.length := by omega
        obtain ⟨k, hk, hkne⟩ := dict.exists_nonempty_key d.storedKeys
          (dict.storedKeys_nodup d hp) h2
        obtain ⟨index, pick, h1, h32, hrk⟩ := dict.exists_draw d hp k hk
        obtain ⟨out, hout⟩ := dict.randomKeysLoop_returns d index pick h1 h32
          (by rw [hrk]; exact hkne) n n (List.replicate n "") 0 (by omega)
        exact ⟨List.replicate n (index, pick), out, by exact_mod_cast hout⟩
  · intro draws result hret
    by_cases hge : (n : Int) ≥ d.Len
    · simp only [dict.ConcurrentDict.RandomKeys, hge, if_true, hkeys, Option.some.injEq,
        Outcome.ret.injEq] at hret
      subst hret
      refine ⟨fun k hk => dict.Get_of_mem_storedKeys d hp k hk, fun h => by omega, fun _ => ?_⟩
      exact ⟨hlen'.symm, dict.storedKeys_nodup d hp, fun k hk => dict.mem_storedKeys_of_Get d k hk⟩
    · simp only [dict.ConcurrentDict.RandomKeys, hge, if_false, hneg, Int.toNat_ofNat] at hret
      have hspec := dict.randomKeysLoop_spec d hp d.table.length n draws [] result
        (by simp) (by simp) (by simpa using hret)
      exact ⟨hspec.2, fun _ => by rw [hspec.1], fun h => by omega⟩

/-- C21 (witness): the sample dictionary (keys `a` and `b`) and the limit 1. -/
theorem RandomKeys_spec_witness :
    sampleDict.Len = sampleDict.presentKeys.length ∧
    (∃ draws result, sampleDict.RandomKeys 1 draws = some (.ret result)) ∧
    ∀ draws result, sampleDict.RandomKeys 1 draws = some (.ret result) →
      (∀ k ∈ result, (sampleDict.Get k).isSome = true) ∧
      (1 < sampleDict.Len → result.length = (1 : Int)) ∧
      (sampleDict.Len ≤ 1 → result.length = sampleDict.Len ∧ result.Nodup ∧
        ∀ k, (sampleDict.Get k).isSome = true → k ∈ result) :=
  RandomKeys_spec 16 [.Put "a" "1", .Put "b" "2"] sampleDict (by rfl) (by decide) (by decide)
    1 (by decide)

/-! ## The parser (C22 to C25) -/

/-- C22 (code): the wire form of the one-element list `["$"]` is
`*1\r\n$1\r\n$\r\n`; the parser reads the payload line `$\r\n` as a length header and
sends a protocol error as its first payload, then the error of the end of the stream.
The wire form of `["", "a"]` makes the parser panic on the line `\r\n` that follows the
header `$0`, before any payload is sent.  The list `["GET", "a"]` comes back as it was
sent, as does every list whose elements are not empty and do not start with `$`
(lemma `parser.multiBulk_roundtrip`). -/
theorem multiBulk_roundtrip_fails :
    parser.multiBulkWire ["$"] = "*1\r\n$1\r\n$\r\n".data ∧
    (parser.parse0 (parser.multiBulkWire ["$"])).payloads =
      [⟨none, some "protocol error: $\r\n"⟩, ⟨none, some "EOF"⟩] ∧
    parser.multiBulkWire ["", "a"] = "*2\r\n$0\r\n\r\n$1\r\na\r\n".data ∧
    (parser.parse0 (parser.multiBulkWire ["", "a"])).payloads = [] ∧
    (parser.parse0 (parser.multiBulkWire ["", "a"])).ending = .panicked ∧
    (parser.parse0 (parser.multiBulkWire ["GET", "a"])).payloads =
      [⟨some (.MultiBulkReply ["GET", "a"]), none⟩, ⟨none, some "EOF"⟩] :=
  ⟨by decide, rfl, by decide, rfl, rfl, rfl⟩

/-- C23 (counterexample): on the stream `*-1\r\n` the parser sends a protocol error and
then the error of the end of the stream; no payload carries a reply. -/
theorem null_multibulk_counterexample :
    (parser.parse0 "*-1\r\n".data).payloads =
      [⟨none, some "protocol error: *-1\r\n"⟩, ⟨none, some "EOF"⟩] ∧
    ∀ p ∈ (parser.parse0 "*-1\r\n".data).payloads, p.Data = none ∧ p.Err ≠ none := by
  refine ⟨rfl, ?_⟩
  intro p hp
  have h : (parser.parse0 "*-1\r\n".data).payloads =
      [⟨none, some "protocol error: *-1\r\n"⟩, ⟨none, some "EOF"⟩] := rfl
  rw [h] at hp
  simp only [List.mem_cons, List.mem_singleton, List.not_mem_nil, or_false] at hp
  rcases hp with rfl | rfl <;> exact ⟨rfl, by simp⟩

/-- C23 (amended): read as the start of a frame, with any bytes after it, the header
line `*-1\r\n` yields one payload with the error `protocol error: *-1\r\n` and no reply,
the header line `*0\r\n` yields the empty multi-bulk reply and the header line
`$-1\r\n` yields the null bulk reply, both without an error; in each case the state is
back at its zero value and the bytes after the line are left in the reader. -/
theorem null_headers (rest : List Char) :
    parser.round ("*-1\r\n".data ++ rest) parser.readState.zero =
      .next [⟨none, some "protocol error: *-1\r\n"⟩] parser.readState.zero rest ∧
    parser.round ("*0\r\n".data ++ rest) parser.readState.zero =
      .next [⟨some .EmptyMultiBulkReply, none⟩] parser.readState.zero rest ∧
    parser.round ("$-1\r\n".data ++ rest) parser.readState.zero =
      .next [⟨some .NullBulkReply, none⟩] parser.readState.zero rest :=
  ⟨rfl, rfl, rfl⟩

/-- C24 (code): on the bytes `*2\r\n$3\r\nGET\r\nXXX\r\n*1\r\n$4\r\nPING\r\n` the parser
sends no protocol error: `readBody` appends the line `XXX`, found where a `$len` header
is expected, to the arguments, so the payloads are the multi-bulk frames `[GET, XXX]`
and `[PING]`, followed by the error of the end of the stream. -/
theorem malformed_header_accepted :
    (parser.parse0 "*2\r\n$3\r\nGET\r\nXXX\r\n*1\r\n$4\r\nPING\r\n".data).payloads =
      [⟨some (.MultiBulkReply ["GET", "XXX"]), none⟩, ⟨some (.MultiBulkReply ["PING"]), none⟩,
        ⟨none, some "EOF"⟩] ∧
    (parser.parse0 "*2\r\n$3\r\nGET\r\nXXX\r\n*1\r\n$4\r\nPING\r\n".data).ending = .closed :=
  ⟨rfl, rfl⟩

/-- C25 (code): while a line is expected (`bulkLen = 0`), a stream that goes on with the
one-byte line `\n` makes the pass panic: `msg[len(msg)-2]` is `msg[-1]`.  While a
multi-bulk body is expected, the empty line `\r\n` makes the pass panic: `line[0]` of an
empty slice.  On the streams `\n` and `*1\r\n\r\n` the parser therefore ends by a panic
with no payload sent.  A longer header line without CRLF, as in `abc\n*0\r\n`, yields a
protocol error, and the next line is parsed as the start of a frame (in general: lemma
`parser.round_unterminated`). -/
theorem short_line_panics (state : parser.readState) (rest : List Char) :
    parser.round ('\n' :: rest) { state with bulkLen := 0 } = .panic ∧
    parser.round ('\r' :: '\n' :: rest) { state with bulkLen := 0, readingMultiLine := true }
      = .panic ∧
    (parser.parse0 "\n".data).payloads = [] ∧
    (parser.parse0 "\n".data).ending = .panicked ∧
    (parser.parse0 "*1\r\n\r\n".data).payloads = [] ∧
    (parser.parse0 "*1\r\n\r\n".data).ending = .panicked ∧
    (parser.parse0 "abc\n*0\r\n".data).payloads =
      [⟨none, some "protocol error: abc\n"⟩, ⟨some .EmptyMultiBulkReply, none⟩,
        ⟨none, some "EOF"⟩] :=
  ⟨rfl, rfl, rfl, rfl, rfl, rfl, rfl⟩

/-! ## Expiry and the invariant of the time-to-live index (C26, C27) -/

/-- C26 (counterexample): after `Expire("a", 5)` on the empty sample database `ttlMap`
holds `a` while `data` does not; at the time 10 `GetEntity("a")` returns absent at the
check of `data` and `a` is still in `ttlMap` after the call. -/
theorem GetEntity_orphan_counterexample :
    sampleOrphanTtl.ttlMap.Get "a" = some 5 ∧
    (sampleOrphanTtl.GetEntity 10 "a").1 = none ∧
    (sampleOrphanTtl.GetEntity 10 "a").2.ttlMap.Get "a" = some 5 := by
  decide

/-- C26 (amended): for every database state, every time `now` and every key `k` that
is present in `data` and whose `ttlMap` entry is a time earlier than `now`,
`GetEntity(k)` returns absent, after the call `k` is present neither in `ttlMap` nor in
`data`, and the entries of every other key are as before. -/
theorem GetEntity_expired (db : DB) (now t : Time) (k : String)
    (httl : db.ttlMap.Get k = some t) (hlt : t < now)
    (hdata : (db.data.Get k).isSome = true) :
    (db.GetEntity now k).1 = none ∧
    (db.GetEntity now k).2.ttlMap.Get k = none ∧
    (db.GetEntity now k).2.data.Get k = none ∧
    ∀ k', k' ≠ k →
      (db.GetEntity now k).2.ttlMap.Get k' = db.ttlMap.Get k' ∧
      (db.GetEntity now k).2.data.Get k' = db.data.Get k' := by
  obtain ⟨raw, hraw⟩ := Option.isSome_iff_exists.mp hdata
  have hnow : now > t := hlt
  have hget : db.GetEntity now k = (none, db.Remove k) := by
    simp [DB.GetEntity, DB.IsExpired, hraw, httl, hnow]
  rw [hget]
  refine ⟨rfl, ?_, ?_, ?_⟩
  · simp [DB.Remove, dict.Get_Remove]
  · simp [DB.Remove, dict.Get_Remove]
  · intro k' hk'
    simp [DB.Remove, dict.Get_Remove, hk']

/-- C26 (witness): the sample database holding `a` with the expiry time 5, read at the
time 10. -/
theorem GetEntity_expired_witness :
    sampleExpiring.ttlMap.Get "a" = some 5 ∧
    (sampleExpiring.GetEntity 10 "a").1 = none ∧
    (sampleExpiring.GetEntity 10 "a").2.ttlMap.Get "a" = none ∧
    (sampleExpiring.GetEntity 10 "a").2.data.Get "a" = none :=
  ⟨by decide, (GetEntity_expired sampleExpiring 10 5 "a" (by decide) (by decide) (by decide)).1,
    (GetEntity_expired sampleExpiring 10 5 "a" (by decide) (by decide) (by decide)).2.1,
    (GetEntity_expired sampleExpiring 10 5 "a" (by decide) (by decide) (by decide)).2.2.1⟩

/-- C27 (counterexample): the empty sample database satisfies the invariant; `a` is not
in `data`; after `Expire("a", 5)` the key `a` is in `ttlMap` and not in `data`, so the
invariant is broken. -/
theorem Expire_orphan_counterexample :
    DB.TtlInData sampleDB ∧ (sampleDB.data.Get "a").isSome = false ∧
    ((sampleDB.Expire "a" 5).ttlMap.Get "a").isSome = true ∧
    ((sampleDB.Expire "a" 5).data.Get "a").isSome = false ∧
    ¬ DB.TtlInData (sampleDB.Expire "a" 5) := by
  refine ⟨sampleDB_TtlInData, by decide, by decide, by decide, ?_⟩
  intro h
  have := h "a" (by decide)
  revert this
  decide

/-- C27 (amended): `PutEntity`, `PutIfExists`, `PutIfAbsent`, `Remove`, `Removes`,
`Flush`, `Persist`, `IsExpired` and `GetEntity` preserve, for all arguments, the
invariant that every key in `ttlMap` is a key in `data`; `Expire(key, t)` preserves it
when `key` is present in `data`. -/
theorem TtlInData_preserved (db : DB) (h : db.TtlInData) :
    (∀ key entity, (db.PutEntity key entity).2.TtlInData) ∧
    (∀ key entity, (db.PutIfExists key entity).2.TtlInData) ∧
    (∀ key entity, (db.PutIfAbsent key entity).2.TtlInData) ∧
    (∀ key, (db.Remove key).TtlInData) ∧
    (∀ keys, (db.Removes keys).2.TtlInData) ∧
    db.Flush.TtlInData ∧
    (∀ key expireTime, (db.data.Get key).isSome = true → (db.Expire key expireTime).TtlInData) ∧
    (∀ key, (db.Persist key).TtlInData) ∧
    (∀ now key, (db.IsExpired now key).2.TtlInData) ∧
    (∀ now key, (db.GetEntity now key).2.TtlInData) := by
  refine ⟨?_, ?_, ?_, ?_, ?_, ?_, ?_, ?_, ?_, ?_⟩
  · intro key entity k hk
    exact dict.Get_Put_isSome db.data key k entity (h k hk)
  · intro key entity k hk
    exact dict.Get_PutIfExists_isSome db.data key k entity (h k hk)
  · intro key entity k hk
    exact dict.Get_PutIfAbsent_isSome db.data key k entity (h k hk)
  · intro key
    exact DB.TtlInData_Remove db key h
  · intro keys
    exact DB.TtlInData_removesLoop keys db 0 h
  · intro k hk
    simp [DB.Flush, dict.ConcurrentDict.Clear, dict.Get_MakeConcurrent] at hk
  · intro key expireTime hkey k hk
    rcases dict.isSome_of_Get_Put db.ttlMap key k expireTime hk with rfl | hk'
    · exact hkey
    · exact h k hk'
  · intro key k hk
    simp only [DB.Persist, dict.Get_Remove] at hk
    by_cases hkk : k = key
    · simp [hkk] at hk
    · simp only [hkk, if_false] at hk
      exact h k hk
  · intro now key
    exact DB.TtlInData_IsExpired db now key h
  · intro now key
    simp only [DB.GetEntity]
    cases db.data.Get key with
    | none => exact h
    | some raw =>
      simp only
      split <;> exact DB.TtlInData_IsExpired db now key h

/-- C27 (witness): the sample database holding `a` with the expiry time 5: `a` is in
`ttlMap`, and the invariant holds after `Remove` and after `GetEntity`. -/
theorem TtlInData_preserved_witness :
    (sampleExpiring.ttlMap.Get "a").isSome = true ∧
    (∀ key, (sampleExpiring.Remove key).TtlInData) ∧
    (∀ now key, (sampleExpiring.GetEntity now key).2.TtlInData) :=
  have h : sampleExpiring.TtlInData :=
    (TtlInData_preserved (sampleDB.PutEntity "a" ⟨"1"⟩).2
      ((TtlInData_preserved sampleDB sampleDB_TtlInData).1 "a" ⟨"1"⟩)).2.2.2.2.2.2.1
      "a" 5 (by decide)
  ⟨by decide, (TtlInData_preserved sampleExpiring h).2.2.2.1,
    (TtlInData_preserved sampleExpiring h).2.2.2.2.2.2.2.2.2⟩

/-! ## The façade and `GetVer` (C28 to C30) -/

/-- C28 (code): for an authenticated connection outside the multi state whose selected
index is below the number of databases, `MultiDB.Exec` of `SELECT arg` replies OK and
stores the index `i` in the connection for every integer `i` that `arg` parses to: there
is no check against the number of databases.  When `i` is not below that number, every
later command line on the connection, `SELECT` included, is answered with
`ERR DB index is out of range` and changes nothing. -/
theorem select_accepts_any_index (env : Env) (auth : AuthEnv) (mdb : MultiDB) (c : Connection)
    (name arg : String) (i : Int)
    (hname : env.ToLower name = "select")
    (hauth : auth.isAuthenticated c = true) (hmulti : c.InMultiState = false)
    (hrange : c.GetDBIndex < mdb.dbSet.length)
    (harg : strconv.Atoi arg = ⟨i, false⟩) :
    mdb.Exec env auth c [name, arg] = (.OkReply, mdb, c.SelectDB i) ∧
    ((mdb.dbSet.length : Int) ≤ i → ∀ name' args',
      mdb.Exec env auth (c.SelectDB i) (name' :: args') =
        (.ErrReply "ERR DB index is out of range", mdb, c.SelectDB i)) := by
  constructor
  · have h1 : ¬ (c.GetDBIndex ≥ (mdb.dbSet.length : Int)) := by omega
    simp [MultiDB.Exec, MultiDB.execBody, hname, hauth, hmulti, h1, execSelect, harg]
  · intro hi name' args'
    have h2 : (c.SelectDB i).GetDBIndex ≥ (mdb.dbSet.length : Int) := by
      simpa [Connection.SelectDB, Connection.GetDBIndex] using hi
    simp [MultiDB.Exec, MultiDB.execBody, h2]

/-- C28 (witness): `select 7` on a server of two databases. -/
theorem select_accepts_any_index_witness :
    sampleMulti.Exec sampleEnv sampleAuth sampleAuthed ["select", "7"] =
      (.OkReply, sampleMulti, sampleAuthed.SelectDB 7) ∧
    ((sampleMulti.dbSet.length : Int) ≤ 7 → ∀ name' args',
      sampleMulti.Exec sampleEnv sampleAuth (sampleAuthed.SelectDB 7) (name' :: args') =
        (.ErrReply "ERR DB index is out of range", sampleMulti, sampleAuthed.SelectDB 7)) :=
  select_accepts_any_index sampleEnv sampleAuth sampleMulti sampleAuthed "select" "7" 7
    (by decide) (by decide) (by decide) (by decide) (by decide)

/-- C29: for a connection that is not authenticated and whose selected index is below
the number of databases, and a command line whose lower-cased name is neither `auth`
nor `command`, `MultiDB.Exec` replies `NOAUTH Authentication required`; the databases
and the connection come back as they were, so `data`, `ttlMap`, `versionMap`, the
selected index, the multi state, the queue and the watching map are unchanged. -/
theorem Exec_requires_auth (env : Env) (auth : AuthEnv) (mdb : MultiDB) (c : Connection)
    (name : String) (args : List String)
    (hauth : auth.isAuthenticated c = false)
    (hrange : c.GetDBIndex < mdb.dbSet.length)
    (hname : env.ToLower name ≠ "auth" ∧ env.ToLower name ≠ "command") :
    mdb.Exec env auth c (name :: args) =
      (.ErrReply "NOAUTH Authentication required", mdb, c) := by
  have h1 : ¬ (c.GetDBIndex ≥ (mdb.dbSet.length : Int)) := by omega
  simp [MultiDB.Exec, MultiDB.execBody, hauth, h1, hname.1, hname.2]

/-- C29 (witness): `SET a 1` from a connection without a password on a server whose
password is `secret`. -/
theorem Exec_requires_auth_witness :
    sampleAuth.isAuthenticated sampleGuest = false ∧
    sampleMulti.Exec sampleEnv sampleAuth sampleGuest ["SET", "a", "1"] =
      (.ErrReply "NOAUTH Authentication required", sampleMulti, sampleGuest) :=
  ⟨by decide, Exec_requires_auth sampleEnv sampleAuth sampleMulti sampleGuest "SET" ["a", "1"]
    (by decide) (by decide) (by decide)⟩

/-- C30 (code): with `GetVer` registered as in `init` (executor `execGetVersion`, a
prepare function, a nil undo generator, arity 2), for every key `k` the line `GetVer k`
is accepted by `EnqueueCmd` and `execWithLock` answers it with the integer reply of
`GetVersion(k)`, but `GetUndoLogs` panics on it (the call of the nil `undo`); hence
`ExecMulti` on the queue `[GetVer k]`, and `execMulti` on a connection with that queue,
panic when no watched key has changed. -/
theorem GetVer_undo_panics (env : Env) (prepare : PreFunc) (db : DB) (k : String)
    (watching : Option (GoMap Nat))
    (hname : env.ToLower "GetVer" = "getver")
    (hreg : env.cmdTable "getver" = some (getVerCommand prepare))
    (hint : ∀ v, env.IsErrorReply (.IntReply v) = false)
    (hwatch : isWatchingChanged db watching = false) :
    enqueueAccepts env ["GetVer", k] = true ∧
    (db.execWithLock env ["GetVer", k]).1 = .ret (.IntReply (db.GetVersion k)) ∧
    (db.GetUndoLogs env ["GetVer", k]).1 = .panic ∧
    (db.ExecMulti env watching [["GetVer", k]]).1 = .panic ∧
    ∀ c : Connection, c.InMultiState = true → c.queue = [["GetVer", k]] → c.watching = watching →
      (execMulti env db c).1 = .panic := by
  have hacc : enqueueAccepts env ["GetVer", k] = true := by
    simp [enqueueAccepts, EnqueueCmd, hname, hreg, getVerCommand, forbiddenInMulti,
      validateArity]
  have hexec : ∀ db : DB,
      db.execWithLock env ["GetVer", k] = (.ret (.IntReply (db.GetVersion k)), db) := by
    intro db
    simp [DB.execWithLock, hname, hreg, getVerCommand, validateArity, execGetVersion]
  have hundo : ∀ db : DB, db.GetUndoLogs env ["GetVer", k] = (.panic, db) := by
    intro db
    simp [DB.GetUndoLogs, hname, hreg, getVerCommand]
  have hloop : ∀ db : DB, execLoop env db [] [] [["GetVer", k]] = (.panic, db) := by
    intro db
    simp [execLoop, hexec, hundo, hint]
  have hkeys : collectKeys env [] [] [["GetVer", k]] = some ((prepare [k]).1, (prepare [k]).2) := by
    simp [collectKeys, hname, hreg, getVerCommand]
  have hmulti : (db.ExecMulti env watching [["GetVer", k]]).1 = .panic := by
    have hw := isWatchingChanged_RWLocks db watching (prepare [k]).1
      ((prepare [k]).2 ++ (watching.getD []).map Prod.fst)
    rw [hwatch] at hw
    simp [DB.ExecMulti, hkeys, hw, hloop]
  refine ⟨hacc, by rw [hexec], by rw [hundo], hmulti, ?_⟩
  intro c hc hq hw
  simp [execMulti, hc, Connection.GetQueuedCmdLine, Connection.GetWatching, hq, hw, hmulti]

/-- C30 (witness): the sample registry with `GetVer` added, key `a`; and the session
`MULTI`, `GetVer a`, `EXEC` through `MultiDB.Exec`: OK, QUEUED, and for `EXEC` the reply
`UnknownErrReply` of the recovered panic. -/
theorem GetVer_undo_panics_witness :
    (enqueueAccepts getVerEnv ["GetVer", "a"] = true ∧
      (sampleDB.execWithLock getVerEnv ["GetVer", "a"]).1 =
        .ret (.IntReply (sampleDB.GetVersion "a")) ∧
      (sampleDB.GetUndoLogs getVerEnv ["GetVer", "a"]).1 = .panic ∧
      (sampleDB.ExecMulti getVerEnv none [["GetVer", "a"]]).1 = .panic ∧
      ∀ c : Connection, c.InMultiState = true → c.queue = [["GetVer", "a"]] →
        c.watching = none → (execMulti getVerEnv sampleDB c).1 = .panic) ∧
    (sampleMulti.Exec getVerEnv sampleAuth sampleAuthed ["MULTI"]).1 = .OkReply ∧
    (sampleMulti.Exec getVerEnv sampleAuth
      (sampleMulti.Exec getVerEnv sampleAuth sampleAuthed ["MULTI"]).2.2 ["GetVer", "a"]).1
      = .QueuedReply ∧
    (sampleMulti.Exec getVerEnv sampleAuth
      (sampleMulti.Exec getVerEnv sampleAuth
        (sampleMulti.Exec getVerEnv sampleAuth sampleAuthed ["MULTI"]).2.2
        ["GetVer", "a"]).2.2 ["EXEC"]).1 = .UnknownErrReply :=
  ⟨GetVer_undo_panics getVerEnv sampleReadKeys sampleDB "a" none (by decide) (by rfl)
    (fun _ => rfl) (by rfl), rfl, rfl, rfl⟩

/-! ## Lemmas on the linked list -/

theorem wrapInt_succ (x : Int) : wrapInt (wrapInt x + 1) = wrapInt (x + 1) := by
  simp only [wrapInt]; omega

theorem wrapInt_of_nat_lt (n : Nat) (h : (n : Int) < 9223372036854775808) :
    wrapInt n = n := by
  simp only [wrapInt]; omega

theorem list.chainHeap_length {V : Type} (vals : List (list.Any V)) :
    (list.chainHeap vals).length = vals.length := by
  simp [list.chainHeap]

theorem list.chainHeap_getElem? {V : Type} (vals : List (list.Any V)) (i : Nat) :
    (list.chainHeap vals)[i]? =
      if i < vals.length then
        some ⟨vals.getD i .nil, if i = 0 then none else some (i - 1),
          if i + 1 = vals.length then none else some (i + 1)⟩
      else none := by
  simp only [list.chainHeap, List.getElem?_map]
  by_cases h : i < vals.length
  · simp [List.getElem?_range h, h]
  · simp [h, List.getElem?_eq_none (l := List.range vals.length) (by simpa using h)]

theorem list.chain_Add {V : Type} (vals : List (list.Any V)) (v : list.Any V) :
    (list.chain vals).Add v = list.chain (vals ++ [v]) := by
  cases hn : vals.length with
  | zero =>
    have hv : vals = [] := List.length_eq_zero.mp hn
    subst hv
    simp [list.chain, list.LinkedList.Add, list.chainHeap, wrapInt_succ, List.range_succ]
  | succ m =>
    have hlast : (list.chain vals).last = some m := by simp [list.chain, hn]
    have hfirst : (list.chain vals).first = some 0 := by simp [list.chain, hn]
    simp only [list.LinkedList.Add, hlast]
    have hheap : list.update ((list.chain vals).heap ++ [⟨v, some m, none⟩]) m
        (fun nd => { nd with next := some (list.chain vals).heap.length }) =
        list.chainHeap (vals ++ [v]) := by
      apply List.ext_getElem?
      intro i
      have hm : ((list.chain vals).heap ++ [(⟨v, some m, none⟩ : list.node V)])[m]? =
          some ⟨vals.getD m .nil, if m = 0 then none else some (m - 1), none⟩ := by
        rw [List.getElem?_append_left (by simp [list.chain, list.chainHeap_length, hn])]
        simp [list.chain, list.chainHeap_getElem?, hn]
      simp only [list.update, hm, List.getElem?_set, list.chainHeap_getElem?]
      simp only [list.chain, list.chainHeap_length, List.length_append, List.length_singleton, hn]
      by_cases h1 : i = m
      · subst h1
        have : (vals ++ [v])[i]? = vals[i]? :=
          List.getElem?_append_left (show i < vals.length by omega)
        simp [List.getD_eq_getElem?_getD, this]
      · have h1' : ¬ m = i := fun e => h1 e.symm
        simp only [h1', if_false]
        by_cases h2 : i < m + 1
        · rw [List.getElem?_append_left (by simp [list.chainHeap_length, hn]; omega)]
          have : (vals ++ [v])[i]? = vals[i]? :=
            List.getElem?_append_left (show i < vals.length by omega)
          have h3 : i < m + 1 + 1 := by omega
          have h4 : ¬ i + 1 = m + 1 := by omega
          have h5 : ¬ i + 1 = m + 1 + 1 := by omega
          simp only [list.chainHeap_getElem?, hn, h2, h3, h4, h5, if_true, if_false,
            List.getD_eq_getElem?_getD, this]
        · by_cases h3 : i = m + 1
          · subst h3
            rw [List.getElem?_append_right (by simp [list.chainHeap_length, hn])]
            have : (vals ++ [v])[m + 1]? = some v := by
              rw [List.getElem?_append_right (show vals.length ≤ m + 1 by omega)]
              simp [hn]
            simp [list.chainHeap_length, hn, List.getD_eq_getElem?_getD, this]
          · rw [List.getElem?_eq_none (by
              simp [list.chainHeap_length, hn]; omega)]
            have h4 : ¬ i < m + 1 + 1 := by omega
            simp [h4]
    rw [hheap]
    simp [list.chain, hn, wrapInt_succ, list.chainHeap_length]

theorem list.Make_eq_chain {V : Type} (vals : List (list.Any V)) :
    list.Make vals = list.chain vals := by
  induction vals using List.reverseRecOn with
  | nil => simp [list.Make, list.chain, list.chainHeap, wrapInt]
  | append_singleton vs v ih =>
    have : list.Make (vs ++ [v]) = (list.Make vs).Add v := by
      simp [list.Make, List.foldl_append]
    rw [this, ih, list.chain_Add]

theorem list.Adds_Make {V : Type} (vals adds : List (list.Any V)) :
    (list.Make vals).Adds adds = list.Make (vals ++ adds) := by
  simp [list.Make, list.LinkedList.Adds, List.foldl_append]

theorem list.walkNext_chain {V : Type} (vals : List (list.Any V)) (k j : Nat)
    (h : j + k < vals.length) :
    list.walkNext (list.chainHeap vals) k (some j) = .ok (some (j + k)) := by
  induction k generalizing j with
  | zero => rfl
  | succ k ih =>
    have hj : j < vals.length := by omega
    have hne : ¬ j + 1 = vals.length := by omega
    simp only [list.walkNext, list.chainHeap_getElem?, hj, if_true, hne, if_false]
    rw [ih (j + 1) (by omega)]
    congr 2; omega

theorem list.walkPrev_chain {V : Type} (vals : List (list.Any V)) (k j : Nat)
    (hk : k ≤ j) (hj : j < vals.length) :
    list.walkPrev (list.chainHeap vals) k (some j) = .ok (some (j - k)) := by
  induction k generalizing j with
  | zero => rfl
  | succ k ih =>
    have hne : ¬ j = 0 := by omega
    simp only [list.walkPrev, list.chainHeap_getElem?, hj, if_true, hne, if_false]
    rw [ih (j - 1) (by omega) (by omega)]
    congr 2; omega

theorem list.find_chain {V : Type} (vals : List (list.Any V)) (i : Nat)
    (hi : i < vals.length) (hsmall : (vals.length : Int) < 9223372036854775808) :
    (list.chain vals).find i = .ok (some i) := by
  have hsize : (list.chain vals).size = vals.length := wrapInt_of_nat_lt _ hsmall
  have hn0 : ¬ vals.length = 0 := by omega
  simp only [list.LinkedList.find, hsize]
  split
  · simp only [list.chain, hn0, if_false, Int.toNat_ofNat]
    rw [list.walkNext_chain vals i 0 (by omega)]
    simp
  · have e : ((vals.length : Int) - 1 - (i : Int)).toNat = vals.length - 1 - i := by omega
    simp only [list.chain, hn0, if_false, e]
    rw [list.walkPrev_chain vals _ _ (by omega) (by omega)]
    have e2 : vals.length - 1 - (vals.length - 1 - i) = i := by omega
    rw [e2]

theorem list.Get_chain {V : Type} (vals : List (list.Any V)) (i : Nat)
    (hi : i < vals.length) (hsmall : (vals.length : Int) < 9223372036854775808) :
    (list.chain vals).Get i = .ok (.node (some i)) := by
  have hsize : (list.chain vals).size = vals.length := wrapInt_of_nat_lt _ hsmall
  have hg : ¬ ((i : Int) < 0 ∨ (i : Int) ≥ (list.chain vals).size) := by
    rw [hsize]; omega
  simp only [list.LinkedList.Get, hg, if_false, list.find_chain vals i hi hsmall]

theorem list.update_val {V : Type} (heap : List (list.node V)) (ptr q : Nat)
    (f : list.node V → list.node V) (hf : ∀ nd, (f nd).val = nd.val) :
    ((list.update heap ptr f)[q]?).map (fun nd => nd.val) = (heap[q]?).map (fun nd => nd.val) := by
  simp only [list.update]
  cases hp : heap[ptr]? with
  | none => rfl
  | some nd =>
    simp only [List.getElem?_set]
    by_cases hq : ptr = q
    · subst hq
      have hlt : ptr < heap.length := (List.getElem?_eq_some_iff.mp hp).1
      simp [hlt, hp, hf]
    · simp [hq]

theorem list.update_val_next {V : Type} (heap : List (list.node V)) (ptr q : Nat)
    (x : Option Nat) :
    ((list.update heap ptr (fun m => { m with next := x }))[q]?).map (fun nd => nd.val)
      = (heap[q]?).map (fun nd => nd.val) :=
  list.update_val heap ptr q _ (fun _ => rfl)

theorem list.update_val_prev {V : Type} (heap : List (list.node V)) (ptr q : Nat)
    (x : Option Nat) :
    ((list.update heap ptr (fun m => { m with prev := x }))[q]?).map (fun nd => nd.val)
      = (heap[q]?).map (fun nd => nd.val) :=
  list.update_val heap ptr q _ (fun _ => rfl)

theorem list.update_val_both {V : Type} (heap : List (list.node V)) (ptr q : Nat)
    (x y : Option Nat) :
    ((list.update heap ptr (fun m => { m with prev := x, next := y }))[q]?).map
        (fun nd => nd.val)
      = (heap[q]?).map (fun nd => nd.val) :=
  list.update_val heap ptr q _ (fun _ => rfl)

theorem list.removeNode_val {V : Type} (l l' : list.LinkedList V) (ptr q : Nat)
    (h : l.removeNode (some ptr) = .ok l') :
    (l'.heap[q]?).map (fun nd => nd.val) = (l.heap[q]?).map (fun nd => nd.val) := by
  simp only [list.LinkedList.removeNode] at h
  cases hp : l.heap[ptr]? with
  | none => simp [hp] at h
  | some nd =>
    simp only [hp, Except.ok.injEq] at h
    subst h
    cases nd.next <;> cases nd.prev <;>
      simp only [list.update_val_next, list.update_val_prev, list.update_val_both]

theorem list.removeNode_size {V : Type} (l l' : list.LinkedList V) (ptr : Nat)
    (h : l.removeNode (some ptr) = .ok l') : l'.size = wrapInt (l.size - 1) := by
  simp only [list.LinkedList.removeNode] at h
  cases hp : l.heap[ptr]? with
  | none => simp [hp] at h
  | some nd =>
    simp only [hp, Except.ok.injEq] at h
    subst h
    cases nd.next <;> cases nd.prev <;> rfl

theorem list.removeNode_ok {V : Type} (l : list.LinkedList V) (ptr : Nat) (nd : list.node V)
    (h : l.heap[ptr]? = some nd) : ∃ l', l.removeNode (some ptr) = .ok l' := by
  simp only [list.LinkedList.removeNode, h]
  exact ⟨_, rfl⟩

theorem list.Remove_chain {V : Type} (vals : List (list.Any V)) (i : Nat)
    (hi : i < vals.length) (hsmall : (vals.length : Int) < 9223372036854775808) :
    ((list.chain vals).Remove i).1 = .ok (vals.getD i .nil) ∧
    ((list.chain vals).Remove i).2.size = (vals.length : Int) - 1 := by
  have hsize : (list.chain vals).size = vals.length := wrapInt_of_nat_lt _ hsmall
  have hg : ¬ ((i : Int) < 0 ∨ (i : Int) > (list.chain vals).size) := by
    rw [hsize]; omega
  have hnd : (list.chain vals).heap[i]? = some ⟨vals.getD i .nil,
      if i = 0 then none else some (i - 1),
      if i + 1 = vals.length then none else some (i + 1)⟩ := by
    simp [list.chain, list.chainHeap_getElem?, hi]
  obtain ⟨l', hl'⟩ := list.removeNode_ok _ i _ hnd
  have hval := list.removeNode_val _ l' i i hl'
  have hsz := list.removeNode_size _ l' i hl'
  rw [hnd] at hval
  simp only [list.LinkedList.Remove, hg, if_false, list.find_chain vals i hi hsmall, hl']
  constructor
  · cases hq : l'.heap[i]? with
    | none => simp [hq] at hval
    | some nd' =>
      simp only [hq, Option.map_some', Option.some.injEq] at hval
      simp [list.valOf, hq, hval]
  · rw [hsz, hsize]
    simp only [wrapInt]; omega

theorem list.values_chain_from {V : Type} (vals : List (list.Any V)) (fuel j : Nat)
    (hj : j ≤ vals.length) (hfuel : vals.length - j ≤ fuel) :
    list.valuesFrom (list.chainHeap vals) fuel (if j < vals.length then some j else none)
      = vals.drop j := by
  induction fuel generalizing j with
  | zero =>
    have : j = vals.length := by omega
    subst this
    simp [list.valuesFrom]
  | succ fuel ih =>
    by_cases hlt : j < vals.length
    · have hnext : (if j + 1 = vals.length then none else some (j + 1)) =
          (if j + 1 < vals.length then some (j + 1) else none) := by
        by_cases h : j + 1 = vals.length
        · simp [h]
        · have : j + 1 < vals.length := by omega
          simp [h, this]
      simp only [hlt, if_true, list.valuesFrom, list.chainHeap_getElem?, hnext]
      rw [ih (j + 1) (by omega) (by omega)]
      rw [List.getD_eq_getElem?_getD, List.getElem?_eq_getElem hlt]
      simp
    · have : j = vals.length := by omega
      subst this
      simp [list.valuesFrom]

theorem list.values_chain {V : Type} (vals : List (list.Any V)) :
    (list.chain vals).values = vals := by
  have h := list.values_chain_from vals vals.length 0 (by omega) (by omega)
  simp only [List.drop_zero] at h
  have hfirst : (if vals.length = 0 then none else some 0 : Option Nat) =
      (if 0 < vals.length then some 0 else none) := by
    by_cases h0 : vals.length = 0
    · simp [h0]
    · have : 0 < vals.length := by omega
      simp [h0, this]
  simp only [list.LinkedList.values, list.chain, list.chainHeap_length, hfirst]
  exact h

/-! ## Further lemmas on the parser and the linked list -/

/-- A pass of the loop whose pending body length plus 2 is a size `make` refuses
panics: above `2^48 - 2` the sum exceeds `runtime.maxAlloc`, and from `2^63 - 2` on it
wraps to a negative `int`. -/
theorem parser.round_makeslice (input : List Char) (state : parser.readState)
    (h1 : 281474976710654 < state.bulkLen) (h2 : state.bulkLen < 9223372036854775808) :
    parser.round input state = .panic := by
  have h0 : ¬ state.bulkLen = 0 := by omega
  have hw : wrapInt (state.bulkLen + 2) < 0 ∨
      wrapInt (state.bulkLen + 2) > runtime.maxAlloc := by
    simp only [wrapInt, runtime.maxAlloc]
    omega
  simp only [parser.round, parser.readLine, h0, if_false, hw, if_true]

/-- The wire form of one argument of more than `2^48 - 2` bytes (and fewer than `2^63`,
so that its length fits the header) yields no payload: the parser panics when it sizes
the buffer of the body. -/
theorem parser.multiBulk_makeslice (arg : String)
    (h1 : 281474976710654 < arg.data.length) (h2 : arg.data.length < 9223372036854775808) :
    (parser.parse0 (parser.multiBulkWire [arg])).payloads = [] ∧
    (parser.parse0 (parser.multiBulkWire [arg])).ending = .panicked := by
  have hwl : 1 ≤ (parser.multiBulkWire [arg]).length := by
    simp only [parser.multiBulkWire, List.cons_append, List.length_cons]
    omega
  obtain ⟨f, hf⟩ : ∃ f, (parser.multiBulkWire [arg]).length + 2 = f + 1 + 1 + 1 :=
    ⟨(parser.multiBulkWire [arg]).length - 1, by omega⟩
  have hwire : parser.multiBulkWire [arg] =
      '*' :: parser.decimal 1 ++ ['\r', '\n'] ++
        ('$' :: parser.decimal arg.data.length ++ ['\r', '\n'] ++ (arg.data ++ ['\r', '\n'])) := by
    simp [parser.multiBulkWire, parser.bulkWire]
  have hrun : parser.parse0 (parser.multiBulkWire [arg]) = ⟨[], .panicked⟩ := by
    simp only [parser.parse0]
    rw [hf, hwire, parser.parseLoop_succ, parser.round_multiBulkHeader 1 (by decide) (by decide)]
    simp only
    rw [parser.parseLoop_succ,
      parser.round_bulkHeader arg.data.length (by omega) (by omega) _ [] (by decide)]
    simp only
    rw [parser.parseLoop_succ, parser.round_makeslice _ _ (by simp only; omega)
      (by simp only; omega)]
    rfl
  rw [hrun]
  exact ⟨rfl, rfl⟩

/-- The loop of `ForEach` under the consumer of `Contains`, on the arena of a chain:
it compares `val` with the node pointers `j, j + 1, ...`. -/
theorem list.forEachLoop_chain {V : Type} (Equals : list.Any V → list.Any V → Bool)
    (val : list.Any V) (vals : List (list.Any V)) (fuel j : Nat) (i : Int)
    (hj : j ≤ vals.length) (hfuel : vals.length - j ≤ fuel) :
    list.forEachLoop (list.chainHeap vals)
        (fun (_ : Bool) (_ : Int) val2 => (!Equals val val2, Equals val val2))
        fuel false i (if j < vals.length then some j else none) =
      some (.ok ((List.range' j (vals.length - j)).any
        fun p => Equals val (.node (some p)))) := by
  induction fuel generalizing j i with
  | zero =>
    have : j = vals.length := by omega
    subst this
    simp [list.forEachLoop]
  | succ fuel ih =>
    by_cases hlt : j < vals.length
    · obtain ⟨m, hm⟩ : ∃ m, vals.length - j = m + 1 := ⟨vals.length - j - 1, by omega⟩
      have hnext : (if j + 1 = vals.length then none else some (j + 1)) =
          (if j + 1 < vals.length then some (j + 1) else none) := by
        by_cases h : j + 1 = vals.length
        · simp [h]
        · have : j + 1 < vals.length := by omega
          simp [h, this]
      have hm' : vals.length - (j + 1) = m := by omega
      simp only [hlt, if_true, list.forEachLoop, list.chainHeap_getElem?, hnext, hm,
        List.range'_succ, List.any_cons]
      cases hc : Equals val (.node (some j)) with
      | true => simp
      | false =>
        simp only [Bool.not_false, Bool.not_true, Bool.false_eq_true, if_false, Bool.false_or]
        rw [ih (j + 1) _ (by omega) (by omega), hm']
    · have : j = vals.length := by omega
      subst this
      simp [list.forEachLoop]

/-- On a chain `Contains` compares `val` with the node pointers `0 .. n - 1`. -/
theorem list.Contains_chain {V : Type} (Equals : list.Any V → list.Any V → Bool)
    (val : list.Any V) (vals : List (list.Any V)) :
    (list.chain vals).Contains Equals val =
      some (.ok ((List.range vals.length).any fun p => Equals val (.node (some p)))) := by
  have h := list.forEachLoop_chain Equals val vals (vals.length + 1) 0 0 (by omega) (by omega)
  have hfirst : (if vals.length = 0 then none else some 0 : Option Nat) =
      (if 0 < vals.length then some 0 else none) := by
    by_cases h0 : vals.length = 0
    · simp [h0]
    · have : 0 < vals.length := by omega
      simp [h0, this]
  simp only [list.LinkedList.Contains, list.LinkedList.ForEach, list.chain,
    list.chainHeap_length, hfirst]
  rw [h, List.range_eq_range']
  simp

/-- The method `Len` returns the field `size`. -/
theorem list.Len_eq_size {V : Type} (l : list.LinkedList V) : l.Len = l.size := rfl

/-- The size of a chain of fewer than `2^63` values. -/
theorem list.chain_size {V : Type} (vs : List (list.Any V))
    (hsmall : (vs.length : Int) < 9223372036854775808) :
    (list.chain vs).size = (vs.length : Int) :=
  wrapInt_of_nat_lt _ hsmall

/-- Node `i` of a chain holds the `i`-th value. -/
theorem list.chain_heap_val {V : Type} (vs : List (list.Any V)) (i : Nat)
    (hi : i < vs.length) :
    ((list.chain vs).heap[i]?).map (fun nd => nd.val) = vs[i]? := by
  have h : (list.chain vs).heap = list.chainHeap vs := rfl
  rw [h, list.chainHeap_getElem?, if_pos hi, List.getElem?_eq_getElem hi]
  simp only [Option.map_some', List.getD_eq_getElem?_getD, List.getElem?_eq_getElem hi,
    Option.getD_some]

/-! ## The round trip of the parser (C32) -/

/-- C32 (counterexample): the list of one argument of `2^63 - 2` bytes `a`: its length
fits an `int64` header, it is non-empty and does not begin with `$`, and parsing its
wire form yields no payload at all, the parser panics (`bulkLen + 2` wraps).  The same
holds for one argument of `2^48 - 1` bytes: `bulkLen + 2` is above `runtime.maxAlloc`. -/
theorem multiBulk_overflow_counterexample :
    (String.mk (List.replicate 9223372036854775806 'a')).data.length = 9223372036854775806 ∧
    (9223372036854775806 : Int) ≤ 9223372036854775807 ∧
    (String.mk (List.replicate 9223372036854775806 'a')).data.head? = some 'a' ∧
    (parser.parse0 (parser.multiBulkWire
      [String.mk (List.replicate 9223372036854775806 'a')])).payloads = [] ∧
    (parser.parse0 (parser.multiBulkWire
      [String.mk (List.replicate 9223372036854775806 'a')])).ending = .panicked ∧
    (String.mk (List.replicate 281474976710655 'a')).data.length = 281474976710655 ∧
    (String.mk (List.replicate 281474976710655 'a')).data.head? = some 'a' ∧
    (parser.parse0 (parser.multiBulkWire
      [String.mk (List.replicate 281474976710655 'a')])).payloads = [] ∧
    (parser.parse0 (parser.multiBulkWire
      [String.mk (List.replicate 281474976710655 'a')])).ending = .panicked :=
  ⟨List.length_replicate _ _, by decide,
    (List.head?_replicate 'a' 9223372036854775806).trans (if_neg (by decide)),
    (parser.multiBulk_makeslice (String.mk (List.replicate 9223372036854775806 'a'))
      (lt_of_lt_of_eq (by decide) (List.length_replicate _ _).symm)
      (lt_of_eq_of_lt (List.length_replicate _ _) (by decide))).1,
    (parser.multiBulk_makeslice (String.mk (List.replicate 9223372036854775806 'a'))
      (lt_of_lt_of_eq (by decide) (List.length_replicate _ _).symm)
      (lt_of_eq_of_lt (List.length_replicate _ _) (by decide))).2,
    List.length_replicate _ _,
    (List.head?_replicate 'a' 281474976710655).trans (if_neg (by decide)),
    (parser.multiBulk_makeslice (String.mk (List.replicate 281474976710655 'a'))
      (lt_of_lt_of_eq (by decide) (List.length_replicate _ _).symm)
      (lt_of_eq_of_lt (List.length_replicate _ _) (by decide))).1,
    (parser.multiBulk_makeslice (String.mk (List.replicate 281474976710655 'a'))
      (lt_of_lt_of_eq (by decide) (List.length_replicate _ _).symm)
      (lt_of_eq_of_lt (List.length_replicate _ _) (by decide))).2⟩

/-- C32 (amended): for every non-empty list `args` of fewer than `2^31` arguments, each
non-empty, not beginning with `$` and of at most `2^48 - 2` bytes (its length plus 2 is
at most `runtime.maxAlloc`, the largest size `make` accepts), parsing the multi-bulk
wire form of `args` yields exactly the multi-bulk reply of `args` followed by the
payload of the error `EOF`, and the parser closes the channel. -/
theorem multiBulk_wire_parses (args : List String) (hne : args ≠ [])
    (hn : args.length < 2147483648)
    (hgood : ∀ a ∈ args, a.data ≠ [] ∧ a.data.head? ≠ some '$' ∧
      (a.data.length : Int) + 2 ≤ runtime.maxAlloc) :
    (parser.parse0 (parser.multiBulkWire args)).payloads =
      [⟨some (.MultiBulkReply args), none⟩, ⟨none, some "EOF"⟩] ∧
    (parser.parse0 (parser.multiBulkWire args)).ending = .closed :=
  parser.multiBulk_roundtrip args hne hn hgood

/-- C32 (witness): `SET k a\r\nb`, whose last argument contains CR and LF. -/
theorem multiBulk_wire_parses_witness :
    parser.multiBulkWire ["SET", "k", "a\r\nb"] =
      "*3\r\n$3\r\nSET\r\n$1\r\nk\r\n$4\r\na\r\nb\r\n".data ∧
    (parser.parse0 (parser.multiBulkWire ["SET", "k", "a\r\nb"])).payloads =
      [⟨some (.MultiBulkReply ["SET", "k", "a\r\nb"]), none⟩, ⟨none, some "EOF"⟩] ∧
    (parser.parse0 (parser.multiBulkWire ["SET", "k", "a\r\nb"])).ending = .closed :=
  ⟨by decide,
    (multiBulk_wire_parses ["SET", "k", "a\r\nb"] (by decide) (by decide) (by decide)).1,
    (multiBulk_wire_parses ["SET", "k", "a\r\nb"] (by decide) (by decide) (by decide)).2⟩

/-! ## The linked list (C31, C33, C34) -/

/-- C31 (code): on the list built by `Make(vals...)` followed by `Add` of each of `adds`
(fewer than `2^63` elements in all), whose `Len()` is the number of values and whose
values in order are `vals ++ adds`, for every `i < Len()` the call `Get(i)` returns the
node at position `i` (the pointer `find(index)` hands back), not the value: that node
holds the `i`-th value, which is what `Remove(i)` returns. -/
theorem Get_returns_node {V : Type} (vals adds : List (list.Any V)) (i : Nat)
    (hi : i < (vals ++ adds).length)
    (hsmall : ((vals ++ adds).length : Int) < 9223372036854775808) :
    ((list.Make vals).Adds adds).Len = (vals ++ adds).length ∧
    ((list.Make vals).Adds adds).values = vals ++ adds ∧
    ((list.Make vals).Adds adds).Get i = .ok (.node (some i)) ∧
    (((list.Make vals).Adds adds).heap[i]?).map (fun nd => nd.val) = (vals ++ adds)[i]? ∧
    (((list.Make vals).Adds adds).Remove i).1 = .ok ((vals ++ adds).getD i .nil) := by
  rw [list.Adds_Make, list.Make_eq_chain, list.Len_eq_size]
  exact ⟨list.chain_size _ hsmall, list.values_chain _, list.Get_chain _ i hi hsmall,
    list.chain_heap_val _ i hi, (list.Remove_chain _ i hi hsmall).1⟩

/-- C31 (witness): on `Make("a", "b")`, of length 2, `Get(0)` is the node 0, which
holds `"a"`; `Remove(0)` returns `"a"` and `Range(0, 1)` is `["a"]`. -/
theorem Get_returns_node_witness :
    sampleList.Len = 2 ∧
    sampleList.values = [.val "a", .val "b"] ∧
    sampleList.Get 0 = .ok (.node (some 0)) ∧
    (sampleList.heap[0]?).map (fun nd => nd.val) = some (.val "a") ∧
    (sampleList.Remove 0).1 = .ok (.val "a") ∧
    sampleList.Range 0 1 = some (.ok [.val "a"]) :=
  ⟨(Get_returns_node [.val "a", .val "b"] [] 0 (by decide) (by decide)).1,
    (Get_returns_node [.val "a", .val "b"] [] 0 (by decide) (by decide)).2.1,
    (Get_returns_node [.val "a", .val "b"] [] 0 (by decide) (by decide)).2.2.1,
    (Get_returns_node [.val "a", .val "b"] [] 0 (by decide) (by decide)).2.2.2.1,
    (Get_returns_node [.val "a", .val "b"] [] 0 (by decide) (by decide)).2.2.2.2,
    rfl⟩

/-- C33 (code): on every list of non-negative size, `Remove(index)` panics with
`index out of bound`, the list unchanged, when `index < 0` or `index > Len()`; the index
`Len()` itself passes the guard: `find` returns `last`, so on an empty list `Remove(Len())`
panics with a nil dereference, and otherwise it is `RemoveLast()`. -/
theorem Remove_at_Len {V : Type} (l : list.LinkedList V) (hsize : 0 ≤ l.size) :
    (∀ index, index < 0 ∨ index > l.size → l.Remove index = (.error "index out of bound", l)) ∧
    (l.last = none → l.Remove l.Len = (.error list.nilDereference, l)) ∧
    (l.last ≠ none → l.Remove l.Len = l.RemoveLast) := by
  have hfind : l.find l.size = .ok l.last := by
    have h2 : ¬ l.size < Int.tdiv l.size 2 := by
      rw [Int.tdiv_eq_ediv hsize (by decide)]
      omega
    have h3 : (l.size - 1 - l.size).toNat = 0 := by omega
    simp only [list.LinkedList.find, h2, if_false, h3, list.walkPrev]
  have hg : ¬ (l.size < 0 ∨ l.size > l.size) := by omega
  refine ⟨?_, ?_, ?_⟩
  · intro index hidx
    simp only [list.LinkedList.Remove, hidx, if_true]
  · intro hlast
    simp only [list.LinkedList.Remove, list.LinkedList.Len, hg, if_false, hfind, hlast,
      list.LinkedList.removeNode]
  · intro hlast
    obtain ⟨p, hp⟩ := Option.ne_none_iff_exists'.mp hlast
    simp only [list.LinkedList.Remove, list.LinkedList.Len, hg, if_false, hfind, hp,
      list.LinkedList.RemoveLast]

/-- C33 (witness): on `Make("a", "b")`, `Remove(2)` returns `"b"` and leaves `["a"]`,
`Remove(3)` panics with `index out of bound`, `Remove(0)` returns `"a"` and leaves
`["b"]`; on the empty list `Remove(0)` panics with a nil dereference. -/
theorem Remove_at_Len_witness :
    sampleList.Len = 2 ∧ sampleList.values = [.val "a", .val "b"] ∧
    (sampleList.Remove 2).1 = .ok (.val "b") ∧
    (sampleList.Remove 2).2.Len = 1 ∧ (sampleList.Remove 2).2.values = [.val "a"] ∧
    sampleList.Remove sampleList.Len = sampleList.RemoveLast ∧
    sampleList.Remove 3 = (.error "index out of bound", sampleList) ∧
    (sampleList.Remove 0).1 = .ok (.val "a") ∧ (sampleList.Remove 0).2.values = [.val "b"] ∧
    (list.Make ([] : List (list.Any String))).Remove 0 =
      (.error list.nilDereference, list.Make []) :=
  ⟨rfl, rfl, rfl, rfl, rfl, (Remove_at_Len sampleList (by decide)).2.2 (by decide),
    (Remove_at_Len sampleList (by decide)).1 3 (by decide), rfl, rfl, rfl⟩

/-- C34 (code): for every equality `Equals`, every list `Make(vals...)` and every `val`,
`Contains(val)` is true exactly when `Equals(val, n)` holds for one of the node pointers
`n` of the list: `ForEach` hands the node, not its value, to the consumer.  On
`Make("a", "b")` under the equality `==`, `Contains("a")` is false, `Contains` of the
pointer to node 1 is true, and `RemoveByVal("a", 1)` removes one element. -/
theorem Contains_compares_nodes {V : Type} (Equals : list.Any V → list.Any V → Bool)
    (vals : List (list.Any V)) (val : list.Any V) :
    (list.Make vals).values = vals ∧
    (list.Make vals).Contains Equals val =
      some (.ok ((List.range vals.length).any fun p => Equals val (.node (some p)))) ∧
    sampleList.values = [.val "a", .val "b"] ∧
    sampleList.Contains list.sampleEquals (.val "a") = some (.ok false) ∧
    sampleList.Contains list.sampleEquals (.node (some 1)) = some (.ok true) ∧
    (sampleList.RemoveByVal list.sampleEquals (.val "a") 1).map (fun r => (r.1, r.2.values))
      = some (.ok 1, [.val "b"]) := by
  refine ⟨?_, ?_, rfl, rfl, rfl, rfl⟩
  · rw [list.Make_eq_chain, list.values_chain]
  · rw [list.Make_eq_chain, list.Contains_chain]

end Gedis
